import Mathlib

/-!
A shallow embedding of the `huffman-rs` Huffman codec (src/queue.rs, src/coding.rs,
src/cli.rs) together with proofs about it.

Conventions of the embedding:
* Machine integers (`u8`, `u32`, `u64`, `u128`, `usize`) are modelled as `Nat`;
  wherever a narrowing cast or a potential wraparound occurs in the source, an
  explicit `% 2 ^ w` appears in the embedding.  Input bytes are `Fin 256`.
* `io::Write` sinks are modelled by returning the list of `write_all` calls the
  code performs, each call being the list of bytes it hands to the sink.
* `io::Read` sources are modelled as the list of bytes still unread.
* Loops whose termination is not structural are given an explicit fuel argument
  that provably dominates the iteration count of the source loop; each such
  definition documents why the chosen fuel suffices.  Runtime panics (index out
  of bounds, arithmetic underflow) are modelled as `Except.error`.
-/

/-! ## src/queue.rs : PriorityQueue -/

/-- A priority queue, `src/queue.rs`.  The backing `Vec<(K, V)>` is a list kept
sorted in descending order of `K`. -/
structure PriorityQueue (K V : Type) where
  data : List (K × V)

/-- The loop of `slice::binary_search_by` as used by `PriorityQueue::insert`
with the reversed comparator `|(probe_k, _)| key.cmp(probe_k)`: `Less` moves
`left` past `mid`, `Greater` moves `right` down to `mid`, `Equal` returns
`Ok(mid)`.  `insert` collapses `Ok(i)` and `Err(i)` to `i`, so the loop here
returns the index directly.  The fuel dominates the iteration count because the
width `right - left` strictly shrinks every iteration.  The probe reads only
keys, so the loop is phrased over the projected key list; the `getD` default is
never consulted since `mid < right ≤ keys.length` at every reachable call. -/
def binarySearchGo {K : Type} [LinearOrder K] (key : K) (keys : List K) :
    Nat → Nat → Nat → Nat
  | 0, left, _ => left
  | fuel + 1, left, right =>
    if left < right then
      if key < keys.getD (left + (right - left) / 2) key then
        binarySearchGo key keys fuel (left + (right - left) / 2 + 1) right
      else if keys.getD (left + (right - left) / 2) key < key then
        binarySearchGo key keys fuel left (left + (right - left) / 2)
      else left + (right - left) / 2
    else left

/-- Index at which `PriorityQueue::insert` places a new key: the collapsed
result of the reverse-order binary search over the current keys. -/
def PriorityQueue.searchIndex {K V : Type} [LinearOrder K]
    (q : PriorityQueue K V) (key : K) : Nat :=
  binarySearchGo key (q.data.map Prod.fst) q.data.length 0 q.data.length

/-- `PriorityQueue::insert`: binary-search for the position, then insert. -/
def PriorityQueue.insert {K V : Type} [LinearOrder K]
    (q : PriorityQueue K V) (key : K) (value : V) : PriorityQueue K V :=
  ⟨q.data.insertIdx (q.searchIndex key) (key, value)⟩

/-- `PriorityQueue::remove`: `Vec::pop`, i.e. remove and return the last
element; `None` on an empty queue.  Returned together with the new queue state
since the embedding is pure. -/
def PriorityQueue.remove {K V : Type} (q : PriorityQueue K V) :
    Option ((K × V) × PriorityQueue K V) :=
  match q.data.getLast? with
  | none => none
  | some x => some (x, ⟨q.data.dropLast⟩)

/-- `PriorityQueue::remove_two`: two pops guarded by a length check.  The inner
`none` arms model the `unwrap`s, which the guard makes unreachable. -/
def PriorityQueue.remove_two {K V : Type} (q : PriorityQueue K V) :
    Option (((K × V) × (K × V)) × PriorityQueue K V) :=
  if q.data.length < 2 then none
  else
    match q.remove with
    | none => none
    | some (a, q1) =>
      match q1.remove with
      | none => none
      | some (b, q2) => some ((a, b), q2)

/-- Modelled from the spec: `PriorityQueue::from_data` is called by
`HuffTree::from_freqs` but its definition is absent from the sources (only
`new`, `with_capacity`, `remove`, `insert` and `remove_two` appear in
src/queue.rs).  Per spec §4.3 it seeds the queue with the given (weight, value)
entries; the caller hands them over already sorted in descending weight
order. -/
def PriorityQueue.from_data {K V : Type} (data : List (K × V)) : PriorityQueue K V :=
  ⟨data⟩

/-! ## src/coding.rs : Frequencies -/

/-- `Frequencies`: the sparse `(scaled_count, byte)` pair list (both `u8` in the
source, hence `Nat` values below 256 whenever produced by the code). -/
structure Frequencies where
  pairs : List (Nat × Nat)
deriving DecidableEq, Repr

/-- The accumulation loop of `Frequencies::count_bytes`: bump the 256-slot
occurrence counter of each byte, propagating the first source error. -/
def countBytesAcc {ε : Type} : List (Except ε (Fin 256)) → List Nat →
    Except ε (List Nat)
  | [], acc => .ok acc
  | mb :: rest, acc =>
    match mb with
    | .error e => .error e
    | .ok b => countBytesAcc rest (acc.set b.val (acc.getD b.val 0 + 1))

/-- `Frequencies::count_bytes`.  `acc.iter().max().unwrap()` is modelled with
`getD 0`: `acc` always has 256 entries, so `max?` is always `some` (proved at
claim C10).  The `as u8` narrowing of the scaled count is the explicit
`% 2 ^ 8`. -/
def Frequencies.count_bytes (ε : Type) (bytes : List (Except ε (Fin 256))) :
    Except ε Frequencies :=
  match countBytesAcc bytes (List.replicate 256 0) with
  | .error e => .error e
  | .ok acc =>
    let max := acc.max?.getD 0
    let pairs := (List.range 256).filterMap fun byte =>
      let count := acc.getD byte 0
      if count ≠ 0 then some (count * 255 / max % 2 ^ 8, byte) else none
    .ok ⟨pairs.insertionSort fun p q => q.1 ≤ p.1⟩

/-- `Frequencies::write`: 4 header bytes (the pair count as a big-endian `u32`)
followed by `[byte, count]` for each pair, in table order.  Returns the bytes
handed to the sink. -/
def Frequencies.write (f : Frequencies) : List Nat :=
  let len := f.pairs.length % 2 ^ 32
  [len / 2 ^ 24 % 2 ^ 8, len / 2 ^ 16 % 2 ^ 8, len / 2 ^ 8 % 2 ^ 8, len % 2 ^ 8]
    ++ f.pairs.flatMap fun p => [p.2, p.1]

/-- The pair-reconstruction loop of `Frequencies::read`
(`while i < pair_buf.len() - 1 { pairs.push((pair_buf[i+1], pair_buf[i])); i += 2 }`).
An out-of-range index is a panic, modelled as an error.  The fuel dominates the
iteration count because `i` grows by 2 each iteration while `bound` is fixed. -/
def readPairsGo (buf : List Nat) (bound : Nat) :
    Nat → Nat → List (Nat × Nat) → Except String (List (Nat × Nat))
  | 0, _, acc => .ok acc
  | fuel + 1, i, acc =>
    if i < bound then
      match buf[i + 1]?, buf[i]? with
      | some c, some b => readPairsGo buf bound fuel (i + 2) (acc ++ [(c, b)])
      | _, _ => .error "panic: index out of bounds"
    else .ok acc

/-- `Frequencies::read` on a byte source, returning the parsed table and the
unread remainder of the source.  Short reads fail like `read_exact`.  When the
header announces zero pairs, `pair_buf.len() - 1` underflows: the subtraction
panics in debug builds, and in release builds the wrapped bound makes the first
`pair_buf[i + 1]` access panic; either way `read` dies, modelled as an error. -/
def Frequencies.read (input : List Nat) : Except String (Frequencies × List Nat) :=
  if 4 ≤ input.length then
    let num := input.getD 0 0 <<< 24 ||| input.getD 1 0 <<< 16 |||
      input.getD 2 0 <<< 8 ||| input.getD 3 0
    let rest := input.drop 4
    if num * 2 ≤ rest.length then
      let pair_buf := rest.take (num * 2)
      if pair_buf.length = 0 then .error "panic: pair_buf.len() - 1 underflows"
      else
        match readPairsGo pair_buf (pair_buf.length - 1) pair_buf.length 0 [] with
        | .ok pairs => .ok (⟨pairs⟩, rest.drop (num * 2))
        | .error e => .error e
    else .error "read_exact: short read"
  else .error "read_exact: short read"

/-! ## src/coding.rs : HuffTree -/

/-- `HuffTree`: branch, known byte, or the end-of-transmission sentinel. -/
inductive HuffTree : Type where
  | Branch : HuffTree → HuffTree → HuffTree
  | Known : Nat → HuffTree
  | EOF : HuffTree
deriving DecidableEq, Repr, Inhabited

/-- Node count of a tree; drives the fuel of stack-based traversals. -/
def HuffTree.size : HuffTree → Nat
  | .Branch l r => l.size + r.size + 1
  | .Known _ => 1
  | .EOF => 1

/-- The `while let Some(...) = q.remove_two()` merge loop of
`HuffTree::from_freqs`.  Each iteration removes two entries and inserts one, so
the queue length strictly decreases and `q.data.length` iterations dominate the
loop (claim C9 proves the loop in fact runs exactly `length - 1` times). -/
def mergeGo : Nat → PriorityQueue Nat HuffTree → PriorityQueue Nat HuffTree
  | 0, q => q
  | fuel + 1, q =>
    match q.remove_two with
    | none => q
    | some (((count1, tree1), (count2, tree2)), q2) =>
      mergeGo fuel (q2.insert (count1 + count2) (.Branch tree1 tree2))

/-- `HuffTree::from_freqs`: seed the queue from the pairs, add the weight-0
sentinel, merge until one entry remains, and take it.  The final
`q.remove().unwrap()` is modelled by the `match`; its `none` arm is unreachable
because the loop always leaves exactly one entry (claim C9). -/
def HuffTree.from_freqs (f : Frequencies) : HuffTree :=
  let pairs := f.pairs.map fun p => (p.1, HuffTree.Known p.2)
  let q := PriorityQueue.from_data pairs
  let q1 := q.insert 0 HuffTree.EOF
  match (mergeGo q1.data.length q1).remove with
  | some (x, _) => x.2
  | none => HuffTree.EOF

/-! ## src/coding.rs : HuffWriter -/

/-- `write_u128_trimmed`: emit the `(significant - 1) / 8 + 1` low bytes of
`num`, least significant byte first, as one `write_all` call — or no call at
all when `significant == 0`.  The result is the list of sink calls. -/
def write_u128_trimmed (num significant : Nat) : List (List Nat) :=
  if significant = 0 then []
  else [(List.range ((significant - 1) / 8 + 1)).map fun k => num / 2 ^ (8 * k) % 2 ^ 8]

/-- `write_u128`: all 16 bytes, least significant first. -/
def write_u128 (num : Nat) : List (List Nat) :=
  write_u128_trimmed num 128

/-- `HuffWriter`: the per-byte code table (an array of 256 `(bits, len)` pairs,
modelled as a function), the sentinel code, and the bit accumulator. -/
structure HuffWriter where
  map : Nat → Nat × Nat
  eof : Nat × Nat
  shift : Nat
  scratch : Nat

/-- The explicit-stack traversal of `HuffWriter::from_tree`.  The source pushes
`left` then `right` and pops from the `Vec`'s tail, so `right` is processed
first: the stack is a list with its head as the top.  Fuel: each iteration pops
one node and pushes only that node's children, so the total node count of the
stack's trees strictly decreases; `HuffTree.size` of the root dominates it.
Rust would panic on `1 << shift` at depths ≥ 128; the `Nat` model is exact for
trees of code length < 128, which is proved for every tree the program builds
(see `from_freqs_maxCodeLen`). -/
def fromTreeGo : Nat → List (HuffTree × Nat × Nat) → (Nat → Nat × Nat) →
    Nat × Nat → (Nat → Nat × Nat) × (Nat × Nat)
  | 0, _, map, eof => (map, eof)
  | _ + 1, [], map, eof => (map, eof)
  | fuel + 1, (t, bits, shift) :: rest, map, eof =>
    match t with
    | .Branch left right =>
      fromTreeGo fuel
        ((right, (1 <<< shift) ||| bits, shift + 1) :: (left, bits, shift + 1) :: rest)
        map eof
    | .EOF => fromTreeGo fuel rest map (bits, shift)
    | .Known byte => fromTreeGo fuel rest (fun b => if b = byte then (bits, shift) else map b) eof

/-- `HuffWriter::from_tree`: build the code table by traversal; accumulator
starts empty. -/
def HuffWriter.from_tree (t : HuffTree) : HuffWriter :=
  let me := fromTreeGo t.size [(t, 0, 0)] (fun _ => (0, 0)) (0, 0)
  ⟨me.1, me.2, 0, 0⟩

/-- `HuffWriter::write_bits`: OR the code into the accumulator at the current
shift, and flush one 128-bit block when 128 or more bits are pending.  The
second component lists the sink calls performed (never more than one, claim
C3).  `bits` is a `u128`, hence the normalisations by `% 2 ^ 128`. -/
def HuffWriter.write_bits (w : HuffWriter) (bits bit_size : Nat) :
    HuffWriter × List (List Nat) :=
  let bits := bits % 2 ^ 128
  let scratch := w.scratch ||| bits <<< w.shift % 2 ^ 128
  let shift := w.shift + bit_size
  if 128 ≤ shift then
    let shift2 := shift - 128
    ({ w with shift := shift2, scratch := bits >>> (bit_size - shift2) }, write_u128 scratch)
  else
    ({ w with shift := shift, scratch := scratch }, [])

/-- `HuffWriter::write_byte`: look the byte's code up and feed it to
`write_bits`. -/
def HuffWriter.write_byte (w : HuffWriter) (byte : Fin 256) :
    HuffWriter × List (List Nat) :=
  let c := w.map byte.val
  w.write_bits c.1 c.2

/-- `HuffWriter::end_transmission`: write the sentinel code through the normal
path, then flush the pending `shift` bits as a trimmed write (no sink call at
all when `shift == 0`). -/
def HuffWriter.end_transmission (w : HuffWriter) : HuffWriter × List (List Nat) :=
  let step := w.write_bits w.eof.1 w.eof.2
  (step.1, step.2 ++ write_u128_trimmed step.1.scratch step.1.shift)

/-! ## src/coding.rs : HuffReader -/

/-- The `while i < 8` loop of `HuffReader::feed`.  The state is the current
subtree, the remaining byte value, the bit counter `i` and the bytes written so
far.  A `Known` leaf emits its byte and resets to the root *without* consuming
a bit; `EOF` returns `false` immediately.  The loop terminates only when the
root is not itself a `Known` leaf (a `Known` root makes the source loop emit
for ever); fuel 17 dominates every terminating run, since between consecutive
values of `i` at most one reset can occur (after a reset the current subtree is
the root, which then consumes a bit or returns).  `none` marks the diverging
case, which `feed_root_shape` below proves unreachable for the trees the
program builds. -/
def feedGo (top : HuffTree) : Nat → HuffTree → Nat → Nat → List Nat →
    Option (List Nat × HuffTree × Bool)
  | 0, _, _, _, _ => none
  | fuel + 1, cur, byte, i, acc =>
    if i < 8 then
      match cur with
      | .Branch left right =>
        feedGo top fuel (if byte % 2 = 0 then left else right) (byte / 2) (i + 1) acc
      | .Known b => feedGo top fuel top byte i (acc ++ [b])
      | .EOF => some (acc, .EOF, false)
    else some (acc, cur, true)

/-- `HuffReader::feed` on one input byte: the result is the bytes written to
the sink, the reader's new position, and the `Ok(bool)` continue flag. -/
def HuffReader.feed (top cur : HuffTree) (byte : Nat) :
    Option (List Nat × HuffTree × Bool) :=
  feedGo top 17 cur byte 0 []

/-! ## src/cli.rs : encode / decode -/

/-- The encode loop of `cli::encode`: feed every input byte to the writer,
collecting the sink calls. -/
def encodeBody (w : HuffWriter) (input : List (Fin 256)) :
    HuffWriter × List (List Nat) :=
  input.foldl (fun st b =>
    ((st.1.write_byte b).1, st.2 ++ (st.1.write_byte b).2)) (w, [])

/-- `cli::encode` on an in-memory byte source: count, write the header, then
stream the codes and the end-of-transmission flush.  The result is the full
byte stream handed to the output sink (header then body).  The `error` arm
propagates a source error, which a pure list source never produces. -/
def cliEncode (input : List (Fin 256)) : Except Unit (List Nat) :=
  match Frequencies.count_bytes Unit (input.map Except.ok) with
  | .error e => .error e
  | .ok freqs =>
    let tree := HuffTree.from_freqs freqs
    let w0 := HuffWriter.from_tree tree
    let body := encodeBody w0 input
    let fin := body.1.end_transmission
    .ok (freqs.write ++ (body.2 ++ fin.2).flatten)

/-- The decode loop of `cli::decode`: feed body bytes until `feed` reports
stop or the source is exhausted.  `none` marks the unreachable diverging case
of `feed`. -/
def decodeLoop (top : HuffTree) : HuffTree → List Nat → List Nat → Option (List Nat)
  | _, [], out => some out
  | cur, b :: rest, out =>
    match HuffReader.feed top cur b with
    | none => none
    | some (outs, cur2, cont) =>
      if cont then decodeLoop top cur2 rest (out ++ outs) else some (out ++ outs)

/-- `cli::decode` on an in-memory byte source: parse the header, rebuild the
tree, and run the feed loop over the remaining bytes.  The bytes written to the
output sink are returned; the `"diverges"` arm marks the unreachable
nonterminating case of `feed`. -/
def cliDecode (input : List Nat) : Except String (List Nat) :=
  match Frequencies.read input with
  | .error e => .error e
  | .ok (freqs, body) =>
    let tree := HuffTree.from_freqs freqs
    match decodeLoop tree tree body [] with
    | some out => .ok out
    | none => .error "diverges"

/-! ## Binary search and queue order lemmas -/

/-- In a descending-sorted key list, later entries are no larger. -/
theorem sorted_getD_le {K : Type} [LinearOrder K] {keys : List K} {d : K}
    (hs : keys.Pairwise fun a b => b ≤ a) {i j : Nat} (hij : i ≤ j)
    (hj : j < keys.length) : keys.getD j d ≤ keys.getD i d := by
  rcases Nat.eq_or_lt_of_le hij with rfl | hlt
  · exact le_refl _
  · rw [List.getD_eq_getElem _ _ hj, List.getD_eq_getElem _ _ (lt_trans hlt hj)]
    exact List.pairwise_iff_getElem.1 hs i j (lt_trans hlt hj) hj hlt

/-- Full specification of the reverse-order binary search: on a
descending-sorted key list, the returned index splits the list into a prefix of
keys at least `key` and a suffix of keys at most `key`. -/
theorem binarySearchGo_spec {K : Type} [LinearOrder K] (key : K) (keys : List K)
    (hs : keys.Pairwise fun a b => b ≤ a) :
    ∀ fuel left right, right ≤ keys.length → left ≤ right → right - left ≤ fuel →
    (∀ j, j < left → key ≤ keys.getD j key) →
    (∀ j, right ≤ j → j < keys.length → keys.getD j key ≤ key) →
    left ≤ binarySearchGo key keys fuel left right ∧
    binarySearchGo key keys fuel left right ≤ right ∧
    (∀ j, j < binarySearchGo key keys fuel left right → key ≤ keys.getD j key) ∧
    (∀ j, binarySearchGo key keys fuel left right ≤ j → j < keys.length →
      keys.getD j key ≤ key) := by
  intro fuel
  induction fuel with
  | zero =>
    intro left right hr hlr hfuel hL hR
    have heq : left = right := by omega
    subst heq
    exact ⟨le_refl _, le_refl _, hL, fun j hj => hR j hj⟩
  | succ fuel ih =>
    intro left right hr hlr hfuel hL hR
    simp only [binarySearchGo]
    by_cases hlt : left < right
    · simp only [hlt, if_true]
      have hmidlt : left + (right - left) / 2 < right := by omega
      have hmidlen : left + (right - left) / 2 < keys.length := lt_of_lt_of_le hmidlt hr
      by_cases h1 : key < keys.getD (left + (right - left) / 2) key
      · simp only [h1, if_true]
        have hL2 : ∀ j, j < left + (right - left) / 2 + 1 → key ≤ keys.getD j key := by
          intro j hj
          by_cases hjl : j < left
          · exact hL j hjl
          · exact le_trans (le_of_lt h1)
              (sorted_getD_le hs (by omega) hmidlen)
        have := ih (left + (right - left) / 2 + 1) right hr (by omega) (by omega) hL2 hR
        exact ⟨le_trans (by omega) this.1, this.2.1, this.2.2.1, this.2.2.2⟩
      · by_cases h2 : keys.getD (left + (right - left) / 2) key < key
        · simp only [h1, h2, if_true, if_false]
          have hR2 : ∀ j, left + (right - left) / 2 ≤ j → j < keys.length →
              keys.getD j key ≤ key := by
            intro j hj hjlen
            exact le_trans (sorted_getD_le hs hj hjlen) (le_of_lt h2)
          have := ih left (left + (right - left) / 2) (by omega) (by omega) (by omega) hL hR2
          refine ⟨this.1, le_trans this.2.1 (le_of_lt hmidlt), this.2.2.1, ?_⟩
          intro j hj hjlen
          exact this.2.2.2 j hj hjlen
        · simp only [h1, h2, if_false]
          have heq : keys.getD (left + (right - left) / 2) key = key := le_antisymm
            (not_lt.1 h1) (not_lt.1 h2)
          refine ⟨by omega, le_of_lt hmidlt, ?_, ?_⟩
          · intro j hj
            calc key = keys.getD (left + (right - left) / 2) key := heq.symm
              _ ≤ keys.getD j key := sorted_getD_le hs (by omega) hmidlen
          · intro j hj hjlen
            calc keys.getD j key ≤ keys.getD (left + (right - left) / 2) key :=
                sorted_getD_le hs hj hjlen
              _ = key := heq
    · simp only [hlt, if_false]
      have heq : left = right := by omega
      subst heq
      exact ⟨le_refl _, le_refl _, hL, fun j hj => hR j hj⟩

/-- `insertIdx` as a take/cons/drop split. -/
theorem insertIdx_eq_take_cons_drop {α : Type} (x : α) :
    ∀ (i : Nat) (l : List α), i ≤ l.length →
      l.insertIdx i x = l.take i ++ x :: l.drop i := by
  intro i
  induction i with
  | zero => intro l _; simp
  | succ i ih =>
    intro l hl
    cases l with
    | nil => simp at hl
    | cons a t =>
      simp only [List.insertIdx_succ_cons, List.take_succ_cons, List.drop_succ_cons,
        List.cons_append]
      rw [ih t (by simpa using hl)]

/-- The sortedness invariant of the queue: keys descending. -/
def QSorted {K V : Type} [LinearOrder K] (q : PriorityQueue K V) : Prop :=
  q.data.Pairwise fun a b => b.1 ≤ a.1

/-- Specification of the index chosen by `insert`'s binary search. -/
theorem searchIndex_spec {K V : Type} [LinearOrder K] (q : PriorityQueue K V)
    (key : K) (hs : QSorted q) :
    q.searchIndex key ≤ q.data.length ∧
    (∀ j, j < q.searchIndex key → ∀ h : j < q.data.length, key ≤ (q.data.get ⟨j, h⟩).1) ∧
    (∀ j, q.searchIndex key ≤ j → ∀ h : j < q.data.length, (q.data.get ⟨j, h⟩).1 ≤ key) := by
  have hsk : (q.data.map Prod.fst).Pairwise fun a b => b ≤ a :=
    List.pairwise_map.2 hs
  have hspec := binarySearchGo_spec key (q.data.map Prod.fst) hsk q.data.length 0
    q.data.length (by simp) (Nat.zero_le _) (by omega)
    (fun j hj => absurd hj (Nat.not_lt_zero j))
    (by intro j h1 h2; simp only [List.length_map] at h2; exact absurd h2 (by omega))
  have hlen : (q.data.map Prod.fst).length = q.data.length := by simp
  refine ⟨by rw [PriorityQueue.searchIndex]; exact hspec.2.1, ?_, ?_⟩
  · intro j hj h
    have := hspec.2.2.1 j hj
    rw [List.getD_eq_getElem _ _ (by omega), List.getElem_map] at this
    simpa [List.get_eq_getElem] using this
  · intro j hj h
    have := hspec.2.2.2 j hj (by omega)
    rw [List.getD_eq_getElem _ _ (by omega), List.getElem_map] at this
    simpa [List.get_eq_getElem] using this

/-- `insert` preserves the descending-sort invariant. -/
theorem insert_sorted {K V : Type} [LinearOrder K] (q : PriorityQueue K V)
    (key : K) (v : V) (hs : QSorted q) : QSorted (q.insert key v) := by
  obtain ⟨hle, hpre, hsuf⟩ := searchIndex_spec q key hs
  show (q.data.insertIdx (q.searchIndex key) (key, v)).Pairwise _
  rw [insertIdx_eq_take_cons_drop _ _ _ hle]
  rw [List.pairwise_append]
  refine ⟨hs.take, ?_, ?_⟩
  · rw [List.pairwise_cons]
    constructor
    · intro a ha
      rw [List.mem_iff_getElem] at ha
      obtain ⟨n, hn, rfl⟩ := ha
      rw [List.getElem_drop] at *
      have hlen : q.searchIndex key + n < q.data.length := by
        have := hn; simp only [List.length_drop] at this; omega
      have := hsuf (q.searchIndex key + n) (by omega) hlen
      simpa [List.get_eq_getElem] using this
    · exact hs.drop
  · intro a ha b hb
    rw [List.mem_iff_getElem] at ha
    obtain ⟨n, hn, rfl⟩ := ha
    have hlen : n < q.data.length := by
      have := hn; simp only [List.length_take] at this
      exact lt_of_lt_of_le (lt_of_lt_of_le this (min_le_right _ _)) (le_refl _)
    have hnidx : n < q.searchIndex key := by
      have := hn; simp only [List.length_take] at this; omega
    rw [List.getElem_take]
    rcases List.mem_cons.1 hb with rfl | hbmem
    · have := hpre n hnidx hlen
      simpa [List.get_eq_getElem] using this
    · rw [List.mem_iff_getElem] at hbmem
      obtain ⟨m, hm, rfl⟩ := hbmem
      rw [List.getElem_drop]
      have hmlen : q.searchIndex key + m < q.data.length := by
        have := hm; simp only [List.length_drop] at this; omega
      have h1 := hpre n hnidx hlen
      have h2 := hsuf (q.searchIndex key + m) (by omega) hmlen
      simp only [List.get_eq_getElem] at h1 h2
      exact le_trans h2 h1

/-- `insert` grows the queue by one entry. -/
theorem insert_length {K V : Type} [LinearOrder K] (q : PriorityQueue K V)
    (key : K) (v : V) (hs : QSorted q) :
    (q.insert key v).data.length = q.data.length + 1 := by
  have hle := (searchIndex_spec q key hs).1
  exact List.length_insertIdx _ _ hle

/-- `remove` on a sorted queue: `none` exactly on empty, otherwise it pops the
last entry, which has the minimum key, and keeps the rest sorted. -/
theorem remove_spec {K V : Type} [LinearOrder K] (q : PriorityQueue K V)
    (hs : QSorted q) :
    (q.remove = none ↔ q.data = []) ∧
    (∀ e q2, q.remove = some (e, q2) →
      (∀ x ∈ q.data, e.1 ≤ x.1) ∧ q2.data = q.data.dropLast ∧ QSorted q2 ∧
        q.data = q2.data ++ [e]) := by
  constructor
  · rw [PriorityQueue.remove]
    cases h : q.data.getLast? with
    | none => simpa using List.getLast?_eq_none_iff.1 h
    | some x =>
      simp only []
      constructor
      · intro hc; exact absurd hc (by simp)
      · intro hc; rw [hc] at h; simp at h
  · intro e q2 hrem
    rw [PriorityQueue.remove] at hrem
    cases h : q.data.getLast? with
    | none => rw [h] at hrem; exact absurd hrem (by simp)
    | some x =>
      rw [h] at hrem
      simp only [Option.some.injEq, Prod.mk.injEq] at hrem
      obtain ⟨rfl, rfl⟩ := hrem
      have hne : q.data ≠ [] := by
        intro hc; rw [hc] at h; simp at h
      have hsplit : q.data.dropLast ++ [q.data.getLast hne] = q.data :=
        List.dropLast_append_getLast hne
      have hx : q.data.getLast hne = x := by
        have hgl := List.getLast?_eq_getLast q.data hne
        rw [h] at hgl
        exact (Option.some.inj hgl).symm
      rw [hx] at hsplit
      refine ⟨?_, rfl, ?_, hsplit.symm⟩
      · intro y hy
        conv at hy => rw [← hsplit]
        rcases List.mem_append.1 hy with hy1 | hy2
        · have hs2 : (q.data.dropLast ++ [x]).Pairwise fun a b => b.1 ≤ a.1 := by
            rw [hsplit]; exact hs
          exact (List.pairwise_append.1 hs2).2.2 y hy1 x (by simp)
        · simp only [List.mem_singleton] at hy2; subst hy2; exact le_refl _
      · show (q.data.dropLast).Pairwise _
        have hs2 : (q.data.dropLast ++ [x]).Pairwise fun a b => b.1 ≤ a.1 := by
          rw [hsplit]; exact hs
        exact (List.pairwise_append.1 hs2).1

/-- `remove_two` on a sorted queue: `none` exactly when fewer than two entries
remain, otherwise it yields the two minimum-key entries, lowest first. -/
theorem remove_two_spec {K V : Type} [LinearOrder K] (q : PriorityQueue K V)
    (hs : QSorted q) :
    (q.remove_two = none ↔ q.data.length < 2) ∧
    (∀ a b q2, q.remove_two = some ((a, b), q2) →
      a.1 ≤ b.1 ∧ (∀ x ∈ q.data, a.1 ≤ x.1) ∧ (∀ x ∈ q2.data, b.1 ≤ x.1) ∧
        QSorted q2 ∧ q.data = (q2.data ++ [b]) ++ [a] ∧
        q2.data.length + 2 = q.data.length) := by
  rw [PriorityQueue.remove_two]
  by_cases hlen : q.data.length < 2
  · simp only [hlen, if_true]
    exact ⟨by simp, by intro a b q2 hc; exact absurd hc (by simp)⟩
  · simp only [hlen, if_false]
    have hne : q.data ≠ [] := by
      intro hc; rw [hc] at hlen; simp at hlen
    obtain ⟨hnone, hsome⟩ := remove_spec q hs
    cases hrem : q.remove with
    | none => exact absurd (hnone.1 hrem) hne
    | some p =>
      obtain ⟨a, q1⟩ := p
      obtain ⟨hamin, hq1data, hq1sorted, hsplit1⟩ := hsome a q1 hrem
      have hq1ne : q1.data ≠ [] := by
        intro hc
        rw [hsplit1, hc] at hlen
        simp at hlen
      obtain ⟨hnone1, hsome1⟩ := remove_spec q1 hq1sorted
      cases hrem1 : q1.remove with
      | none => exact absurd (hnone1.1 hrem1) hq1ne
      | some p1 =>
        obtain ⟨b, q2⟩ := p1
        obtain ⟨hbmin, hq2data, hq2sorted, hsplit2⟩ := hsome1 b q2 hrem1
        simp only [hrem, hrem1]
        constructor
        · constructor
          · intro hc
            exact absurd hc (by simp)
          · intro hc
            exact hc.elim
        · intro a' b' q2' heq
          simp only [Option.some.injEq, Prod.mk.injEq] at heq
          obtain ⟨⟨rfl, rfl⟩, rfl⟩ := heq
          have hsplit : q.data = (q2.data ++ [b]) ++ [a] := by
            rw [hsplit1, hsplit2]
          refine ⟨?_, hamin, ?_, hq2sorted, hsplit, ?_⟩
          · exact hamin b (by rw [hsplit]; simp)
          · intro x hx
            exact hbmin x (by rw [hsplit2]; exact List.mem_append_left _ hx)
          · rw [hsplit]; simp
  
/-- C5 helper: the claim's statement of `remove_two` minimality. -/
theorem remove_min_of_sorted {K V : Type} [LinearOrder K] (q : PriorityQueue K V)
    (hs : QSorted q) :
    ∀ e q2, q.remove = some (e, q2) → ∀ x ∈ q.data, e.1 ≤ x.1 :=
  fun e q2 h => ((remove_spec q hs).2 e q2 h).1

/-- C5: the `PriorityQueue` sequence is sorted in descending key order at all
times: `insert` preserves the invariant for every key and current contents,
`remove` pops the tail and yields an entry whose key is the minimum present
(nothing when empty), and `remove_two` yields the two lowest-key entries,
lowest first, or nothing when fewer than two remain. -/
theorem priorityQueue_invariant {K V : Type} [LinearOrder K]
    (q : PriorityQueue K V) (key : K) (v : V) (hs : QSorted q) :
    QSorted (q.insert key v) ∧
    (q.remove = none ↔ q.data = []) ∧
    (∀ e q2, q.remove = some (e, q2) →
      (∀ x ∈ q.data, e.1 ≤ x.1) ∧ q2.data = q.data.dropLast ∧ QSorted q2) ∧
    (q.remove_two = none ↔ q.data.length < 2) ∧
    (∀ a b q2, q.remove_two = some ((a, b), q2) →
      a.1 ≤ b.1 ∧ (∀ x ∈ q.data, a.1 ≤ x.1) ∧ (∀ x ∈ q2.data, b.1 ≤ x.1) ∧
        QSorted q2) := by
  refine ⟨insert_sorted q key v hs, (remove_spec q hs).1, ?_, (remove_two_spec q hs).1, ?_⟩
  · intro e q2 h
    obtain ⟨h1, h2, h3, _⟩ := (remove_spec q hs).2 e q2 h
    exact ⟨h1, h2, h3⟩
  · intro a b q2 h
    obtain ⟨h1, h2, h3, h4, _⟩ := (remove_two_spec q hs).2 a b q2 h
    exact ⟨h1, h2, h3, h4⟩

/-- Witness for C5 at a concrete sorted queue: keys `[9, 4, 1]`. -/
theorem priorityQueue_invariant_witness :
    QSorted (⟨[(9, 0), (4, 1), (1, 2)]⟩ : PriorityQueue Nat Nat) ∧
    (QSorted ((⟨[(9, 0), (4, 1), (1, 2)]⟩ : PriorityQueue Nat Nat).insert 5 7) ∧
    ((⟨[(9, 0), (4, 1), (1, 2)]⟩ : PriorityQueue Nat Nat).remove = none ↔
      (⟨[(9, 0), (4, 1), (1, 2)]⟩ : PriorityQueue Nat Nat).data = []) ∧
    (∀ e q2, (⟨[(9, 0), (4, 1), (1, 2)]⟩ : PriorityQueue Nat Nat).remove = some (e, q2) →
      (∀ x ∈ (⟨[(9, 0), (4, 1), (1, 2)]⟩ : PriorityQueue Nat Nat).data, e.1 ≤ x.1) ∧
        q2.data = (⟨[(9, 0), (4, 1), (1, 2)]⟩ : PriorityQueue Nat Nat).data.dropLast ∧
        QSorted q2) ∧
    ((⟨[(9, 0), (4, 1), (1, 2)]⟩ : PriorityQueue Nat Nat).remove_two = none ↔
      (⟨[(9, 0), (4, 1), (1, 2)]⟩ : PriorityQueue Nat Nat).data.length < 2) ∧
    (∀ a b q2,
      (⟨[(9, 0), (4, 1), (1, 2)]⟩ : PriorityQueue Nat Nat).remove_two = some ((a, b), q2) →
      a.1 ≤ b.1 ∧
        (∀ x ∈ (⟨[(9, 0), (4, 1), (1, 2)]⟩ : PriorityQueue Nat Nat).data, a.1 ≤ x.1) ∧
        (∀ x ∈ q2.data, b.1 ≤ x.1) ∧ QSorted q2)) := by
  have hs : QSorted (⟨[(9, 0), (4, 1), (1, 2)]⟩ : PriorityQueue Nat Nat) := by
    show List.Pairwise _ _
    decide
  exact ⟨hs, priorityQueue_invariant (⟨[(9, 0), (4, 1), (1, 2)]⟩ : PriorityQueue Nat Nat) 5 7 hs⟩

deriving instance DecidableEq for Except

deriving instance DecidableEq for PriorityQueue

/-- The concrete input of claim C4: 100 bytes of value 69, two of value 71,
one of value 70. -/
def exampleInput : List (Fin 256) :=
  List.replicate 100 69 ++ [71, 71, 70]

set_option maxRecDepth 40000 in
/-- C4: on the 103-byte example input, `count_bytes` produces exactly the
scaled pair list `[(255, 69), (5, 71), (2, 70)]`; seeding the queue from that
table and adding the `(0, EOF)` sentinel makes the first `remove_two` pop
`(0, EOF)` and `(2, Known 70)` (in that order); and `from_freqs` yields exactly
`Branch (Branch (Branch EOF (Known 70)) (Known 71)) (Known 69)`, the shape the
source's own unit test asserts. -/
theorem count_bytes_from_freqs_example :
    Frequencies.count_bytes Unit (exampleInput.map Except.ok) =
      .ok ⟨[(255, 69), (5, 71), (2, 70)]⟩ ∧
    ((PriorityQueue.from_data
        ((⟨[(255, 69), (5, 71), (2, 70)]⟩ : Frequencies).pairs.map
          fun p => (p.1, HuffTree.Known p.2))).insert 0 HuffTree.EOF).remove_two =
      some (((0, HuffTree.EOF), (2, HuffTree.Known 70)),
        ⟨[(255, HuffTree.Known 69), (5, HuffTree.Known 71)]⟩) ∧
    HuffTree.from_freqs ⟨[(255, 69), (5, 71), (2, 70)]⟩ =
      .Branch (.Branch (.Branch .EOF (.Known 70)) (.Known 71)) (.Known 69) := by
  refine ⟨by decide, by decide, by decide⟩

/-- `countBytesAcc` preserves the length of the counter table. -/
theorem countBytesAcc_length {ε : Type} :
    ∀ (l : List (Except ε (Fin 256))) (acc r : List Nat),
      countBytesAcc l acc = .ok r → r.length = acc.length := by
  intro l
  induction l with
  | nil => intro acc r h; cases h; rfl
  | cons mb rest ih =>
    intro acc r h
    cases mb with
    | error e => exact absurd h (by simp [countBytesAcc])
    | ok b =>
      have := ih _ r h
      simpa using this

set_option maxRecDepth 40000 in
/-- C10: on an empty byte source — and more generally whenever every slot of
the occurrence table is zero — `count_bytes` returns `Ok` with an empty pair
list rather than failing: the 256-slot table always has a maximum
(`max?` cannot be `none`), and the scaling division is only reached for bytes
whose count is nonzero, so no division by zero occurs. -/
theorem count_bytes_empty_safe :
    Frequencies.count_bytes Unit [] = .ok ⟨[]⟩ ∧
    (∀ (bytes : List (Except Unit (Fin 256))) (acc : List Nat),
      countBytesAcc bytes (List.replicate 256 0) = .ok acc → acc.max? ≠ none) ∧
    (∀ (bytes : List (Except Unit (Fin 256))) (acc : List Nat),
      countBytesAcc bytes (List.replicate 256 0) = .ok acc →
      (∀ i, i < 256 → acc.getD i 0 = 0) →
      Frequencies.count_bytes Unit bytes = .ok ⟨[]⟩) := by
  refine ⟨by decide, ?_, ?_⟩
  · intro bytes acc h
    have hlen : acc.length = 256 := by simpa using countBytesAcc_length bytes _ acc h
    intro hc
    have : acc = [] := List.max?_eq_none_iff.1 hc
    rw [this] at hlen
    simp at hlen
  · intro bytes acc h hz
    rw [Frequencies.count_bytes, h]
    have hnil : ((List.range 256).filterMap fun byte =>
        if acc.getD byte 0 ≠ 0 then
          some (acc.getD byte 0 * 255 / (acc.max?.getD 0) % 2 ^ 8, byte)
        else none) = [] := by
      rw [List.filterMap_eq_nil_iff]
      intro b hb
      have hblt : b < 256 := List.mem_range.1 hb
      have hzb := hz b hblt
      rw [List.getD_eq_getElem?_getD] at hzb
      simp [hzb]
    simp only []
    rw [hnil]
    rfl

set_option maxRecDepth 40000 in
/-- Witness for C10 at the empty source. -/
theorem count_bytes_empty_safe_witness :
    (List.replicate 256 0 : List Nat).max? ≠ none ∧
    Frequencies.count_bytes Unit ([] : List (Except Unit (Fin 256))) = .ok ⟨[]⟩ :=
  ⟨count_bytes_empty_safe.2.1 [] _ rfl,
   count_bytes_empty_safe.2.2 [] _ rfl (by decide)⟩

/-- Bounds of the binary search, with no sortedness assumption. -/
theorem binarySearchGo_le {K : Type} [LinearOrder K] (key : K) (keys : List K) :
    ∀ fuel left right, left ≤ right →
      left ≤ binarySearchGo key keys fuel left right ∧
      binarySearchGo key keys fuel left right ≤ right := by
  intro fuel
  induction fuel with
  | zero => intro left right h; exact ⟨le_refl _, h⟩
  | succ fuel ih =>
    intro left right h
    simp only [binarySearchGo]
    by_cases hlt : left < right
    · simp only [hlt, if_true]
      by_cases h1 : key < keys.getD (left + (right - left) / 2) key
      · simp only [h1, if_true]
        have := ih (left + (right - left) / 2 + 1) right (by omega)
        exact ⟨by omega, this.2⟩
      · by_cases h2 : keys.getD (left + (right - left) / 2) key < key
        · simp only [h1, h2, if_true, if_false]
          have := ih left (left + (right - left) / 2) (by omega)
          exact ⟨this.1, by omega⟩
        · simp only [h1, h2, if_false]
          omega
    · simp only [hlt, if_false]
      omega

/-- `insert`'s search index never exceeds the length, for any contents. -/
theorem searchIndex_le {K V : Type} [LinearOrder K] (q : PriorityQueue K V)
    (key : K) : q.searchIndex key ≤ q.data.length :=
  (binarySearchGo_le key (q.data.map Prod.fst) q.data.length 0 q.data.length
    (Nat.zero_le _)).2

/-- `insert` always grows the queue by exactly one entry. -/
theorem insert_length_any {K V : Type} [LinearOrder K] (q : PriorityQueue K V)
    (key : K) (v : V) : (q.insert key v).data.length = q.data.length + 1 :=
  List.length_insertIdx _ _ (searchIndex_le q key)

/-- `remove_two` fails exactly on queues with fewer than two entries, and
shrinks the queue by two. -/
theorem remove_two_length {K V : Type} (q : PriorityQueue K V) :
    (q.remove_two = none ↔ q.data.length < 2) ∧
    (∀ x q2, q.remove_two = some (x, q2) → q2.data.length + 2 = q.data.length) := by
  rw [PriorityQueue.remove_two]
  by_cases hlen : q.data.length < 2
  · simp only [hlen, if_true]
    exact ⟨by simp [hlen], by intro x q2 hc; exact absurd hc (by simp)⟩
  · simp only [hlen, if_false]
    have hne : q.data ≠ [] := by intro hc; rw [hc] at hlen; simp at hlen
    rw [PriorityQueue.remove]
    cases h1 : q.data.getLast? with
    | none => exact absurd (List.getLast?_eq_none_iff.1 h1) hne
    | some a =>
      simp only []
      have hdropne : q.data.dropLast ≠ [] := by
        intro hc
        have := congrArg List.length hc
        simp only [List.length_dropLast] at this
        simp at this
        omega
      rw [PriorityQueue.remove]
      cases h2 : (q.data.dropLast).getLast? with
      | none => exact absurd (List.getLast?_eq_none_iff.1 h2) hdropne
      | some b =>
        simp only []
        constructor
        · constructor
          · intro hc; exact absurd hc (by simp)
          · intro hc; exact hc.elim
        · intro x q2 hx
          simp only [Option.some.injEq, Prod.mk.injEq] at hx
          obtain ⟨-, rfl⟩ := hx
          simp only [List.length_dropLast]
          omega

/-- Merge-iteration counter for `HuffTree::from_freqs`, mirroring `mergeGo`. -/
def mergeSteps : Nat → PriorityQueue Nat HuffTree → Nat
  | 0, _ => 0
  | fuel + 1, q =>
    match q.remove_two with
    | none => 0
    | some (((count1, tree1), (count2, tree2)), q2) =>
      mergeSteps fuel (q2.insert (count1 + count2) (.Branch tree1 tree2)) + 1

/-- The merge loop of `from_freqs` always ends with exactly one entry, after
exactly `length - 1` merges, provided the fuel covers the start length. -/
theorem mergeGo_spec :
    ∀ fuel (q : PriorityQueue Nat HuffTree), 1 ≤ q.data.length →
      q.data.length ≤ fuel + 1 →
      (mergeGo fuel q).data.length = 1 ∧ mergeSteps fuel q = q.data.length - 1 := by
  intro fuel
  induction fuel with
  | zero =>
    intro q h1 h2
    have : q.data.length = 1 := by omega
    exact ⟨this, by simp [mergeSteps, this]⟩
  | succ fuel ih =>
    intro q h1 h2
    rw [mergeGo, mergeSteps]
    cases h : q.remove_two with
    | none =>
      simp only [h]
      have hlt := (remove_two_length q).1.1 h
      have : q.data.length = 1 := by omega
      exact ⟨this, by omega⟩
    | some p =>
      obtain ⟨⟨⟨count1, tree1⟩, ⟨count2, tree2⟩⟩, q2⟩ := p
      have hlen2 := (remove_two_length q).2 _ _ h
      have hlen3 := insert_length_any q2 (count1 + count2) (HuffTree.Branch tree1 tree2)
      simp only [h]
      have := ih (q2.insert (count1 + count2) (.Branch tree1 tree2)) (by omega) (by omega)
      exact ⟨this.1, by omega⟩

/-- C9: `from_freqs` terminates for every `Frequencies` input: every merge
iteration removes two entries and reinserts one (net length change −1), the
loop performs exactly `|pairs|` merges, exactly one entry remains, and the
final `remove` succeeds and hands back the root. -/
theorem from_freqs_terminates (f : Frequencies) :
    (∀ (q : PriorityQueue Nat HuffTree) x q2, q.remove_two = some (x, q2) →
      (q2.insert (x.1.1 + x.2.1) (.Branch x.1.2 x.2.2)).data.length + 1 =
        q.data.length) ∧
    ((PriorityQueue.from_data (f.pairs.map fun p =>
        (p.1, HuffTree.Known p.2))).insert 0 HuffTree.EOF).data.length =
      f.pairs.length + 1 ∧
    mergeSteps ((PriorityQueue.from_data (f.pairs.map fun p =>
        (p.1, HuffTree.Known p.2))).insert 0 HuffTree.EOF).data.length
      ((PriorityQueue.from_data (f.pairs.map fun p =>
        (p.1, HuffTree.Known p.2))).insert 0 HuffTree.EOF) = f.pairs.length ∧
    (mergeGo ((PriorityQueue.from_data (f.pairs.map fun p =>
        (p.1, HuffTree.Known p.2))).insert 0 HuffTree.EOF).data.length
      ((PriorityQueue.from_data (f.pairs.map fun p =>
        (p.1, HuffTree.Known p.2))).insert 0 HuffTree.EOF)).data.length = 1 ∧
    (∀ x q2,
      (mergeGo ((PriorityQueue.from_data (f.pairs.map fun p =>
          (p.1, HuffTree.Known p.2))).insert 0 HuffTree.EOF).data.length
        ((PriorityQueue.from_data (f.pairs.map fun p =>
          (p.1, HuffTree.Known p.2))).insert 0 HuffTree.EOF)).remove = some (x, q2) →
        HuffTree.from_freqs f = x.2) ∧
    (mergeGo ((PriorityQueue.from_data (f.pairs.map fun p =>
        (p.1, HuffTree.Known p.2))).insert 0 HuffTree.EOF).data.length
      ((PriorityQueue.from_data (f.pairs.map fun p =>
        (p.1, HuffTree.Known p.2))).insert 0 HuffTree.EOF)).remove ≠ none := by
  have hq1len : ((PriorityQueue.from_data (f.pairs.map fun p =>
      (p.1, HuffTree.Known p.2))).insert 0 HuffTree.EOF).data.length =
      f.pairs.length + 1 := by
    rw [insert_length_any]
    simp [PriorityQueue.from_data]
  have hspec := mergeGo_spec
    ((PriorityQueue.from_data (f.pairs.map fun p =>
      (p.1, HuffTree.Known p.2))).insert 0 HuffTree.EOF).data.length
    ((PriorityQueue.from_data (f.pairs.map fun p =>
      (p.1, HuffTree.Known p.2))).insert 0 HuffTree.EOF)
    (by omega) (by omega)
  have hlast : (mergeGo ((PriorityQueue.from_data (f.pairs.map fun p =>
      (p.1, HuffTree.Known p.2))).insert 0 HuffTree.EOF).data.length
      ((PriorityQueue.from_data (f.pairs.map fun p =>
        (p.1, HuffTree.Known p.2))).insert 0 HuffTree.EOF)).data ≠ [] := by
    intro hc
    have := hspec.1
    rw [hc] at this
    simp at this
  refine ⟨?_, hq1len, by rw [hspec.2, hq1len]; omega, hspec.1, ?_, ?_⟩
  · intro q x q2 h
    have h1 := (remove_two_length q).2 x q2 h
    have h2 := insert_length_any q2 (x.1.1 + x.2.1) (HuffTree.Branch x.1.2 x.2.2)
    omega
  · intro x q2 h
    rw [HuffTree.from_freqs]
    simp only [h]
  · rw [PriorityQueue.remove]
    cases h : (mergeGo ((PriorityQueue.from_data (f.pairs.map fun p =>
        (p.1, HuffTree.Known p.2))).insert 0 HuffTree.EOF).data.length
        ((PriorityQueue.from_data (f.pairs.map fun p =>
          (p.1, HuffTree.Known p.2))).insert 0 HuffTree.EOF)).data.getLast? with
    | none => exact absurd (List.getLast?_eq_none_iff.1 h) hlast
    | some a => simp

/-- Witness for C9's per-iteration hypothesis at a concrete queue. -/
theorem from_freqs_terminates_witness :
    ((⟨[(9, HuffTree.EOF), (5, HuffTree.EOF)]⟩ :
        PriorityQueue Nat HuffTree).insert (2 + 3)
        (.Branch .EOF .EOF)).data.length + 1 = 4 ∧
    HuffTree.from_freqs ⟨[(255, 69), (5, 71), (2, 70)]⟩ =
      .Branch (.Branch (.Branch .EOF (.Known 70)) (.Known 71)) (.Known 69) := by
  constructor
  · have h : (⟨[(9, HuffTree.EOF), (5, HuffTree.EOF), (3, HuffTree.EOF), (2, HuffTree.EOF)]⟩ :
        PriorityQueue Nat HuffTree).remove_two =
        some (((2, HuffTree.EOF), (3, HuffTree.EOF)),
          ⟨[(9, HuffTree.EOF), (5, HuffTree.EOF)]⟩) := by decide
    have := (from_freqs_terminates ⟨[]⟩).1
      ⟨[(9, HuffTree.EOF), (5, HuffTree.EOF), (3, HuffTree.EOF), (2, HuffTree.EOF)]⟩
      ((2, HuffTree.EOF), (3, HuffTree.EOF))
      ⟨[(9, HuffTree.EOF), (5, HuffTree.EOF)]⟩ h
    simpa using this
  · have h2 := (from_freqs_terminates ⟨[(255, 69), (5, 71), (2, 70)]⟩).2.2.2.2.1
    exact h2 (262, .Branch (.Branch (.Branch .EOF (.Known 70)) (.Known 71)) (.Known 69))
      ⟨[]⟩ (by decide)

/-- Bitwise-or of disjoint summands is addition: `x` a multiple of `2 ^ k`,
`y` below `2 ^ k`. -/
theorem lor_eq_add (k x y : Nat) (hx : 2 ^ k ∣ x) (hy : y < 2 ^ k) :
    x ||| y = x + y := by
  obtain ⟨m, rfl⟩ := hx
  apply Nat.eq_of_testBit_eq
  intro j
  rw [Nat.testBit_lor, Nat.testBit_mul_pow_two_add m hy j]
  by_cases hj : j < k
  · simp only [hj, if_true]
    have hx0 : (2 ^ k * m).testBit j = false := by
      have := @Nat.testBit_mul_pow_two_add m 0 k (by positivity) j
      simpa [hj] using this
    simp [hx0]
  · simp only [hj, if_false]
    have hy0 : y.testBit j = false := by
      apply Nat.testBit_lt_two_pow
      exact lt_of_lt_of_le hy (Nat.pow_le_pow_right (by norm_num) (le_of_not_lt hj))
    have hx1 : (2 ^ k * m).testBit j = m.testBit (j - k) := by
      have := @Nat.testBit_mul_pow_two_add m 0 k (by positivity) j
      simpa [hj] using this
    simp [hx1, hy0]

/-- Reading back the 4 big-endian header bytes of `write` recovers the pair
count. -/
theorem header_num_roundtrip (n : Nat) (hn : n < 2 ^ 32) :
    (n / 2 ^ 24 % 2 ^ 8) <<< 24 ||| (n / 2 ^ 16 % 2 ^ 8) <<< 16 |||
      (n / 2 ^ 8 % 2 ^ 8) <<< 8 ||| n % 2 ^ 8 = n := by
  rw [Nat.shiftLeft_eq, Nat.shiftLeft_eq, Nat.shiftLeft_eq]
  have e1 : n / 2 ^ 24 % 2 ^ 8 * 2 ^ 24 ||| n / 2 ^ 16 % 2 ^ 8 * 2 ^ 16 =
      n / 2 ^ 24 % 2 ^ 8 * 2 ^ 24 + n / 2 ^ 16 % 2 ^ 8 * 2 ^ 16 :=
    lor_eq_add 24 _ _ ⟨n / 2 ^ 24 % 2 ^ 8, by ring⟩
      (by have := Nat.mod_lt (n / 2 ^ 16) (show 0 < 2 ^ 8 by norm_num); omega)
  have e2 : n / 2 ^ 24 % 2 ^ 8 * 2 ^ 24 + n / 2 ^ 16 % 2 ^ 8 * 2 ^ 16 |||
      n / 2 ^ 8 % 2 ^ 8 * 2 ^ 8 =
      n / 2 ^ 24 % 2 ^ 8 * 2 ^ 24 + n / 2 ^ 16 % 2 ^ 8 * 2 ^ 16 +
        n / 2 ^ 8 % 2 ^ 8 * 2 ^ 8 :=
    lor_eq_add 16 _ _
      ⟨n / 2 ^ 24 % 2 ^ 8 * 2 ^ 8 + n / 2 ^ 16 % 2 ^ 8, by ring⟩
      (by have := Nat.mod_lt (n / 2 ^ 8) (show 0 < 2 ^ 8 by norm_num); omega)
  have e3 : n / 2 ^ 24 % 2 ^ 8 * 2 ^ 24 + n / 2 ^ 16 % 2 ^ 8 * 2 ^ 16 +
      n / 2 ^ 8 % 2 ^ 8 * 2 ^ 8 ||| n % 2 ^ 8 =
      n / 2 ^ 24 % 2 ^ 8 * 2 ^ 24 + n / 2 ^ 16 % 2 ^ 8 * 2 ^ 16 +
        n / 2 ^ 8 % 2 ^ 8 * 2 ^ 8 + n % 2 ^ 8 :=
    lor_eq_add 8 _ _
      ⟨n / 2 ^ 24 % 2 ^ 8 * 2 ^ 16 + n / 2 ^ 16 % 2 ^ 8 * 2 ^ 8 + n / 2 ^ 8 % 2 ^ 8,
        by ring⟩ (by have := Nat.mod_lt n (show 0 < 2 ^ 8 by norm_num); omega)
  rw [e1, e2, e3]
  omega

/-- The pair section of `write` is two bytes per pair. -/
theorem flat_pairs_length (pairs : List (Nat × Nat)) :
    (pairs.flatMap fun p => [p.2, p.1]).length = 2 * pairs.length := by
  induction pairs with
  | nil => rfl
  | cons p rest ih => simp [ih]; omega

/-- The reconstruction loop of `read` parses back exactly the pairs that
`write` flattened, independent of what was already parsed. -/
theorem readPairsGo_flat :
    ∀ (pairs : List (Nat × Nat)) (front : List Nat) (acc : List (Nat × Nat))
      (fuel : Nat), pairs.length ≤ fuel →
      readPairsGo (front ++ pairs.flatMap fun p => [p.2, p.1])
        (front.length + 2 * pairs.length - 1) fuel front.length acc =
        .ok (acc ++ pairs) := by
  intro pairs
  induction pairs with
  | nil =>
    intro front acc fuel _
    cases fuel with
    | zero => simp [readPairsGo]
    | succ f =>
      rw [readPairsGo]
      rw [if_neg (by simp only [List.length_nil]; omega)]
      simp
  | cons p rest ih =>
    intro front acc fuel hfuel
    cases fuel with
    | zero => simp at hfuel
    | succ f =>
      rw [readPairsGo]
      rw [if_pos (by simp only [List.length_cons]; omega)]
      have hget0 : (front ++ (p :: rest).flatMap fun q => [q.2, q.1])[front.length]? =
          some p.2 := by
        rw [List.getElem?_append_right (le_refl _)]
        simp
      have hget1 : (front ++ (p :: rest).flatMap fun q => [q.2, q.1])[front.length + 1]? =
          some p.1 := by
        rw [List.getElem?_append_right (by omega)]
        simp only [Nat.add_sub_cancel_left]
        simp
      rw [hget0, hget1]
      simp only []
      have hfront : front ++ (p :: rest).flatMap (fun q => [q.2, q.1]) =
          (front ++ [p.2, p.1]) ++ rest.flatMap fun q => [q.2, q.1] := by
        simp
      rw [hfront]
      have hlen2 : front.length + 2 = (front ++ [p.2, p.1]).length := by simp
      have hbound : front.length + 2 * (p :: rest).length - 1 =
          (front ++ [p.2, p.1]).length + 2 * rest.length - 1 := by
        simp; omega
      rw [hbound, hlen2]
      have := ih (front ++ [p.2, p.1]) (acc ++ [(p.1, p.2)]) f (by simpa using hfuel)
      rw [this]
      simp

/-- `read` after `write` on a prefix of a longer stream: the table is recovered
exactly and the remainder of the stream is handed back untouched, for any
nonempty table of fewer than `2 ^ 32` pairs. -/
theorem read_write_append (f : Frequencies) (hne : f.pairs ≠ [])
    (hlen : f.pairs.length < 2 ^ 32) (extra : List Nat) :
    Frequencies.read (f.write ++ extra) = .ok (f, extra) := by
  have hflen := flat_pairs_length f.pairs
  have hmod : f.pairs.length % 2 ^ 32 = f.pairs.length := Nat.mod_eq_of_lt hlen
  have hnum := header_num_roundtrip f.pairs.length hlen
  have hn1 : 1 ≤ f.pairs.length := by
    cases hp : f.pairs with
    | nil => exact absurd hp hne
    | cons a t => simp [hp]
  rw [Frequencies.write]
  simp only [hmod]
  rw [Frequencies.read]
  rw [if_pos (by simp)]
  have hgd0 : ([f.pairs.length / 2 ^ 24 % 2 ^ 8, f.pairs.length / 2 ^ 16 % 2 ^ 8,
      f.pairs.length / 2 ^ 8 % 2 ^ 8, f.pairs.length % 2 ^ 8] ++
      (f.pairs.flatMap fun p => [p.2, p.1]) ++ extra) = 
      f.pairs.length / 2 ^ 24 % 2 ^ 8 :: f.pairs.length / 2 ^ 16 % 2 ^ 8 ::
      f.pairs.length / 2 ^ 8 % 2 ^ 8 :: f.pairs.length % 2 ^ 8 ::
      ((f.pairs.flatMap fun p => [p.2, p.1]) ++ extra) := by
    simp
  rw [List.append_assoc]
  simp only [List.cons_append, List.nil_append, List.getD_cons_zero, List.getD_cons_succ,
    List.drop_succ_cons, List.drop_zero]
  rw [hnum]
  rw [if_pos (by rw [List.length_append, hflen]; omega)]
  rw [List.take_left' (by omega), List.drop_left' (by omega)]
  rw [if_neg (by omega)]
  have hrun := readPairsGo_flat f.pairs [] [] (f.pairs.flatMap fun p => [p.2, p.1]).length
    (by omega)
  simp only [List.nil_append, List.length_nil, Nat.zero_add] at hrun
  rw [hflen] at hrun
  rw [hflen, hrun]

/-- C2 counterexample: for the empty `Frequencies` (zero pairs, allowed by the
claim's bound), `read` does not invert `write` — reading back the header
`[0, 0, 0, 0]` panics on `pair_buf.len() - 1`, so no `Frequencies` at all is
returned, let alone an equal one. -/
theorem read_write_empty_fails :
    Frequencies.read (Frequencies.write ⟨[]⟩) ≠ .ok (⟨[]⟩, []) := by decide

/-- C2 (amended): for every `Frequencies` with at least one and at most
`2 ^ 32 − 1` pairs, deserializing the serialized table returns an equal
`Frequencies` (same pairs in the same order) with the source exhausted. -/
theorem read_write_roundtrip (f : Frequencies) (hne : f.pairs ≠ [])
    (hlen : f.pairs.length < 2 ^ 32) :
    Frequencies.read f.write = .ok (f, []) := by
  have := read_write_append f hne hlen []
  simpa using this

/-- Witness for C2's amended round trip at a one-pair table. -/
theorem read_write_roundtrip_witness :
    Frequencies.read (Frequencies.write ⟨[(255, 69)]⟩) = .ok (⟨[(255, 69)]⟩, []) :=
  read_write_roundtrip ⟨[(255, 69)]⟩ (by decide) (by norm_num)

/-- The counting loop computes occurrence counts: on an error-free source each
slot ends up as its start value plus the number of occurrences of that byte. -/
theorem countBytesAcc_count {ε : Type} :
    ∀ (bytes : List (Fin 256)) (acc acc' : List Nat), acc.length = 256 →
      @countBytesAcc ε (bytes.map Except.ok) acc = .ok acc' →
      ∀ b : Fin 256, acc'.getD b.val 0 = acc.getD b.val 0 + bytes.count b := by
  intro bytes
  induction bytes with
  | nil =>
    intro acc acc' _ h b
    cases h
    simp
  | cons x rest ih =>
    intro acc acc' hlen h b
    simp only [List.map_cons, countBytesAcc] at h
    have hlen2 : (acc.set x.val (acc.getD x.val 0 + 1)).length = 256 := by
      simpa using hlen
    have := ih _ acc' hlen2 h b
    rw [this]
    by_cases hbx : x = b
    · subst hbx
      rw [List.getD_eq_getElem?_getD, List.getElem?_set_self (by omega),
        List.count_cons]
      simp [List.getD_eq_getElem?_getD]
      omega
    · have hvx : x.val ≠ b.val := fun hc => hbx (Fin.ext hc)
      rw [List.getD_eq_getElem?_getD, List.getElem?_set_ne hvx, List.count_cons]
      have hne2 : (x == b) = false := by
        simp [hbx]
      simp [hne2, List.getD_eq_getElem?_getD]

/-- The target order of the frequency table: strictly descending by count with
ties broken by strictly increasing byte value. -/
def pairOrder (p q : Nat × Nat) : Prop :=
  q.1 < p.1 ∨ (p.1 = q.1 ∧ p.2 < q.2)

/-- `orderedInsert` with the descending-count comparator keeps `pairOrder`
pairwise, provided the inserted pair's byte is below every byte present. -/
theorem orderedInsert_pairOrder (a : Nat × Nat) :
    ∀ l : List (Nat × Nat), l.Pairwise pairOrder →
      (∀ y ∈ l, a.2 < y.2) →
      (List.orderedInsert (fun p q => q.1 ≤ p.1) a l).Pairwise pairOrder := by
  intro l
  induction l with
  | nil => intro _ _; simp [List.orderedInsert, pairOrder]
  | cons b t ih =>
    intro hl hbyte
    rw [List.orderedInsert]
    by_cases hr : b.1 ≤ a.1
    · rw [if_pos hr]
      rw [List.pairwise_cons]
      refine ⟨?_, hl⟩
      intro x hx
      rcases List.mem_cons.1 hx with rfl | hxt
      · rcases lt_or_eq_of_le hr with hlt | heq
        · exact Or.inl hlt
        · exact Or.inr ⟨heq.symm, hbyte x (by simp)⟩
      · have hbx := (List.pairwise_cons.1 hl).1 x hxt
        rcases hbx with hlt | ⟨heq, _⟩
        · rcases lt_or_eq_of_le (le_trans (le_of_lt hlt) hr) with h1 | h2
          · exact Or.inl h1
          · exact Or.inr ⟨h2.symm, hbyte x (List.mem_cons_of_mem _ hxt)⟩
        · rcases lt_or_eq_of_le (heq ▸ hr) with h1 | h2
          · exact Or.inl h1
          · exact Or.inr ⟨h2.symm, hbyte x (List.mem_cons_of_mem _ hxt)⟩
    · rw [if_neg hr]
      rw [List.pairwise_cons]
      constructor
      · intro x hx
        rcases (List.mem_orderedInsert _).1 hx with rfl | hxt
        · exact Or.inl (lt_of_not_le hr)
        · exact (List.pairwise_cons.1 hl).1 x hxt
      · exact ih (List.pairwise_cons.1 hl).2
          fun y hy => hbyte y (List.mem_cons_of_mem _ hy)

/-- The source's stable sort: on a list whose bytes strictly increase,
`insertionSort` by descending count yields the `pairOrder` pairwise order
(descending counts, ties by ascending byte). -/
theorem insertionSort_pairOrder :
    ∀ l : List (Nat × Nat), l.Pairwise (fun p q => p.2 < q.2) →
      (l.insertionSort fun p q => q.1 ≤ p.1).Pairwise pairOrder := by
  intro l
  induction l with
  | nil => intro _; simp [List.insertionSort]
  | cons a t ih =>
    intro hl
    rw [List.insertionSort]
    apply orderedInsert_pairOrder
    · exact ih (List.pairwise_cons.1 hl).2
    · intro y hy
      have hmem : y ∈ t := (List.perm_insertionSort _ t).mem_iff.1 hy
      exact (List.pairwise_cons.1 hl).1 y hmem

set_option maxRecDepth 40000 in
/-- C6: for every nonempty byte source, `count_bytes` assigns each observed
byte the scaled count `raw_count * 255 / max_count` (where the 256-slot table
holds exact occurrence counts and `max_count` is their attained maximum),
returns the pair list sorted in strictly descending scaled count with ties
broken by increasing byte value, and gives bytes that never occurred no
entry. -/
theorem count_bytes_characterization :
    ∀ (bytes : List (Fin 256)) (acc : List Nat) (f : Frequencies),
      bytes ≠ [] →
      countBytesAcc (bytes.map Except.ok) (List.replicate 256 0) =
        (.ok acc : Except Unit (List Nat)) →
      Frequencies.count_bytes Unit (bytes.map Except.ok) = .ok f →
      (∀ b : Fin 256, acc.getD b.val 0 = bytes.count b) ∧
      (∃ m, acc.max? = some m ∧ (∀ x ∈ acc, x ≤ m) ∧ m ∈ acc) ∧
      (∀ b : Fin 256, bytes.count b ≠ 0 →
        (bytes.count b * 255 / acc.max?.getD 0, b.val) ∈ f.pairs) ∧
      (∀ b : Fin 256, bytes.count b = 0 → ∀ c, (c, b.val) ∉ f.pairs) ∧
      (∀ p ∈ f.pairs, ∃ b : Fin 256, p.2 = b.val ∧ bytes.count b ≠ 0 ∧
        p.1 = bytes.count b * 255 / acc.max?.getD 0) ∧
      f.pairs.Pairwise pairOrder := by
  intro bytes acc f hne h hf
  have hlen : acc.length = 256 := by simpa using countBytesAcc_length _ _ acc h
  have hcount : ∀ b : Fin 256, acc.getD b.val 0 = bytes.count b := by
    intro b
    have h0 := countBytesAcc_count bytes (List.replicate 256 0) acc (by simp) h b
    have hrep : (List.replicate 256 (0 : Nat)).getD b.val 0 = 0 := by
      rw [List.getD_eq_getElem _ _ (by simpa using b.isLt)]
      exact List.getElem_replicate _ _
    rw [h0, hrep, Nat.zero_add]
  have hmax : ∃ m, acc.max? = some m := by
    cases hm : acc.max? with
    | none =>
      have : acc = [] := List.max?_eq_none_iff.1 hm
      rw [this] at hlen; simp at hlen
    | some m => exact ⟨m, rfl⟩
  obtain ⟨m, hm⟩ := hmax
  have hmspec := List.max?_eq_some_iff'.1 hm
  have hgetDm : acc.max?.getD 0 = m := by rw [hm]; rfl
  have hmemacc : ∀ b : Fin 256, acc.getD b.val 0 ∈ acc := by
    intro b
    rw [List.getD_eq_getElem _ _ (by omega)]
    exact List.getElem_mem _
  have hcountle : ∀ b : Fin 256, bytes.count b ≤ m := by
    intro b
    rw [← hcount b]
    exact hmspec.2 _ (hmemacc b)
  have hmain : f.pairs = ((List.range 256).filterMap fun byte =>
      if acc.getD byte 0 ≠ 0 then
        some (acc.getD byte 0 * 255 / acc.max?.getD 0 % 2 ^ 8, byte)
      else none).insertionSort fun p q => q.1 ≤ p.1 := by
    rw [Frequencies.count_bytes, h] at hf
    have := Except.ok.inj hf
    rw [← this]
  have hscale_le : ∀ b : Fin 256, bytes.count b ≠ 0 →
      bytes.count b * 255 / acc.max?.getD 0 % 2 ^ 8 =
        bytes.count b * 255 / acc.max?.getD 0 := by
    intro b hb
    apply Nat.mod_eq_of_lt
    rw [hgetDm]
    have hmpos : 0 < m := by
      have := hcountle b
      omega
    have hle : bytes.count b * 255 / m ≤ m * 255 / m :=
      Nat.div_le_div_right (Nat.mul_le_mul_right _ (hcountle b))
    rw [Nat.mul_div_cancel_left _ hmpos] at hle
    omega
  have hmem : ∀ s bv, (s, bv) ∈ f.pairs ↔
      (bv < 256 ∧ acc.getD bv 0 ≠ 0 ∧ s = acc.getD bv 0 * 255 / acc.max?.getD 0 % 2 ^ 8) := by
    intro s bv
    rw [hmain, (List.perm_insertionSort _ _).mem_iff, List.mem_filterMap]
    constructor
    · rintro ⟨a, ha, hga⟩
      by_cases hz : acc.getD a 0 ≠ 0
      · rw [if_pos hz] at hga
        obtain ⟨h1, h2⟩ := Prod.mk.injEq .. ▸ (Option.some.inj hga)
        subst h2
        exact ⟨List.mem_range.1 ha, hz, h1.symm⟩
      · rw [if_neg hz] at hga
        exact absurd hga (by simp)
    · rintro ⟨hlt, hz, rfl⟩
      exact ⟨bv, List.mem_range.2 hlt, by rw [if_pos hz]⟩
  refine ⟨hcount, ⟨m, hm, hmspec.2, hmspec.1⟩, ?_, ?_, ?_, ?_⟩
  · intro b hb
    have hmem2 := (hmem (bytes.count b * 255 / acc.max?.getD 0) b.val).2
      ⟨b.isLt, by rw [hcount b]; exact hb, by rw [hcount b, hscale_le b hb]⟩
    exact hmem2
  · intro b hb c hc
    have := (hmem c b.val).1 hc
    rw [hcount b] at this
    exact this.2.1 hb
  · intro p hp
    obtain ⟨hlt, hz, hs⟩ := (hmem p.1 p.2).1 (by simpa using hp)
    have hc2 := hcount (⟨p.2, hlt⟩ : Fin 256)
    rw [show ((⟨p.2, hlt⟩ : Fin 256) : Nat) = p.2 from rfl] at hc2
    rw [hc2] at hz hs
    exact ⟨⟨p.2, hlt⟩, rfl, hz, by rw [hs]; exact hscale_le _ hz⟩
  · rw [hmain]
    apply insertionSort_pairOrder
    rw [List.pairwise_filterMap]
    have hrange := List.pairwise_lt_range 256
    apply hrange.imp
    intro a a' haa x hx y hy
    have hxa : x.2 = a := by
      simp only [Option.mem_def] at hx
      by_cases hz : acc.getD a 0 ≠ 0
      · rw [if_pos hz] at hx
        have := Option.some.inj hx
        rw [← this]
      · rw [if_neg hz] at hx
        exact absurd hx (by simp)
    have hya : y.2 = a' := by
      simp only [Option.mem_def] at hy
      by_cases hz : acc.getD a' 0 ≠ 0
      · rw [if_pos hz] at hy
        have := Option.some.inj hy
        rw [← this]
      · rw [if_neg hz] at hy
        exact absurd hy (by simp)
    rw [hxa, hya]
    exact haa

set_option maxRecDepth 40000 in
/-- Witness for C6 on the source `[5, 5, 7]`. -/
theorem count_bytes_characterization_witness :
    ((([5, 5, 7] : List (Fin 256)).count 5 * 255 /
        (((((List.replicate 256 0).set 5 1).set 5 2).set 7 1).max?.getD 0),
        (5 : Fin 256).val) ∈ (⟨[(255, 5), (127, 7)]⟩ : Frequencies).pairs) ∧
    (⟨[(255, 5), (127, 7)]⟩ : Frequencies).pairs.Pairwise pairOrder := by
  have h := count_bytes_characterization [5, 5, 7]
    ((((List.replicate 256 0).set 5 1).set 5 2).set 7 1) ⟨[(255, 5), (127, 7)]⟩
    (by decide) (by decide) (by decide)
  exact ⟨h.2.2.1 5 (by decide), h.2.2.2.2.2⟩

/-- Run a list of sink calls against a sink that may fail, stopping at the
first failure, as `?` does in the source. -/
def performWrites {ε : Type} (sink : List Nat → Except ε Unit) :
    List (List Nat) → Except ε Unit
  | [] => .ok ()
  | c :: rest =>
    match sink c with
    | .ok _ => performWrites sink rest
    | .error e => .error e

/-- An empty call list always succeeds. -/
theorem performWrites_nil {ε : Type} (sink : List Nat → Except ε Unit) :
    performWrites sink [] = .ok () := rfl

/-- A single call succeeds or fails exactly as the sink does on it. -/
theorem performWrites_single {ε : Type} (sink : List Nat → Except ε Unit)
    (c : List Nat) : performWrites sink [c] = sink c := by
  rw [performWrites]
  cases h : sink c with
  | ok u => cases u; rw [performWrites]
  | error e => rfl

/-- C3: a single `write_byte` call performs at most one write to the sink —
never more than one — and it fails exactly when that sink write fails: with no
pending flush it always succeeds, and with one flushed block the result is
exactly the sink's verdict on that block. -/
theorem write_byte_single_write (ε : Type) (w : HuffWriter) (b : Fin 256)
    (sink : List Nat → Except ε Unit) :
    (w.write_byte b).2.length ≤ 1 ∧
    ((w.write_byte b).2 = [] → performWrites sink (w.write_byte b).2 = .ok ()) ∧
    (∀ c, (w.write_byte b).2 = [c] → performWrites sink (w.write_byte b).2 = sink c) := by
  refine ⟨?_, ?_, ?_⟩
  · rw [HuffWriter.write_byte, HuffWriter.write_bits]
    by_cases h : 128 ≤ w.shift + (w.map b.val).2
    · rw [if_pos h]
      simp [write_u128, write_u128_trimmed]
    · rw [if_neg h]
      simp
  · intro h
    rw [h]
    exact performWrites_nil sink
  · intro c h
    rw [h]
    exact performWrites_single sink c

/-- Witness for C3 at a concrete writer and byte: the first `write_byte` after
construction flushes nothing, hence performs no sink call and succeeds. -/
theorem write_byte_single_write_witness :
    ((HuffWriter.from_tree (HuffTree.from_freqs
        ⟨[(255, 69), (5, 71), (2, 70)]⟩)).write_byte 69).2.length ≤ 1 ∧
    performWrites (fun _ => (.ok () : Except Unit Unit))
      ((HuffWriter.from_tree (HuffTree.from_freqs
        ⟨[(255, 69), (5, 71), (2, 70)]⟩)).write_byte 69).2 = .ok () := by
  have h := write_byte_single_write Unit
    (HuffWriter.from_tree (HuffTree.from_freqs ⟨[(255, 69), (5, 71), (2, 70)]⟩)) 69
    (fun _ => .ok ())
  exact ⟨h.1, h.2.1 (by decide)⟩

/-- The merge loop does nothing on a queue with fewer than two entries. -/
theorem mergeGo_small (fuel : Nat) (q : PriorityQueue Nat HuffTree)
    (h : q.data.length < 2) : mergeGo fuel q = q := by
  cases fuel with
  | zero => rfl
  | succ f =>
    rw [mergeGo]
    have hnone : q.remove_two = none := (remove_two_length q).1.2 h
    rw [hnone]

/-- With at least two seed entries, the merge loop ends in a single `Branch`
entry (the last iteration merges the final two entries). -/
theorem mergeGo_final_branch :
    ∀ fuel (q : PriorityQueue Nat HuffTree), 2 ≤ q.data.length →
      q.data.length ≤ fuel + 1 →
      ∃ k l r, (mergeGo fuel q).data = [(k, .Branch l r)] := by
  intro fuel
  induction fuel with
  | zero => intro q h1 h2; omega
  | succ f ih =>
    intro q h1 h2
    rw [mergeGo]
    cases h : q.remove_two with
    | none =>
      have := (remove_two_length q).1.1 h
      omega
    | some p =>
      obtain ⟨⟨⟨count1, tree1⟩, ⟨count2, tree2⟩⟩, q2⟩ := p
      have hlen2 := (remove_two_length q).2 _ _ h
      have hlen3 := insert_length_any q2 (count1 + count2) (HuffTree.Branch tree1 tree2)
      simp only []
      by_cases hq2 : 2 ≤ (q2.insert (count1 + count2) (.Branch tree1 tree2)).data.length
      · exact ih _ hq2 (by omega)
      · have hone : (q2.insert (count1 + count2) (.Branch tree1 tree2)).data.length = 1 := by
          omega
        rw [mergeGo_small f _ (by omega)]
        have hq2nil : q2.data = [] := List.length_eq_zero.1 (by omega)
        refine ⟨count1 + count2, tree1, tree2, ?_⟩
        show (q2.data.insertIdx _ _) = _
        rw [hq2nil]
        have hidx : q2.searchIndex (count1 + count2) = 0 := by
          rw [PriorityQueue.searchIndex, hq2nil]
          rfl
        rw [hidx]
        rfl

/-- The root of every tree `from_freqs` builds is the sentinel alone (empty
table) or a `Branch`; it is never a bare `Known` leaf. -/
theorem from_freqs_root_shape (f : Frequencies) :
    HuffTree.from_freqs f = .EOF ∨
      ∃ l r, HuffTree.from_freqs f = .Branch l r := by
  have hq1len : ((PriorityQueue.from_data (f.pairs.map fun p =>
      (p.1, HuffTree.Known p.2))).insert 0 HuffTree.EOF).data.length =
      f.pairs.length + 1 := by
    rw [insert_length_any]
    simp [PriorityQueue.from_data]
  cases hp : f.pairs with
  | nil =>
    left
    rw [HuffTree.from_freqs]
    have hq1 : ((PriorityQueue.from_data (f.pairs.map fun p =>
        (p.1, HuffTree.Known p.2))).insert 0 HuffTree.EOF).data = [(0, HuffTree.EOF)] := by
      show (PriorityQueue.from_data (f.pairs.map fun p =>
        (p.1, HuffTree.Known p.2))).data.insertIdx _ _ = _
      rw [hp]
      rfl
    rw [mergeGo_small _ _ (by rw [hq1len, hp]; simp)]
    rw [PriorityQueue.remove, hq1]
    rfl
  | cons p0 rest =>
    right
    have h2 : 2 ≤ ((PriorityQueue.from_data (f.pairs.map fun p =>
        (p.1, HuffTree.Known p.2))).insert 0 HuffTree.EOF).data.length := by
      rw [hq1len, hp]
      simp
    obtain ⟨k, l, r, hfin⟩ := mergeGo_final_branch
      ((PriorityQueue.from_data (f.pairs.map fun p =>
        (p.1, HuffTree.Known p.2))).insert 0 HuffTree.EOF).data.length
      ((PriorityQueue.from_data (f.pairs.map fun p =>
        (p.1, HuffTree.Known p.2))).insert 0 HuffTree.EOF) h2 (Nat.le_succ _)
    refine ⟨l, r, ?_⟩
    rw [HuffTree.from_freqs, PriorityQueue.remove, hfin]
    rfl

/-- Specification-side reading of `HuffReader::feed` (spec §4.5), over an
explicit bit list instead of a byte and counter: while bits remain, a `Branch`
consumes one bit (left on `false`, right on `true`), a `Known` leaf emits its
byte and resumes at the root consuming nothing, and the sentinel stops
immediately reporting `false`; when the bits run out the reader reports `true`
with its position retained.  The root is carried as the two children of a
`Branch`, which is the shape every decoding session has (see
`from_freqs_root_shape`). -/
def feedSpec (l r : HuffTree) : HuffTree → List Bool → List Nat × HuffTree × Bool
  | cur, [] => ([], cur, true)
  | .EOF, _ :: _ => ([], .EOF, false)
  | .Known b, bits =>
    let s := feedSpec l r (.Branch l r) bits
    (b :: s.1, s.2)
  | .Branch bl br, bit :: rest => feedSpec l r (if bit then br else bl) rest
termination_by cur bits => (bits.length, match cur with | .Known _ => 1 | _ => 0)

/-- The 8 bits of a byte, least significant first. -/
def byteBits (byte : Nat) : List Bool :=
  (List.range 8).map byte.testBit

/-- The feed loop against `feedSpec`, for a `Branch` root: starting at bit `i`
with enough fuel, the loop computes exactly the specification walk on the
remaining low bits of the byte. -/
theorem feedGo_eq_spec (l r : HuffTree) :
    ∀ fuel (cur : HuffTree) (byte i : ℕ) (acc : List ℕ), i ≤ 8 →
      2 * (8 - i) + 1 ≤ fuel →
      feedGo (.Branch l r) fuel cur byte i acc =
        some (acc ++ (feedSpec l r cur ((List.range (8 - i)).map byte.testBit)).1,
          (feedSpec l r cur ((List.range (8 - i)).map byte.testBit)).2) := by
  intro fuel
  induction fuel using Nat.strong_induction_on with
  | _ fuel ih =>
    intro cur byte i acc hi hfuel
    cases fuel with
    | zero => omega
    | succ f =>
      by_cases hi8 : i < 8
      · have hn : 8 - i = (8 - (i + 1)) + 1 := by omega
        have hbits : (List.range (8 - i)).map byte.testBit =
            byte.testBit 0 :: (List.range (8 - (i + 1))).map (byte / 2).testBit := by
          rw [hn, List.range_succ_eq_map, List.map_cons, List.map_map]
          congr 1
          apply List.map_congr_left
          intro k _
          show byte.testBit (k + 1) = (byte / 2).testBit k
          rw [Nat.testBit_add_one]
        cases cur with
        | EOF =>
          rw [feedGo.eq_def]
          simp only [hi8, if_true]
          rw [hbits, feedSpec]
          simp
        | Known b =>
          rw [feedGo.eq_def]
          simp only [hi8, if_true]
          cases f with
          | zero => omega
          | succ f2 =>
            rw [feedGo.eq_def]
            simp only [hi8, if_true]
            have hstep := ih f2 (by omega) (if byte % 2 = 0 then l else r) (byte / 2)
              (i + 1) (acc ++ [b]) (by omega) (by omega)
            rw [hstep]
            rw [hbits, feedSpec]
            simp only []
            rw [feedSpec]
            have hsel : (if byte.testBit 0 then r else l) =
                (if byte % 2 = 0 then l else r) := by
              rcases Nat.mod_two_eq_zero_or_one byte with h0 | h1
              · simp [Nat.testBit_zero, h0]
              · simp [Nat.testBit_zero, h1]
            rw [hsel]
            simp
            all_goals intro hfalse; simp at hfalse
        | Branch bl br =>
          rw [feedGo.eq_def]
          simp only [hi8, if_true]
          have hstep := ih f (by omega) (if byte % 2 = 0 then bl else br) (byte / 2)
            (i + 1) acc (by omega) (by omega)
          rw [hstep]
          rw [hbits, feedSpec]
          have hsel : (if byte.testBit 0 then br else bl) =
              (if byte % 2 = 0 then bl else br) := by
            rcases Nat.mod_two_eq_zero_or_one byte with h0 | h1
            · simp [Nat.testBit_zero, h0]
            · simp [Nat.testBit_zero, h1]
          rw [hsel]
      · rw [feedGo.eq_def]
        simp only [hi8, if_false]
        have hn : 8 - i = 0 := by omega
        rw [hn]
        simp [feedSpec]

/-- C7: a `feed` call on any tree the program builds consumes at most the 8
bits of its byte (LSB first, left on 0, right on 1), emits exactly one sink
byte per `Known` leaf reached and resumes at the root without consuming a bit,
stops immediately with `false` on reaching the sentinel and reports `true`
otherwise: over a `Branch` root the loop equals the specification walk
`feedSpec` on the byte's 8 bits from any current position, and over the bare
sentinel root it stops at once; no other root shape occurs. -/
theorem feed_matches_spec (f : Frequencies) (cur : HuffTree) (byte : Nat) :
    (HuffTree.from_freqs f = .EOF →
      HuffReader.feed (HuffTree.from_freqs f) (HuffTree.from_freqs f) byte =
        some ([], .EOF, false)) ∧
    (∀ l r, HuffTree.from_freqs f = .Branch l r →
      HuffReader.feed (HuffTree.from_freqs f) cur byte =
        some ((feedSpec l r cur (byteBits byte)).1,
          (feedSpec l r cur (byteBits byte)).2)) ∧
    (HuffTree.from_freqs f = .EOF ∨ ∃ l r, HuffTree.from_freqs f = .Branch l r) := by
  refine ⟨?_, ?_, from_freqs_root_shape f⟩
  · intro h
    rw [h]
    rfl
  · intro l r h
    rw [h, HuffReader.feed]
    have := feedGo_eq_spec l r 17 cur byte 0 [] (by omega) (by omega)
    rw [this]
    rw [byteBits]
    simp

set_option maxRecDepth 40000 in
/-- Witness for C7: the example tree's root is a `Branch`, and feeding byte 2
(bits 0,1 first) walks right then left from the root; the sentinel-rooted tree
of the empty table stops at once. -/
theorem feed_matches_spec_witness :
    HuffReader.feed (HuffTree.from_freqs ⟨[(255, 69), (5, 71), (2, 70)]⟩)
      (HuffTree.from_freqs ⟨[(255, 69), (5, 71), (2, 70)]⟩) 2 =
      some ((feedSpec (.Branch (.Branch .EOF (.Known 70)) (.Known 71)) (.Known 69)
        (HuffTree.from_freqs ⟨[(255, 69), (5, 71), (2, 70)]⟩) (byteBits 2)).1,
        (feedSpec (.Branch (.Branch .EOF (.Known 70)) (.Known 71)) (.Known 69)
        (HuffTree.from_freqs ⟨[(255, 69), (5, 71), (2, 70)]⟩) (byteBits 2)).2) ∧
    HuffReader.feed (HuffTree.from_freqs ⟨[]⟩) (HuffTree.from_freqs ⟨[]⟩) 0 =
      some ([], .EOF, false) := by
  refine ⟨(feed_matches_spec ⟨[(255, 69), (5, 71), (2, 70)]⟩
    (HuffTree.from_freqs ⟨[(255, 69), (5, 71), (2, 70)]⟩) 2).2.1
      (.Branch (.Branch .EOF (.Known 70)) (.Known 71)) (.Known 69) (by decide),
    (feed_matches_spec ⟨[]⟩ (HuffTree.from_freqs ⟨[]⟩) 0).1 (by decide)⟩

/-! ## Bit-stream packing: `write_bits` against the abstract bit stream.

A bit stream is a pair `(N, L)`: `L` bits whose value, read least significant
first, is `N < 2 ^ L`.  Appending a code `(bits, size)` maps `(N, L)` to
`(N + bits * 2 ^ L, L + size)`. -/

/-- The packed bytes of an `L`-bit stream of value `N`: `ceil(L / 8)` bytes,
least significant byte first. -/
def natBytes (N L : Nat) : List Nat :=
  (List.range ((L + 7) / 8)).map fun j => N / 2 ^ (8 * j) % 2 ^ 8

/-- Adding bits above position `b + c` does not change the `c`-bit field at
position `b`. -/
theorem div_mod_add_high (x y b c a : Nat) (h : b + c ≤ a) :
    (x + y * 2 ^ a) / 2 ^ b % 2 ^ c = x / 2 ^ b % 2 ^ c := by
  have ha : 2 ^ a = 2 ^ (a - b) * 2 ^ b := by
    rw [← pow_add]
    congr 1
    omega
  have hdiv : (x + y * 2 ^ a) / 2 ^ b = x / 2 ^ b + y * 2 ^ (a - b) := by
    rw [ha, ← mul_assoc]
    exact Nat.add_mul_div_right x (y * 2 ^ (a - b)) (Nat.pos_pow_of_pos b (by omega))
  rw [hdiv]
  have hc : 2 ^ (a - b) = 2 ^ (a - b - c) * 2 ^ c := by
    rw [← pow_add]
    congr 1
    omega
  rw [hc, ← mul_assoc]
  exact Nat.add_mul_mod_self_right _ _ _

/-- Truncating above position `b + c` does not change the `c`-bit field at
position `b`. -/
theorem mod_div_mod (x a b c : Nat) (h : b + c ≤ a) :
    x % 2 ^ a / 2 ^ b % 2 ^ c = x / 2 ^ b % 2 ^ c := by
  conv_rhs => rw [← Nat.mod_add_div x (2 ^ a)]
  rw [mul_comm] at *
  exact (div_mod_add_high (x % 2 ^ a) (x / 2 ^ a) b c a h).symm

/-- Invariant tying a writer's accumulator and flushed sink calls to the
abstract bit stream `(N, L)`: `k` full 128-bit blocks have been flushed, the
pending bits sit in `scratch`, and the flushed bytes are the low `128 * k`
bits of the stream. -/
def WInvK (w : HuffWriter) (flushed : List (List Nat)) (N L k : Nat) : Prop :=
  w.shift + 128 * k = L ∧ w.shift < 128 ∧ N < 2 ^ L ∧
  w.scratch = N / 2 ^ (128 * k) ∧
  flushed.flatten = (List.range (16 * k)).map fun j => N / 2 ^ (8 * j) % 2 ^ 8

/-- A fresh writer satisfies the invariant for the empty stream. -/
theorem WInvK_init (map : Nat → Nat × Nat) (eof : Nat × Nat) :
    WInvK ⟨map, eof, 0, 0⟩ [] 0 0 0 := by
  refine ⟨rfl, by norm_num, by norm_num, by simp, by simp⟩

/-- One `write_bits` call appends its code to the abstract stream. -/
theorem write_bits_WInvK (w : HuffWriter) (flushed : List (List Nat))
    (N L k bits size : Nat) (hb : bits < 2 ^ size) (hsize : size ≤ 128)
    (hinv : WInvK w flushed N L k) :
    ∃ k', WInvK (w.write_bits bits size).1 (flushed ++ (w.write_bits bits size).2)
      (N + bits * 2 ^ L) (L + size) k' := by
  obtain ⟨hL, hs, hN, hscr, hfl⟩ := hinv
  have hb128 : bits < 2 ^ 128 := lt_of_lt_of_le hb (Nat.pow_le_pow_right (by omega) hsize)
  have hbmod : bits % 2 ^ 128 = bits := Nat.mod_eq_of_lt hb128
  have hscrlt : w.scratch < 2 ^ w.shift := by
    rw [hscr]
    apply Nat.div_lt_of_lt_mul
    calc N < 2 ^ L := hN
      _ = 2 ^ (128 * k) * 2 ^ w.shift := by rw [← pow_add]; congr 1; omega
  have hshl : bits <<< w.shift = bits * 2 ^ w.shift := Nat.shiftLeft_eq bits w.shift
  have hpow128 : 2 ^ (128 - w.shift) * 2 ^ w.shift = 2 ^ 128 := by
    rw [← pow_add]
    congr 1
    omega
  have hfull : N / 2 ^ (128 * k) + bits * 2 ^ w.shift = (N + bits * 2 ^ L) / 2 ^ (128 * k) := by
    have hrw : bits * 2 ^ L = bits * 2 ^ w.shift * 2 ^ (128 * k) := by
      rw [mul_assoc, ← pow_add]
      congr 2
      omega
    rw [hrw]
    rw [Nat.add_mul_div_right _ _ (Nat.pos_pow_of_pos _ (by omega))]
  have hsplitbits : bits = bits % 2 ^ (128 - w.shift) +
      bits / 2 ^ (128 - w.shift) * 2 ^ (128 - w.shift) :=
    (Nat.mod_add_div' bits (2 ^ (128 - w.shift))).symm
  have hlowlt : w.scratch + bits % 2 ^ (128 - w.shift) * 2 ^ w.shift < 2 ^ 128 := by
    have h1 : bits % 2 ^ (128 - w.shift) + 1 ≤ 2 ^ (128 - w.shift) :=
      Nat.mod_lt bits (Nat.pos_pow_of_pos _ (by omega))
    have h2 : (bits % 2 ^ (128 - w.shift) + 1) * 2 ^ w.shift ≤
        2 ^ (128 - w.shift) * 2 ^ w.shift := Nat.mul_le_mul_right _ h1
    rw [Nat.add_mul, one_mul, hpow128] at h2
    omega
  have hNb : N + bits * 2 ^ L < 2 ^ (L + size) := by
    have h1 : (bits + 1) * 2 ^ L ≤ 2 ^ size * 2 ^ L :=
      Nat.mul_le_mul_right _ (by omega)
    rw [Nat.add_mul, one_mul] at h1
    have h3 : 2 ^ size * 2 ^ L = 2 ^ (L + size) := by
      rw [← pow_add]
      congr 1
      omega
    omega
  have hsplitmul : N / 2 ^ (128 * k) + bits * 2 ^ w.shift =
      (N / 2 ^ (128 * k) + bits % 2 ^ (128 - w.shift) * 2 ^ w.shift) +
        bits / 2 ^ (128 - w.shift) * 2 ^ 128 := by
    conv_lhs => rw [hsplitbits]
    rw [Nat.add_mul, mul_assoc, hpow128]
    ring
  rw [HuffWriter.write_bits]
  simp only [hbmod, hshl]
  by_cases hflush : 128 ≤ w.shift + size
  · rw [if_pos hflush]
    refine ⟨k + 1, ?_, ?_, hNb, ?_, ?_⟩
    · show w.shift + size - 128 + 128 * (k + 1) = L + size
      omega
    · show w.shift + size - 128 < 128
      omega
    · show bits >>> (size - (w.shift + size - 128)) =
        (N + bits * 2 ^ L) / 2 ^ (128 * (k + 1))
      rw [Nat.shiftRight_eq_div_pow]
      have h128s : size - (w.shift + size - 128) = 128 - w.shift := by omega
      rw [h128s]
      have hdecomp : (N + bits * 2 ^ L) / 2 ^ (128 * (k + 1)) =
          (N + bits * 2 ^ L) / 2 ^ (128 * k) / 2 ^ 128 := by
        rw [Nat.div_div_eq_div_mul, ← pow_add]
        congr 2
        all_goals omega
      have hlowlt2 : N / 2 ^ (128 * k) + bits % 2 ^ (128 - w.shift) * 2 ^ w.shift <
          2 ^ 128 := by rw [← hscr]; exact hlowlt
      rw [hdecomp, ← hfull, hsplitmul]
      rw [Nat.add_mul_div_right _ _ (show (0 : Nat) < 2 ^ 128 by positivity)]
      rw [Nat.div_eq_of_lt hlowlt2]
      omega
    · show (flushed ++ write_u128 (w.scratch ||| bits * 2 ^ w.shift % 2 ^ 128)).flatten = _
      rw [List.flatten_append, hfl]
      have hormid : w.scratch ||| bits * 2 ^ w.shift % 2 ^ 128 =
          (N + bits * 2 ^ L) / 2 ^ (128 * k) % 2 ^ 128 := by
        have hdvd : 2 ^ w.shift ∣ bits * 2 ^ w.shift % 2 ^ 128 := by
          have h1 : 2 ^ w.shift ∣ bits * 2 ^ w.shift := ⟨bits, by ring⟩
          have h2 : 2 ^ w.shift ∣ 2 ^ 128 := pow_dvd_pow 2 (by omega)
          exact (Nat.dvd_mod_iff h2).2 h1
        rw [Nat.lor_comm]
        rw [lor_eq_add w.shift _ _ hdvd hscrlt]
        have hmodsplit : bits * 2 ^ w.shift % 2 ^ 128 =
            bits % 2 ^ (128 - w.shift) * 2 ^ w.shift := by
          conv_lhs => rw [hsplitbits]
          rw [Nat.add_mul, mul_assoc, hpow128]
          rw [Nat.add_mul_mod_self_right]
          apply Nat.mod_eq_of_lt
          calc bits % 2 ^ (128 - w.shift) * 2 ^ w.shift
              ≤ w.scratch + bits % 2 ^ (128 - w.shift) * 2 ^ w.shift := by omega
            _ < 2 ^ 128 := hlowlt
        rw [hmodsplit]
        have hlowlt2 : N / 2 ^ (128 * k) + bits % 2 ^ (128 - w.shift) * 2 ^ w.shift <
            2 ^ 128 := by rw [← hscr]; exact hlowlt
        rw [← hfull, hsplitmul]
        rw [Nat.add_mul_mod_self_right]
        rw [Nat.mod_eq_of_lt hlowlt2]
        rw [hscr]
        omega
      rw [hormid]
      rw [write_u128, write_u128_trimmed]
      rw [if_neg (by omega)]
      have hnb : (128 - 1) / 8 + 1 = 16 := by norm_num
      rw [hnb]
      have hr : (16 * (k + 1)) = 16 * k + 16 := by ring
      rw [hr, List.range_add, List.map_append, List.flatten]
      simp only [List.flatten_nil, List.append_nil, List.flatten_cons]
      congr 1
      · apply List.map_congr_left
        intro j hj
        have hjlt : j < 16 * k := List.mem_range.1 hj
        rw [div_mod_add_high N bits (8 * j) 8 L (by omega)]
      · rw [List.map_map]
        apply List.map_congr_left
        intro t ht
        have htlt : t < 16 := List.mem_range.1 ht
        show (N + bits * 2 ^ L) / 2 ^ (128 * k) % 2 ^ 128 / 2 ^ (8 * t) % 2 ^ 8 =
          (N + bits * 2 ^ L) / 2 ^ (8 * (16 * k + t)) % 2 ^ 8
        rw [mod_div_mod _ 128 (8 * t) 8 (by omega)]
        rw [Nat.div_div_eq_div_mul, ← pow_add]
        congr 2
        ring
  · rw [if_neg hflush]
    refine ⟨k, ?_, by show w.shift + size < 128; omega, hNb, ?_, ?_⟩
    · show w.shift + size + 128 * k = L + size
      omega
    · show w.scratch ||| bits * 2 ^ w.shift % 2 ^ 128 = (N + bits * 2 ^ L) / 2 ^ (128 * k)
      have hsmall : bits * 2 ^ w.shift < 2 ^ 128 := by
        calc bits * 2 ^ w.shift < 2 ^ size * 2 ^ w.shift :=
            (Nat.mul_lt_mul_right (Nat.pos_pow_of_pos _ (by omega))).2 hb
          _ = 2 ^ (size + w.shift) := by rw [← pow_add]
          _ ≤ 2 ^ 128 := Nat.pow_le_pow_right (by omega) (by omega)
      rw [Nat.mod_eq_of_lt hsmall]
      rw [Nat.lor_comm]
      rw [lor_eq_add w.shift _ _ ⟨bits, by ring⟩ hscrlt]
      rw [hscr, Nat.add_comm, Nat.add_comm (N / 2 ^ (128 * k)) _] at *
      rw [hscr]
      rw [Nat.add_comm (bits * 2 ^ w.shift) _] at *
      exact hfull
    · show (flushed ++ []).flatten = _
      rw [List.append_nil, hfl]
      apply List.map_congr_left
      intro j hj
      have hjlt : j < 16 * k := List.mem_range.1 hj
      rw [div_mod_add_high N bits (8 * j) 8 L (by omega)]

/-- The final trimmed flush turns the invariant into the packed byte stream:
all sink calls together carry exactly the `ceil(L / 8)` bytes of the stream. -/
theorem WInvK_flush (w : HuffWriter) (flushed : List (List Nat)) (N L k : Nat)
    (hinv : WInvK w flushed N L k) :
    (flushed ++ write_u128_trimmed w.scratch w.shift).flatten = natBytes N L := by
  obtain ⟨hL, hs, hN, hscr, hfl⟩ := hinv
  rw [natBytes]
  have hceil : (L + 7) / 8 = 16 * k + (w.shift + 7) / 8 := by omega
  rw [hceil, List.range_add, List.map_append, List.flatten_append, hfl]
  congr 1
  rw [write_u128_trimmed]
  by_cases hz : w.shift = 0
  · rw [if_pos hz, hz]
    simp
  · rw [if_neg hz]
    have hnb : (w.shift - 1) / 8 + 1 = (w.shift + 7) / 8 := by omega
    rw [hnb]
    simp only [List.flatten_cons, List.flatten_nil, List.append_nil, List.map_map]
    apply List.map_congr_left
    intro t ht
    have htlt : t < (w.shift + 7) / 8 := List.mem_range.1 ht
    show w.scratch / 2 ^ (8 * t) % 2 ^ 8 = N / 2 ^ (8 * (16 * k + t)) % 2 ^ 8
    rw [hscr, Nat.div_div_eq_div_mul, ← pow_add]
    congr 2
    ring

/-- Folding `write_bits` over a list of codes, as the encode loop does,
collecting the sink calls. -/
def runWriter (w : HuffWriter) (cs : List (Nat × Nat)) :
    HuffWriter × List (List Nat) :=
  cs.foldl (fun st c =>
    ((st.1.write_bits c.1 c.2).1, st.2 ++ (st.1.write_bits c.1 c.2).2)) (w, [])

/-- Appending a list of codes to an abstract bit stream. -/
def appendCodes (s : Nat × Nat) (cs : List (Nat × Nat)) : Nat × Nat :=
  cs.foldl (fun s c => (s.1 + c.1 * 2 ^ s.2, s.2 + c.2)) s

/-- The write accumulator of `runWriter` only ever appends. -/
theorem runWriter_acc (cs : List (Nat × Nat)) :
    ∀ (w : HuffWriter) (acc : List (List Nat)),
      cs.foldl (fun st c =>
        ((st.1.write_bits c.1 c.2).1, st.2 ++ (st.1.write_bits c.1 c.2).2)) (w, acc) =
      ((runWriter w cs).1, acc ++ (runWriter w cs).2) := by
  induction cs with
  | nil => intro w acc; simp [runWriter]
  | cons c rest ih =>
    intro w acc
    simp only [List.foldl_cons]
    rw [ih]
    have hr : runWriter w (c :: rest) = ((runWriter (w.write_bits c.1 c.2).1 rest).1,
        (([] : List (List Nat)) ++ (w.write_bits c.1 c.2).2) ++
          (runWriter (w.write_bits c.1 c.2).1 rest).2) := by
      rw [runWriter]
      simp only [List.foldl_cons]
      exact ih _ _
    rw [hr]
    simp

/-- Running a list of codes through the writer preserves the invariant against
the abstract stream extended by those codes. -/
theorem runWriter_WInvK :
    ∀ (cs : List (Nat × Nat)) (w : HuffWriter) (flushed : List (List Nat))
      (N L k : Nat), WInvK w flushed N L k →
      (∀ c ∈ cs, c.1 < 2 ^ c.2 ∧ c.2 ≤ 128) →
      ∃ k', WInvK (runWriter w cs).1 (flushed ++ (runWriter w cs).2)
        (appendCodes (N, L) cs).1 (appendCodes (N, L) cs).2 k' := by
  intro cs
  induction cs with
  | nil =>
    intro w flushed N L k hinv _
    refine ⟨k, ?_⟩
    simpa [runWriter, appendCodes] using hinv
  | cons c rest ih =>
    intro w flushed N L k hinv hcs
    have hc := hcs c (by simp)
    obtain ⟨k1, hinv1⟩ := write_bits_WInvK w flushed N L k c.1 c.2 hc.1 hc.2 hinv
    obtain ⟨k2, hinv2⟩ := ih (w.write_bits c.1 c.2).1
      (flushed ++ (w.write_bits c.1 c.2).2) (N + c.1 * 2 ^ L) (L + c.2) k1 hinv1
      (fun x hx => hcs x (by simp [hx]))
    refine ⟨k2, ?_⟩
    rw [runWriter, List.foldl_cons]
    simp only []
    rw [runWriter_acc]
    have happ : appendCodes (N, L) (c :: rest) =
        appendCodes (N + c.1 * 2 ^ L, L + c.2) rest := by
      rw [appendCodes, List.foldl_cons, appendCodes]
    rw [happ]
    have hfl2 : flushed ++ (([] : List (List Nat)) ++ (w.write_bits c.1 c.2).2 ++
        (runWriter (w.write_bits c.1 c.2).1 rest).2) =
        flushed ++ (w.write_bits c.1 c.2).2 ++
          (runWriter (w.write_bits c.1 c.2).1 rest).2 := by
      simp
    rw [show (([] : List (List Nat)) ++ (w.write_bits c.1 c.2).2) =
      (w.write_bits c.1 c.2).2 from by simp]
    rw [← List.append_assoc]
    exact hinv2

/-- The bit length of a stream after appending codes. -/
theorem appendCodes_snd :
    ∀ (cs : List (Nat × Nat)) (N L : Nat),
      (appendCodes (N, L) cs).2 = L + (cs.map Prod.snd).sum := by
  intro cs
  induction cs with
  | nil => intro N L; simp [appendCodes]
  | cons c rest ih =>
    intro N L
    rw [appendCodes, List.foldl_cons]
    have := ih (N + c.1 * 2 ^ L) (L + c.2)
    rw [appendCodes] at this
    rw [this]
    simp
    omega

/-- `write_bits` never touches the code table or the sentinel code. -/
theorem write_bits_fields (w : HuffWriter) (bits size : Nat) :
    (w.write_bits bits size).1.eof = w.eof ∧ (w.write_bits bits size).1.map = w.map := by
  rw [HuffWriter.write_bits]
  by_cases h : 128 ≤ w.shift + size
  · rw [if_pos h]; exact ⟨rfl, rfl⟩
  · rw [if_neg h]; exact ⟨rfl, rfl⟩

/-- `runWriter` never touches the code table or the sentinel code. -/
theorem runWriter_fields :
    ∀ (cs : List (Nat × Nat)) (w : HuffWriter),
      (runWriter w cs).1.eof = w.eof ∧ (runWriter w cs).1.map = w.map := by
  intro cs
  induction cs with
  | nil => intro w; exact ⟨rfl, rfl⟩
  | cons c rest ih =>
    intro w
    have hr : runWriter w (c :: rest) = ((runWriter (w.write_bits c.1 c.2).1 rest).1,
        (([] : List (List Nat)) ++ (w.write_bits c.1 c.2).2) ++
          (runWriter (w.write_bits c.1 c.2).1 rest).2) := by
      rw [runWriter]
      simp only [List.foldl_cons]
      exact runWriter_acc rest _ _
    rw [hr]
    have h1 := ih (w.write_bits c.1 c.2).1
    have h2 := write_bits_fields w c.1 c.2
    exact ⟨h1.1.trans h2.1, h1.2.trans h2.2⟩

/-- The byte count of the packed stream. -/
theorem natBytes_length (N L : Nat) : (natBytes N L).length = (L + 7) / 8 := by
  simp [natBytes]

/-- C8: `end_transmission` writes the sentinel code through the normal
accumulation path and then flushes the remaining `shift` bits as exactly
`ceil(shift / 8)` bytes — no sink call at all when `shift = 0`, and never a
re-emission of an already flushed block — so for a whole encoding run the body
byte count is the total encoded bit count divided by 8, rounded up. -/
theorem end_transmission_flush_exact (w0map : Nat → Nat × Nat) (eof : Nat × Nat)
    (cs : List (Nat × Nat)) (hcs : ∀ c ∈ cs, c.1 < 2 ^ c.2 ∧ c.2 ≤ 128)
    (heof : eof.1 < 2 ^ eof.2) (heof2 : eof.2 ≤ 128) :
    (∀ n : Nat, write_u128_trimmed n 0 = []) ∧
    (∀ n s : Nat, (write_u128_trimmed n s).flatten.length = (s + 7) / 8) ∧
    (((runWriter ⟨w0map, eof, 0, 0⟩ cs).2 ++
      ((runWriter ⟨w0map, eof, 0, 0⟩ cs).1.end_transmission).2).flatten.length =
      ((cs.map Prod.snd).sum + eof.2 + 7) / 8) := by
  refine ⟨fun n => by rw [write_u128_trimmed]; rw [if_pos rfl], ?_, ?_⟩
  · intro n s
    rw [write_u128_trimmed]
    by_cases hz : s = 0
    · rw [if_pos hz, hz]
      simp
    · rw [if_neg hz]
      simp only [List.flatten_cons, List.flatten_nil, List.append_nil,
        List.length_map, List.length_range]
      omega
  · obtain ⟨k1, hinv1⟩ := runWriter_WInvK cs ⟨w0map, eof, 0, 0⟩ [] 0 0 0
      (WInvK_init w0map eof) hcs
    rw [List.nil_append] at hinv1
    have heoffld := (runWriter_fields cs ⟨w0map, eof, 0, 0⟩).1
    obtain ⟨k2, hinv2⟩ := write_bits_WInvK (runWriter ⟨w0map, eof, 0, 0⟩ cs).1
      (runWriter ⟨w0map, eof, 0, 0⟩ cs).2 (appendCodes (0, 0) cs).1
      (appendCodes (0, 0) cs).2 k1 eof.1 eof.2 heof heof2 hinv1
    have hflush := WInvK_flush _ _ _ _ _ hinv2
    rw [HuffWriter.end_transmission, heoffld]
    have hassoc : (runWriter ⟨w0map, eof, 0, 0⟩ cs).2 ++
        (((runWriter ⟨w0map, eof, 0, 0⟩ cs).1.write_bits eof.1 eof.2).2 ++
          write_u128_trimmed
            ((runWriter ⟨w0map, eof, 0, 0⟩ cs).1.write_bits eof.1 eof.2).1.scratch
            ((runWriter ⟨w0map, eof, 0, 0⟩ cs).1.write_bits eof.1 eof.2).1.shift) =
        ((runWriter ⟨w0map, eof, 0, 0⟩ cs).2 ++
          ((runWriter ⟨w0map, eof, 0, 0⟩ cs).1.write_bits eof.1 eof.2).2) ++
          write_u128_trimmed
            ((runWriter ⟨w0map, eof, 0, 0⟩ cs).1.write_bits eof.1 eof.2).1.scratch
            ((runWriter ⟨w0map, eof, 0, 0⟩ cs).1.write_bits eof.1 eof.2).1.shift := by
      rw [List.append_assoc]
    rw [hassoc, hflush, natBytes_length]
    rw [appendCodes_snd cs 0 0]
    omega

theorem end_transmission_flush_exact_witness :
    (write_u128_trimmed 0 0 = []) ∧
    ((write_u128_trimmed 5 12).flatten.length = (12 + 7) / 8) ∧
    (((runWriter ⟨fun _ => (0, 0), (2, 2), 0, 0⟩ [(1, 3)]).2 ++
      ((runWriter ⟨fun _ => (0, 0), (2, 2), 0, 0⟩ [(1, 3)]).1.end_transmission).2).flatten.length =
      (([((1 : Nat), (3 : Nat))].map Prod.snd).sum + 2 + 7) / 8) := by
  have h := end_transmission_flush_exact (fun _ => (0, 0)) (2, 2) [(1, 3)]
    (by decide) (by decide) (by decide)
  exact ⟨h.1 0, h.2.1 5 12, h.2.2⟩

/-! ## Claim C1: the encode/decode round trip.

Layers: tree paths and leaves; correctness of the `from_tree` code table; the
decoder's walk over a concatenated bit stream; the bridge from the encode loop
to `runWriter`; a depth bound for every tree built from a `count_bytes` table
(so codes fit the 128-bit accumulator); and the final composition. -/

/-- Depth of a tree: leaves at 0, a branch one above its deeper child. -/
def HuffTree.depth : HuffTree → Nat
  | .Branch l r => max l.depth r.depth + 1
  | .Known _ => 0
  | .EOF => 0

/-- The known-byte leaves of a tree, left to right. -/
def HuffTree.kleaves : HuffTree → List Nat
  | .Branch l r => l.kleaves ++ r.kleaves
  | .Known b => [b]
  | .EOF => []

/-- The number of end-of-stream leaves of a tree. -/
def HuffTree.eleaves : HuffTree → Nat
  | .Branch l r => l.eleaves + r.eleaves
  | .Known _ => 0
  | .EOF => 1

/-- Whether the root is a branch. -/
def HuffTree.isbranch : HuffTree → Bool
  | .Branch _ _ => true
  | .Known _ => false
  | .EOF => false

/-- Every tree has at least one node. -/
theorem HuffTree.size_pos (t : HuffTree) : 1 ≤ t.size := by
  cases t with
  | Branch l r => rw [HuffTree.size]; omega
  | Known b => exact le_refl 1
  | EOF => exact le_refl 1

/-- `WalksTo t p u`: descending from `t` along the bit path `p` (`false` =
left, `true` = right) is defined at every step and ends at `u`. -/
def WalksTo : HuffTree → List Bool → HuffTree → Prop
  | t, [], u => u = t
  | .Branch l r, bit :: bs, u => WalksTo (if bit then r else l) bs u
  | .Known _, _ :: _, _ => False
  | .EOF, _ :: _, _ => False

/-- A defined walk is no longer than the tree is deep. -/
theorem walksTo_length : ∀ (p : List Bool) (t u : HuffTree),
    WalksTo t p u → p.length ≤ t.depth := by
  intro p
  induction p with
  | nil => intro t u _; exact Nat.zero_le _
  | cons bit bs ih =>
    intro t u hw
    cases t with
    | Branch l r =>
      rw [WalksTo] at hw
      have h2 := ih _ _ hw
      rw [HuffTree.depth, List.length_cons]
      have hm1 := Nat.le_max_left l.depth r.depth
      have hm2 := Nat.le_max_right l.depth r.depth
      cases bit with
      | true => simp at h2; omega
      | false => simp at h2; omega
    | Known b => exact absurd hw (by rw [WalksTo]; exact not_false)
    | EOF => exact absurd hw (by rw [WalksTo]; exact not_false)

/-- Extending a walk that reaches a branch by one step. -/
theorem walksTo_snoc (b : Bool) : ∀ (p : List Bool) (t l r : HuffTree),
    WalksTo t p (.Branch l r) → WalksTo t (p ++ [b]) (if b then r else l) := by
  intro p
  induction p with
  | nil =>
    intro t l r hw
    rw [WalksTo] at hw
    rw [← hw]
    show WalksTo (HuffTree.Branch l r) ([] ++ [b]) (if b then r else l)
    rw [List.nil_append, WalksTo, WalksTo]
  | cons bit bs ih =>
    intro t l r hw
    cases t with
    | Branch tl tr =>
      rw [WalksTo] at hw
      rw [List.cons_append, WalksTo]
      exact ih _ _ _ hw
    | Known c => exact absurd hw (by rw [WalksTo]; exact not_false)
    | EOF => exact absurd hw (by rw [WalksTo]; exact not_false)

/-- The bit path encoded by a `(bits, size)` code, least significant bit
first. -/
def codeBits (c : Nat × Nat) : List Bool :=
  (List.range c.2).map c.1.testBit

/-- Appending a high `1` bit to a code appends `true` to its path. -/
theorem codeBits_snoc_hi (bits shift : Nat) (h : bits < 2 ^ shift) :
    codeBits (2 ^ shift + bits, shift + 1) = codeBits (bits, shift) ++ [true] := by
  rw [codeBits, codeBits, List.range_succ, List.map_append, List.map_cons, List.map_nil]
  have h2 : (2 : Nat) ^ shift + bits = 2 ^ shift * 1 + bits := by ring
  congr 1
  · apply List.map_congr_left
    intro j hj
    have hjlt : j < shift := List.mem_range.1 hj
    have h3 := @Nat.testBit_mul_pow_two_add 1 bits shift h j
    show (2 ^ shift + bits).testBit j = bits.testBit j
    rw [h2, h3, if_pos hjlt]
  · have h3 := @Nat.testBit_mul_pow_two_add 1 bits shift h shift
    show [(2 ^ shift + bits).testBit shift] = [true]
    rw [h2, h3, if_neg (by omega), Nat.sub_self]
    simp

/-- Appending a high `0` bit to a code appends `false` to its path. -/
theorem codeBits_snoc_lo (bits shift : Nat) (h : bits < 2 ^ shift) :
    codeBits (bits, shift + 1) = codeBits (bits, shift) ++ [false] := by
  rw [codeBits, codeBits, List.range_succ, List.map_append, List.map_cons, List.map_nil]
  congr 1
  show [bits.testBit shift] = [false]
  rw [Nat.testBit_lt_two_pow h]

/-- Total node count of a traversal stack. -/
def stackSize (st : List (HuffTree × Nat × Nat)) : Nat :=
  (st.map fun s => s.1.size).sum

/-- Invariant of the `from_tree` stack traversal: if every stack entry's
recorded code walks from `T` to that entry's subtree, then every final table
entry is either untouched (its byte occurring in no stack tree) or a code that
walks from `T` to the matching known leaf; likewise for the sentinel code. -/
theorem fromTreeGo_spec (T : HuffTree) :
    ∀ (fuel : Nat) (stack : List (HuffTree × Nat × Nat)) (map : Nat → Nat × Nat)
      (eof : Nat × Nat) (res : (Nat → Nat × Nat) × (Nat × Nat)),
      fromTreeGo fuel stack map eof = res →
      stackSize stack ≤ fuel →
      (∀ s ∈ stack, WalksTo T (codeBits (s.2.1, s.2.2)) s.1 ∧ s.2.1 < 2 ^ s.2.2) →
      (∀ b : Nat,
        (res.1 b = map b ∧ ∀ s ∈ stack, b ∉ HuffTree.kleaves s.1) ∨
        (WalksTo T (codeBits (res.1 b)) (.Known b) ∧ (res.1 b).1 < 2 ^ (res.1 b).2)) ∧
      ((res.2 = eof ∧ ∀ s ∈ stack, HuffTree.eleaves s.1 = 0) ∨
        (WalksTo T (codeBits res.2) .EOF ∧ res.2.1 < 2 ^ res.2.2)) := by
  intro fuel
  induction fuel with
  | zero =>
    intro stack map eof res hres hsz hstk
    have hstack : stack = [] := by
      cases stack with
      | nil => rfl
      | cons s rest =>
        exfalso
        have h1 := HuffTree.size_pos s.1
        have h2 : stackSize (s :: rest) = s.1.size + stackSize rest := by
          simp [stackSize]
        omega
    subst hstack
    rw [fromTreeGo] at hres
    refine ⟨fun b => Or.inl ⟨by rw [← hres], fun s hs => absurd hs (List.not_mem_nil s)⟩,
      Or.inl ⟨by rw [← hres], fun s hs => absurd hs (List.not_mem_nil s)⟩⟩
  | succ f ih =>
    intro stack map eof res hres hsz hstk
    cases stack with
    | nil =>
      rw [fromTreeGo] at hres
      refine ⟨fun b => Or.inl ⟨by rw [← hres], fun s hs => absurd hs (List.not_mem_nil s)⟩,
        Or.inl ⟨by rw [← hres], fun s hs => absurd hs (List.not_mem_nil s)⟩⟩
    | cons s rest =>
      obtain ⟨t, bits, shift⟩ := s
      have hhead := hstk (t, bits, shift) (by simp)
      cases t with
      | Branch left right =>
        simp only [fromTreeGo] at hres
        have hb : bits < 2 ^ shift := hhead.2
        have hlor : (1 <<< shift) ||| bits = 2 ^ shift + bits := by
          rw [Nat.shiftLeft_eq, one_mul]
          exact lor_eq_add shift (2 ^ shift) bits dvd_rfl hb
        have hpows : (2 : Nat) ^ (shift + 1) = 2 * 2 ^ shift := by ring
        have hsz2 : stackSize ((right, (1 <<< shift) ||| bits, shift + 1) ::
            (left, bits, shift + 1) :: rest) ≤ f := by
          simp only [stackSize, List.map_cons, List.sum_cons, HuffTree.size] at hsz ⊢
          omega
        have hstk2 : ∀ s ∈ (right, (1 <<< shift) ||| bits, shift + 1) ::
            (left, bits, shift + 1) :: rest,
            WalksTo T (codeBits (s.2.1, s.2.2)) s.1 ∧ s.2.1 < 2 ^ s.2.2 := by
          intro s hs
          rcases List.mem_cons.1 hs with rfl | hs1
          · constructor
            · show WalksTo T (codeBits ((1 <<< shift) ||| bits, shift + 1)) right
              rw [hlor, codeBits_snoc_hi bits shift hb]
              have := walksTo_snoc true (codeBits (bits, shift)) T left right hhead.1
              simpa using this
            · show (1 <<< shift) ||| bits < 2 ^ (shift + 1)
              rw [hlor, hpows]
              omega
          · rcases List.mem_cons.1 hs1 with rfl | hs2
            · constructor
              · show WalksTo T (codeBits (bits, shift + 1)) left
                rw [codeBits_snoc_lo bits shift hb]
                have := walksTo_snoc false (codeBits (bits, shift)) T left right hhead.1
                simpa using this
              · show bits < 2 ^ (shift + 1)
                rw [hpows]
                omega
            · exact hstk s (by simp [hs2])
        have hmain := ih _ _ _ _ hres hsz2 hstk2
        refine ⟨?_, ?_⟩
        · intro b
          rcases hmain.1 b with ⟨heq, hnot⟩ | hwalk
          · left
            refine ⟨heq, ?_⟩
            intro s hs
            rcases List.mem_cons.1 hs with rfl | hs2
            · show b ∉ HuffTree.kleaves (.Branch left right)
              rw [HuffTree.kleaves]
              intro hmem
              rcases List.mem_append.1 hmem with hl | hr
              · exact hnot (left, bits, shift + 1) (by simp) hl
              · exact hnot (right, (1 <<< shift) ||| bits, shift + 1) (by simp) hr
            · exact hnot s (by simp [hs2])
          · exact Or.inr hwalk
        · rcases hmain.2 with ⟨heq, hnot⟩ | hwalk
          · left
            refine ⟨heq, ?_⟩
            intro s hs
            rcases List.mem_cons.1 hs with rfl | hs2
            · show HuffTree.eleaves (.Branch left right) = 0
              rw [HuffTree.eleaves]
              have h1 : left.eleaves = 0 := hnot (left, bits, shift + 1) (by simp)
              have h2 : right.eleaves = 0 :=
                hnot (right, (1 <<< shift) ||| bits, shift + 1) (by simp)
              omega
            · exact hnot s (by simp [hs2])
          · exact Or.inr hwalk
      | EOF =>
        simp only [fromTreeGo] at hres
        have hsz2 : stackSize rest ≤ f := by
          simp only [stackSize, List.map_cons, List.sum_cons, HuffTree.size] at hsz ⊢
          omega
        have hstk2 : ∀ s ∈ rest, WalksTo T (codeBits (s.2.1, s.2.2)) s.1 ∧
            s.2.1 < 2 ^ s.2.2 := fun s hs => hstk s (by simp [hs])
        have hmain := ih _ _ _ _ hres hsz2 hstk2
        refine ⟨?_, ?_⟩
        · intro b
          rcases hmain.1 b with ⟨heq, hnot⟩ | hwalk
          · left
            refine ⟨heq, ?_⟩
            intro s hs
            rcases List.mem_cons.1 hs with rfl | hs2
            · show b ∉ HuffTree.kleaves .EOF
              rw [HuffTree.kleaves]
              exact List.not_mem_nil b
            · exact hnot s hs2
          · exact Or.inr hwalk
        · rcases hmain.2 with ⟨heq, _⟩ | hwalk
          · right
            rw [heq]
            exact ⟨hhead.1, hhead.2⟩
          · exact Or.inr hwalk
      | Known byte =>
        simp only [fromTreeGo] at hres
        have hsz2 : stackSize rest ≤ f := by
          simp only [stackSize, List.map_cons, List.sum_cons, HuffTree.size] at hsz ⊢
          omega
        have hstk2 : ∀ s ∈ rest, WalksTo T (codeBits (s.2.1, s.2.2)) s.1 ∧
            s.2.1 < 2 ^ s.2.2 := fun s hs => hstk s (by simp [hs])
        have hmain := ih _ _ _ _ hres hsz2 hstk2
        refine ⟨?_, ?_⟩
        · intro b
          rcases hmain.1 b with ⟨heq, hnot⟩ | hwalk
          · by_cases hbb : b = byte
            · right
              subst hbb
              rw [heq, if_pos rfl]
              exact ⟨hhead.1, hhead.2⟩
            · left
              refine ⟨by rw [heq, if_neg hbb], ?_⟩
              intro s hs
              rcases List.mem_cons.1 hs with rfl | hs2
              · show b ∉ HuffTree.kleaves (.Known byte)
                rw [HuffTree.kleaves]
                simp [hbb]
              · exact hnot s hs2
          · exact Or.inr hwalk
        · rcases hmain.2 with ⟨heq, hnot⟩ | hwalk
          · left
            refine ⟨heq, ?_⟩
            intro s hs
            rcases List.mem_cons.1 hs with rfl | hs2
            · rfl
            · exact hnot s hs2
          · exact Or.inr hwalk

/-- The code table of `HuffWriter::from_tree`: every known-leaf byte's code
walks from the root back to that leaf, and so does the sentinel code when the
tree has an end-of-stream leaf; code values fit their sizes. -/
theorem from_tree_spec (t : HuffTree) :
    (∀ b ∈ t.kleaves,
      WalksTo t (codeBits ((HuffWriter.from_tree t).map b)) (.Known b) ∧
        ((HuffWriter.from_tree t).map b).1 < 2 ^ ((HuffWriter.from_tree t).map b).2) ∧
    (0 < t.eleaves →
      WalksTo t (codeBits (HuffWriter.from_tree t).eof) .EOF ∧
        (HuffWriter.from_tree t).eof.1 < 2 ^ (HuffWriter.from_tree t).eof.2) := by
  have hstk : ∀ s ∈ [(t, 0, 0)], WalksTo t (codeBits (s.2.1, s.2.2)) s.1 ∧
      s.2.1 < 2 ^ s.2.2 := by
    intro s hs
    rcases List.mem_cons.1 hs with rfl | hs2
    · constructor
      · show WalksTo t (codeBits (0, 0)) t
        rw [codeBits]
        show WalksTo t [] t
        rw [WalksTo]
      · show (0 : Nat) < 2 ^ 0
        norm_num
    · exact absurd hs2 (List.not_mem_nil s)
  have hsz : stackSize [(t, 0, 0)] ≤ t.size := by
    simp [stackSize]
  have hmain := fromTreeGo_spec t t.size [(t, 0, 0)] (fun _ => (0, 0)) (0, 0)
    (fromTreeGo t.size [(t, 0, 0)] (fun _ => (0, 0)) (0, 0)) rfl hsz hstk
  constructor
  · intro b hb
    rcases hmain.1 b with ⟨_, hnot⟩ | hwalk
    · exact absurd hb (hnot (t, 0, 0) (by simp))
    · exact hwalk
  · intro he
    rcases hmain.2 with ⟨_, hnot⟩ | hwalk
    · have h0 : t.eleaves = 0 := hnot (t, 0, 0) (by simp)
      omega
    · exact hwalk


/-- Termination weight of a reader position: a known leaf still owes an
emission before the next bit is consumed. -/
def curW : HuffTree → Nat
  | .Known _ => 1
  | _ => 0

/-- The position weight is at most one. -/
theorem curW_le_one (t : HuffTree) : curW t ≤ 1 := by
  cases t <;> simp [curW]

/-- Splitting the bit list of a specification walk: if the walk over `xs` ends
still running, it continues through `ys` from the reached position; if it hit
the sentinel, the rest of the bits is ignored.  Fueled formulation, `n`
dominating the walk's termination measure. -/
theorem feedSpec_append_fuel (l r : HuffTree) :
    ∀ (n : Nat) (xs : List Bool) (cur : HuffTree) (ys : List Bool),
      2 * xs.length + curW cur ≤ n →
      feedSpec l r cur (xs ++ ys) =
        if (feedSpec l r cur xs).2.2 then
          ((feedSpec l r cur xs).1 ++ (feedSpec l r (feedSpec l r cur xs).2.1 ys).1,
            (feedSpec l r (feedSpec l r cur xs).2.1 ys).2)
        else feedSpec l r cur xs := by
  intro n
  induction n using Nat.strong_induction_on with
  | _ n ih =>
    intro xs cur ys hn
    cases xs with
    | nil =>
      rw [List.nil_append]
      have h0 : feedSpec l r cur [] = ([], cur, true) := by
        rw [feedSpec]
      rw [h0]
      simp
    | cons x xs2 =>
      cases cur with
      | EOF =>
        have h0 : feedSpec l r .EOF (x :: xs2) = ([], .EOF, false) := by
          rw [feedSpec]
        have h1 : feedSpec l r .EOF ((x :: xs2) ++ ys) = ([], .EOF, false) := by
          rw [List.cons_append, feedSpec]
        rw [h0, h1]
        simp
      | Branch bl br =>
        simp only [List.length_cons] at hn
        cases n with
        | zero => omega
        | succ n2 =>
          have h0 : feedSpec l r (.Branch bl br) (x :: xs2) =
              feedSpec l r (if x then br else bl) xs2 := by
            rw [feedSpec]
          have h1 : feedSpec l r (.Branch bl br) ((x :: xs2) ++ ys) =
              feedSpec l r (if x then br else bl) (xs2 ++ ys) := by
            rw [List.cons_append, feedSpec]
          rw [h0, h1]
          apply ih n2 (by omega)
          have := curW_le_one (if x then br else bl)
          omega
      | Known b =>
        simp only [List.length_cons, curW] at hn
        cases n with
        | zero => omega
        | succ n2 =>
          have h0 : feedSpec l r (.Known b) (x :: xs2) =
              ((b :: (feedSpec l r (.Branch l r) (x :: xs2)).1),
                (feedSpec l r (.Branch l r) (x :: xs2)).2) := by
            rw [feedSpec]
            all_goals intro hfalse; simp at hfalse
          have h1 : feedSpec l r (.Known b) ((x :: xs2) ++ ys) =
              ((b :: (feedSpec l r (.Branch l r) ((x :: xs2) ++ ys)).1),
                (feedSpec l r (.Branch l r) ((x :: xs2) ++ ys)).2) := by
            rw [List.cons_append, feedSpec]
            all_goals intro hfalse; simp at hfalse
          have h2 := ih n2 (by omega) (x :: xs2) (.Branch l r) ys
            (by simp only [List.length_cons, curW]; omega)
          rw [h0, h1, h2]
          by_cases hflag : (feedSpec l r (.Branch l r) (x :: xs2)).2.2
          · simp [hflag]
          · simp [hflag]

/-- Bit-list splitting for `feedSpec`, fuel discharged. -/
theorem feedSpec_append (l r : HuffTree) (xs : List Bool) (cur : HuffTree)
    (ys : List Bool) :
    feedSpec l r cur (xs ++ ys) =
      if (feedSpec l r cur xs).2.2 then
        ((feedSpec l r cur xs).1 ++ (feedSpec l r (feedSpec l r cur xs).2.1 ys).1,
          (feedSpec l r (feedSpec l r cur xs).2.1 ys).2)
      else feedSpec l r cur xs :=
  feedSpec_append_fuel l r (2 * xs.length + curW cur) xs cur ys (le_refl _)

/-- Feeding a bit path that walks to a known leaf, followed by more bits:
the leaf's byte is emitted and the walk resumes at the root. -/
theorem feedSpec_walk_known (l r : HuffTree) :
    ∀ (bs : List Bool) (cur : HuffTree) (b : Nat) (ys : List Bool),
      WalksTo cur bs (.Known b) → ys ≠ [] →
      feedSpec l r cur (bs ++ ys) =
        ((b :: (feedSpec l r (.Branch l r) ys).1), (feedSpec l r (.Branch l r) ys).2) := by
  intro bs
  induction bs with
  | nil =>
    intro cur b ys hw hys
    rw [WalksTo] at hw
    rw [← hw, List.nil_append]
    cases ys with
    | nil => exact absurd rfl hys
    | cons y ys2 =>
      rw [feedSpec]
      all_goals intro hfalse; simp at hfalse
  | cons bit bs2 ih =>
    intro cur b ys hw hys
    cases cur with
    | Branch bl br =>
      rw [WalksTo] at hw
      rw [List.cons_append]
      have h0 : feedSpec l r (.Branch bl br) (bit :: (bs2 ++ ys)) =
          feedSpec l r (if bit then br else bl) (bs2 ++ ys) := by
        rw [feedSpec]
      rw [h0]
      exact ih _ _ _ hw hys
    | Known c => exact absurd hw (by rw [WalksTo]; exact not_false)
    | EOF => exact absurd hw (by rw [WalksTo]; exact not_false)

/-- Feeding a bit path that walks to the sentinel, followed by anything: the
reader stops there, reporting `false` exactly when bits were left over. -/
theorem feedSpec_walk_eof (l r : HuffTree) :
    ∀ (bs : List Bool) (cur : HuffTree) (ys : List Bool),
      WalksTo cur bs .EOF →
      feedSpec l r cur (bs ++ ys) = ([], .EOF, ys.isEmpty) := by
  intro bs
  induction bs with
  | nil =>
    intro cur ys hw
    rw [WalksTo] at hw
    rw [← hw, List.nil_append]
    cases ys with
    | nil => rw [feedSpec]; rfl
    | cons y ys2 => rw [feedSpec]; rfl
  | cons bit bs2 ih =>
    intro cur ys hw
    cases cur with
    | Branch bl br =>
      rw [WalksTo] at hw
      rw [List.cons_append]
      have h0 : feedSpec l r (.Branch bl br) (bit :: (bs2 ++ ys)) =
          feedSpec l r (if bit then br else bl) (bs2 ++ ys) := by
        rw [feedSpec]
      rw [h0]
      exact ih _ _ hw
    | Known c => exact absurd hw (by rw [WalksTo]; exact not_false)
    | EOF => exact absurd hw (by rw [WalksTo]; exact not_false)

/-- Decoding a concatenation of known-leaf codes, the sentinel code and
padding: the decoder emits exactly the coded bytes in order and stops at the
sentinel. -/
theorem feedSpec_codes (l r : HuffTree) :
    ∀ (cs : List (Nat × (Nat × Nat))) (epath pad : List Bool),
      (∀ c ∈ cs, WalksTo (.Branch l r) (codeBits c.2) (.Known c.1)) →
      WalksTo (.Branch l r) epath .EOF → epath ≠ [] →
      feedSpec l r (.Branch l r) ((cs.flatMap fun c => codeBits c.2) ++ (epath ++ pad)) =
        (cs.map Prod.fst, .EOF, pad.isEmpty) := by
  intro cs
  induction cs with
  | nil =>
    intro epath pad _ heof hne
    rw [List.flatMap_nil, List.nil_append]
    rw [feedSpec_walk_eof l r epath _ pad heof]
    rfl
  | cons c cs2 ih =>
    intro epath pad hcs heof hne
    rw [List.flatMap_cons, List.append_assoc]
    have hys : (cs2.flatMap fun c => codeBits c.2) ++ (epath ++ pad) ≠ [] := by
      intro hfalse
      rcases List.append_eq_nil.1 hfalse with ⟨_, h2⟩
      rcases List.append_eq_nil.1 h2 with ⟨h3, _⟩
      exact hne h3
    rw [feedSpec_walk_known l r (codeBits c.2) _ c.1 _ (hcs c (by simp)) hys]
    rw [ih epath pad (fun x hx => hcs x (by simp [hx])) heof hne]
    rfl

/-- The decode loop over body bytes equals the specification walk over the
concatenated bits of those bytes, for a branch-rooted tree. -/
theorem decodeLoop_stream (l r : HuffTree) :
    ∀ (bytes : List Nat) (cur : HuffTree) (out : List Nat),
      decodeLoop (.Branch l r) cur bytes out =
        some (out ++ (feedSpec l r cur (bytes.flatMap byteBits)).1) := by
  intro bytes
  induction bytes with
  | nil =>
    intro cur out
    rw [decodeLoop, List.flatMap_nil]
    have h0 : feedSpec l r cur [] = ([], cur, true) := by rw [feedSpec]
    rw [h0]
    simp
  | cons b rest ih =>
    intro cur out
    rw [decodeLoop]
    have hfeed : HuffReader.feed (.Branch l r) cur b =
        some ((feedSpec l r cur (byteBits b)).1,
          (feedSpec l r cur (byteBits b)).2.1, (feedSpec l r cur (byteBits b)).2.2) := by
      rw [HuffReader.feed]
      have h1 := feedGo_eq_spec l r 17 cur b 0 [] (by omega) (by omega)
      rw [h1, byteBits]
      simp
    rw [hfeed]
    simp only []
    rw [List.flatMap_cons, feedSpec_append l r (byteBits b) cur (rest.flatMap byteBits)]
    by_cases hflag : (feedSpec l r cur (byteBits b)).2.2
    · simp only [hflag, if_true]
      rw [ih]
      simp
    · rw [Bool.not_eq_true] at hflag
      simp only [hflag, Bool.false_eq_true, if_false]

/-- Appending a code keeps the stream value below its bit length. -/
theorem stream_lt (N L bits size : Nat) (hN : N < 2 ^ L) (hb : bits < 2 ^ size) :
    N + bits * 2 ^ L < 2 ^ (L + size) := by
  have h1 : (bits + 1) * 2 ^ L ≤ 2 ^ size * 2 ^ L :=
    Nat.mul_le_mul_right _ (by omega)
  rw [Nat.add_mul, one_mul] at h1
  have h3 : 2 ^ size * 2 ^ L = 2 ^ (L + size) := by
    rw [← pow_add]
    congr 1
    omega
  omega

/-- The bits of a stream after appending codes: the original bits followed by
each code's bit path in order. -/
theorem appendCodes_testBits :
    ∀ (cs : List (Nat × Nat)) (N L : Nat), N < 2 ^ L →
      (∀ c ∈ cs, c.1 < 2 ^ c.2) →
      (List.range (appendCodes (N, L) cs).2).map (appendCodes (N, L) cs).1.testBit =
        ((List.range L).map N.testBit) ++ cs.flatMap codeBits := by
  intro cs
  induction cs with
  | nil =>
    intro N L _ _
    simp [appendCodes]
  | cons c cs2 ih =>
    intro N L hN hcs
    have happ : appendCodes (N, L) (c :: cs2) =
        appendCodes (N + c.1 * 2 ^ L, L + c.2) cs2 := by
      rw [appendCodes, List.foldl_cons, appendCodes]
    rw [happ]
    rw [ih (N + c.1 * 2 ^ L) (L + c.2) (stream_lt N L c.1 c.2 hN (hcs c (by simp)))
      (fun x hx => hcs x (by simp [hx]))]
    rw [List.flatMap_cons, ← List.append_assoc]
    congr 1
    have h4 : N + c.1 * 2 ^ L = 2 ^ L * c.1 + N := by ring
    rw [List.range_add, List.map_append]
    congr 1
    · apply List.map_congr_left
      intro j hj
      have hjlt : j < L := List.mem_range.1 hj
      have h3 := @Nat.testBit_mul_pow_two_add c.1 N L hN j
      rw [h4, h3, if_pos hjlt]
    · rw [List.map_map, codeBits]
      apply List.map_congr_left
      intro k hk
      show (N + c.1 * 2 ^ L).testBit (L + k) = c.1.testBit k
      have h3 := @Nat.testBit_mul_pow_two_add c.1 N L hN (L + k)
      rw [h4, h3, if_neg (by omega)]
      congr 1
      omega

/-- One byte of the packed stream carries bits `8j .. 8j+7` of the stream. -/
theorem byteBits_natByte (N j : Nat) :
    byteBits (N / 2 ^ (8 * j) % 2 ^ 8) =
      (List.range 8).map fun i => N.testBit (8 * j + i) := by
  rw [byteBits]
  apply List.map_congr_left
  intro i hi
  have hilt : i < 8 := List.mem_range.1 hi
  rw [Nat.testBit_to_div_mod, Nat.testBit_to_div_mod]
  have h0 := mod_div_mod (N / 2 ^ (8 * j)) 8 i 1 (by omega)
  rw [pow_one] at h0
  have h1 : N / 2 ^ (8 * j) % 2 ^ 8 / 2 ^ i % 2 = N / 2 ^ (8 * j + i) % 2 := by
    rw [h0, Nat.div_div_eq_div_mul, ← pow_add]
  rw [h1]

/-- Concatenating the bits of the packed bytes of `C` byte slots. -/
theorem range_flat_byteBits (N : Nat) :
    ∀ C : Nat, ((List.range C).map fun j => N / 2 ^ (8 * j) % 2 ^ 8).flatMap byteBits =
      (List.range (8 * C)).map N.testBit := by
  intro C
  induction C with
  | zero => simp
  | succ c ih =>
    rw [List.range_succ, List.map_append, List.flatMap_append, ih]
    rw [show 8 * (c + 1) = 8 * c + 8 by ring, List.range_add, List.map_append]
    congr 1
    simp only [List.map_cons, List.map_nil, List.flatMap_cons, List.flatMap_nil,
      List.append_nil]
    rw [byteBits_natByte, List.map_map]
    rfl

/-- Bits beyond the stream length are zero: the packed bytes' bits are the
stream's bits followed by `false` padding up to a whole byte count. -/
theorem natBytes_bits_split (N L : Nat) (hN : N < 2 ^ L) :
    (natBytes N L).flatMap byteBits =
      ((List.range L).map N.testBit) ++
        List.replicate (8 * ((L + 7) / 8) - L) false := by
  have hpad : ∀ n : Nat, ((List.range n).map fun k => N.testBit (L + k)) =
      List.replicate n false := by
    intro n
    induction n with
    | zero => simp
    | succ m ihm =>
      rw [List.range_succ, List.map_append, ihm, List.replicate_succ']
      congr 1
      simp only [List.map_cons, List.map_nil]
      congr 1
      apply Nat.testBit_lt_two_pow
      calc N < 2 ^ L := hN
        _ ≤ 2 ^ (L + m) := Nat.pow_le_pow_right (by omega) (by omega)
  rw [natBytes, range_flat_byteBits]
  have hL : 8 * ((L + 7) / 8) = L + (8 * ((L + 7) / 8) - L) := by omega
  conv_lhs => rw [hL]
  rw [List.range_add, List.map_append]
  congr 1
  rw [List.map_map]
  exact hpad _

/-- The write accumulator of the encode loop only ever appends. -/
theorem encodeBody_acc (S : List (Fin 256)) :
    ∀ (w : HuffWriter) (acc : List (List Nat)),
      S.foldl (fun st b =>
        ((st.1.write_byte b).1, st.2 ++ (st.1.write_byte b).2)) (w, acc) =
      ((encodeBody w S).1, acc ++ (encodeBody w S).2) := by
  induction S with
  | nil => intro w acc; simp [encodeBody]
  | cons b rest ih =>
    intro w acc
    simp only [List.foldl_cons]
    rw [ih]
    have hr : encodeBody w (b :: rest) = ((encodeBody (w.write_byte b).1 rest).1,
        (([] : List (List Nat)) ++ (w.write_byte b).2) ++
          (encodeBody (w.write_byte b).1 rest).2) := by
      rw [encodeBody]
      simp only [List.foldl_cons]
      exact ih _ _
    rw [hr]
    simp

/-- The encode loop is `runWriter` over the codes looked up in the table,
which stays constant through the run. -/
theorem encodeBody_runWriter :
    ∀ (S : List (Fin 256)) (w : HuffWriter) (m : Nat → Nat × Nat), w.map = m →
      encodeBody w S = runWriter w (S.map fun b => m b.val) := by
  intro S
  induction S with
  | nil => intro w m _; rfl
  | cons b S2 ih =>
    intro w m hm
    have hwb : w.write_byte b = w.write_bits (m b.val).1 (m b.val).2 := by
      rw [HuffWriter.write_byte, hm]
    rw [encodeBody, List.foldl_cons]
    simp only []
    rw [encodeBody_acc]
    rw [List.map_cons, runWriter, List.foldl_cons]
    simp only []
    rw [runWriter_acc]
    rw [hwb]
    rw [ih _ m ((write_bits_fields w (m b.val).1 (m b.val).2).2.trans hm)]

/-- Inserting at a valid index adds one value to a mapped sum. -/
theorem insertIdx_map_sum {α : Type} (f : α → Nat) (x : α) (l : List α) (n : Nat)
    (h : n ≤ l.length) :
    ((l.insertIdx n x).map f).sum = f x + (l.map f).sum := by
  rw [insertIdx_eq_take_cons_drop x n l h, List.map_append, List.map_cons,
    List.sum_append, List.sum_cons]
  conv_rhs => rw [← List.take_append_drop n l, List.map_append, List.sum_append]
  omega

/-- Membership after inserting at a valid index. -/
theorem insertIdx_mem_iff {α : Type} (x y : α) (l : List α) (n : Nat)
    (h : n ≤ l.length) :
    y ∈ l.insertIdx n x ↔ y = x ∨ y ∈ l := by
  rw [insertIdx_eq_take_cons_drop x n l h]
  conv_rhs => rw [← List.take_append_drop n l]
  simp only [List.mem_append, List.mem_cons]
  tauto

/-- The merge loop preserves sortedness, the set of known-leaf bytes, the
total count of sentinel leaves, and the total key weight. -/
theorem mergeGo_preserve :
    ∀ (fuel : Nat) (q : PriorityQueue Nat HuffTree), QSorted q →
      QSorted (mergeGo fuel q) ∧
      (∀ b : Nat, (∃ e ∈ (mergeGo fuel q).data, b ∈ e.2.kleaves) ↔
        (∃ e ∈ q.data, b ∈ e.2.kleaves)) ∧
      ((mergeGo fuel q).data.map fun e => e.2.eleaves).sum =
        (q.data.map fun e => e.2.eleaves).sum ∧
      ((mergeGo fuel q).data.map Prod.fst).sum = (q.data.map Prod.fst).sum := by
  intro fuel
  induction fuel with
  | zero =>
    intro q hs
    exact ⟨hs, fun b => Iff.rfl, rfl, rfl⟩
  | succ f ih =>
    intro q hs
    rw [mergeGo]
    cases hrt : q.remove_two with
    | none => exact ⟨hs, fun b => Iff.rfl, rfl, rfl⟩
    | some p =>
      obtain ⟨⟨⟨c1, t1⟩, ⟨c2, t2⟩⟩, q2⟩ := p
      obtain ⟨_, _, _, hq2s, hsplit, hlen2⟩ :=
        (remove_two_spec q hs).2 (c1, t1) (c2, t2) q2 hrt
      simp only []
      set qi := q2.insert (c1 + c2) (HuffTree.Branch t1 t2) with hqi
      have hidx : q2.searchIndex (c1 + c2) ≤ q2.data.length := searchIndex_le q2 _
      have hqis : QSorted qi := insert_sorted q2 (c1 + c2) (HuffTree.Branch t1 t2) hq2s
      have hqid : qi.data = q2.data.insertIdx (q2.searchIndex (c1 + c2))
          (c1 + c2, HuffTree.Branch t1 t2) := rfl
      obtain ⟨hs3, hmem3, hel3, hks3⟩ := ih qi hqis
      refine ⟨hs3, ?_, ?_, ?_⟩
      · intro b
        rw [hmem3 b]
        constructor
        · intro hex
          obtain ⟨e, he, hbe⟩ := hex
          rw [hqid] at he
          rcases (insertIdx_mem_iff _ e q2.data _ hidx).1 he with rfl | he2
          · show ∃ e ∈ q.data, b ∈ e.2.kleaves
            rw [HuffTree.kleaves] at hbe
            rcases List.mem_append.1 hbe with hb1 | hb2
            · exact ⟨(c1, t1), by rw [hsplit]; simp, hb1⟩
            · exact ⟨(c2, t2), by rw [hsplit]; simp, hb2⟩
          · exact ⟨e, by rw [hsplit]; simp [he2], hbe⟩
        · intro hex
          obtain ⟨e, he, hbe⟩ := hex
          rw [hsplit] at he
          simp only [List.mem_append, List.mem_singleton] at he
          rcases he with (he2 | rfl) | rfl
          · refine ⟨e, ?_, hbe⟩
            rw [hqid]
            exact (insertIdx_mem_iff _ e q2.data _ hidx).2 (Or.inr he2)
          · refine ⟨(c1 + c2, HuffTree.Branch t1 t2), ?_, ?_⟩
            · rw [hqid]
              exact (insertIdx_mem_iff _ _ q2.data _ hidx).2 (Or.inl rfl)
            · rw [HuffTree.kleaves]
              exact List.mem_append.2 (Or.inr hbe)
          · refine ⟨(c1 + c2, HuffTree.Branch t1 t2), ?_, ?_⟩
            · rw [hqid]
              exact (insertIdx_mem_iff _ _ q2.data _ hidx).2 (Or.inl rfl)
            · rw [HuffTree.kleaves]
              exact List.mem_append.2 (Or.inl hbe)
      · rw [hel3, hqid, insertIdx_map_sum _ _ _ _ hidx, hsplit]
        simp only [List.map_append, List.sum_append, List.map_cons, List.map_nil,
          List.sum_cons, List.sum_nil, HuffTree.eleaves]
        omega
      · rw [hks3, hqid, insertIdx_map_sum _ _ _ _ hidx, hsplit]
        simp only [List.map_append, List.sum_append, List.map_cons, List.map_nil,
          List.sum_cons, List.sum_nil]
        omega

/-- The tree `from_freqs` builds has exactly one sentinel leaf, and its
known-byte leaves are exactly the table's byte values (for a table sorted
descending by weight, as `count_bytes` produces). -/
theorem from_freqs_facts (f : Frequencies)
    (hsp : f.pairs.Pairwise fun a b => b.1 ≤ a.1) :
    (∀ b : Nat, b ∈ (HuffTree.from_freqs f).kleaves ↔ ∃ p ∈ f.pairs, p.2 = b) ∧
    (HuffTree.from_freqs f).eleaves = 1 := by
  have hq0s : QSorted (PriorityQueue.from_data
      (f.pairs.map fun p => (p.1, HuffTree.Known p.2))) := by
    show (f.pairs.map fun p => (p.1, HuffTree.Known p.2)).Pairwise _
    rw [List.pairwise_map]
    exact hsp
  have hq1s : QSorted ((PriorityQueue.from_data
      (f.pairs.map fun p => (p.1, HuffTree.Known p.2))).insert 0 HuffTree.EOF) :=
    insert_sorted _ 0 HuffTree.EOF hq0s
  set q1 := (PriorityQueue.from_data
    (f.pairs.map fun p => (p.1, HuffTree.Known p.2))).insert 0 HuffTree.EOF with hq1
  have hidx : (PriorityQueue.from_data
      (f.pairs.map fun p => (p.1, HuffTree.Known p.2))).searchIndex 0 ≤
      (f.pairs.map fun p => (p.1, HuffTree.Known p.2)).length :=
    searchIndex_le _ 0
  have hq1d : q1.data = (f.pairs.map fun p => (p.1, HuffTree.Known p.2)).insertIdx
      ((PriorityQueue.from_data
        (f.pairs.map fun p => (p.1, HuffTree.Known p.2))).searchIndex 0)
      (0, HuffTree.EOF) := rfl
  have hq1len : q1.data.length = f.pairs.length + 1 := by
    rw [hq1, insert_length_any]
    simp [PriorityQueue.from_data]
  obtain ⟨hsf, hmemf, helf, hksf⟩ := mergeGo_preserve q1.data.length q1 hq1s
  have hel1 : (q1.data.map fun e => e.2.eleaves).sum = 1 := by
    rw [hq1d, insertIdx_map_sum _ _ _ _ hidx]
    have hz : ((f.pairs.map fun p => (p.1, HuffTree.Known p.2)).map
        fun e => e.2.eleaves).sum = 0 := by
      apply List.sum_eq_zero
      intro x hx
      rw [List.map_map] at hx
      obtain ⟨p, _, hpe⟩ := List.mem_map.1 hx
      rw [← hpe]
      rfl
    rw [hz]
    rfl
  cases hp : f.pairs with
  | nil =>
    have hq1data : q1.data = [(0, HuffTree.EOF)] := by
      rw [hq1d, hp]
      rfl
    have hff : HuffTree.from_freqs f = .EOF := by
      rw [HuffTree.from_freqs]
      rw [← hq1]
      rw [mergeGo_small _ _ (by rw [hq1len, hp]; simp)]
      rw [PriorityQueue.remove, hq1data]
      rfl
    constructor
    · intro b
      rw [hff]
      constructor
      · intro hb
        rw [HuffTree.kleaves] at hb
        exact absurd hb (List.not_mem_nil b)
      · intro hex
        obtain ⟨p, hp2, _⟩ := hex
        exact absurd hp2 (List.not_mem_nil p)
    · rw [hff]
      rfl
  | cons p0 rest =>
    have h2 : 2 ≤ q1.data.length := by
      rw [hq1len, hp]
      simp
    obtain ⟨k, l, r, hfin⟩ := mergeGo_final_branch q1.data.length q1 h2 (Nat.le_succ _)
    have hff : HuffTree.from_freqs f = .Branch l r := by
      rw [HuffTree.from_freqs]
      rw [← hq1]
      rw [PriorityQueue.remove, hfin]
      rfl
    constructor
    · intro b
      rw [hff]
      have hiff := hmemf b
      constructor
      · intro hb
        have hex : ∃ e ∈ (mergeGo q1.data.length q1).data, b ∈ e.2.kleaves := by
          refine ⟨(k, .Branch l r), ?_, hb⟩
          rw [hfin]
          simp
        obtain ⟨e, he, hbe⟩ := hiff.1 hex
        rw [hq1d] at he
        rcases (insertIdx_mem_iff _ e _ _ hidx).1 he with rfl | he2
        · rw [HuffTree.kleaves] at hbe
          exact absurd hbe (List.not_mem_nil b)
        · obtain ⟨p, hpm, hpe⟩ := List.mem_map.1 he2
          rw [hp] at hpm
          refine ⟨p, hpm, ?_⟩
          rw [← hpe] at hbe
          have hbe2 : b ∈ HuffTree.kleaves (.Known p.2) := hbe
          rw [HuffTree.kleaves] at hbe2
          exact (List.mem_singleton.1 hbe2).symm
      · intro hex
        obtain ⟨p, hpm, hpb⟩ := hex
        rw [← hp] at hpm
        have hex2 : ∃ e ∈ q1.data, b ∈ e.2.kleaves := by
          refine ⟨(p.1, HuffTree.Known p.2), ?_, ?_⟩
          · rw [hq1d]
            exact (insertIdx_mem_iff _ _ _ _ hidx).2
              (Or.inr (List.mem_map.2 ⟨p, hpm, rfl⟩))
          · show b ∈ HuffTree.kleaves (.Known p.2)
            rw [HuffTree.kleaves, hpb]
            exact List.mem_singleton.2 rfl
        obtain ⟨e, he, hbe⟩ := hiff.2 hex2
        rw [hfin] at he
        have he2 : e = (k, HuffTree.Branch l r) := List.mem_singleton.1 he
        rw [he2] at hbe
        exact hbe
    · have hsum := helf
      rw [hfin] at hsum
      simp only [List.map_cons, List.map_nil, List.sum_cons, List.sum_nil] at hsum
      rw [hel1] at hsum
      have h3 : (HuffTree.Branch l r).eleaves + 0 = 1 := hsum
      rw [hff]
      omega

/-! ## The code-length bound.

Every tree `from_freqs` builds from a `count_bytes` table has depth at most
51, far below the 128-bit accumulator.  Two mechanisms: zero-weight entries
merge in a balanced fashion because the binary search drops each merged node
back into the middle of the zero block (bounded by `zeroBound`, a
`log_{4/3}`), and each positive-weight internal node grows by a factor
`≥ 3/2` per merge because the two removed entries are the queue minima
(bounded by `growBound`, a `log_{3/2}`). -/

/-- `(4/3)^j` eventually dominates any constant. -/
theorem pow43_dominates : ∀ c : Nat, ∃ j, c * 3 ^ j ≤ 4 ^ j := by
  intro c
  induction c with
  | zero => exact ⟨0, by norm_num⟩
  | succ c ih =>
    obtain ⟨j, hj⟩ := ih
    refine ⟨j + 3, ?_⟩
    have h3 : (3 : Nat) ^ j ≤ 4 ^ j := Nat.pow_le_pow_left (by norm_num) j
    have hL : (c + 1) * 3 ^ (j + 3) = 27 * (c * 3 ^ j) + 27 * 3 ^ j := by ring
    have hR : (4 : Nat) ^ (j + 3) = 64 * 4 ^ j := by ring
    omega

/-- `(3/2)^j` eventually dominates any constant, strictly. -/
theorem pow32_dominates : ∀ c : Nat, ∃ j, 2 ^ j * c < 3 ^ j := by
  intro c
  induction c with
  | zero => exact ⟨0, by norm_num⟩
  | succ c ih =>
    obtain ⟨j, hj⟩ := ih
    refine ⟨j + 2, ?_⟩
    have h3 : (2 : Nat) ^ j ≤ 3 ^ j := Nat.pow_le_pow_left (by norm_num) j
    have hL : 2 ^ (j + 2) * (c + 1) = 4 * (2 ^ j * c) + 4 * 2 ^ j := by ring
    have hR : (3 : Nat) ^ (j + 2) = 9 * 3 ^ j := by ring
    omega

/-- Existence witness for `zeroBound`. -/
theorem zeroBound_exists (x : Nat) : ∃ j, 520 * 3 ^ j ≤ (x + 1) * 4 ^ j := by
  obtain ⟨j, hj⟩ := pow43_dominates 520
  refine ⟨j, le_trans hj ?_⟩
  exact Nat.le_mul_of_pos_left _ (by omega)

/-- The zero-block depth allowance at scale `x`: the least `j` with
`520 · 3^j ≤ (x+1) · 4^j`, a ceiling of `log_{4/3} (520 / (x+1))`. -/
def zeroBound (x : Nat) : Nat := Nat.find (zeroBound_exists x)

theorem zeroBound_spec (x : Nat) :
    520 * 3 ^ zeroBound x ≤ (x + 1) * 4 ^ zeroBound x :=
  Nat.find_spec (zeroBound_exists x)

theorem zeroBound_le (x j : Nat) (h : 520 * 3 ^ j ≤ (x + 1) * 4 ^ j) :
    zeroBound x ≤ j :=
  Nat.find_le h

/-- `zeroBound` is antitone. -/
theorem zeroBound_mono (x y : Nat) (h : x ≤ y) : zeroBound y ≤ zeroBound x := by
  apply zeroBound_le
  calc 520 * 3 ^ zeroBound x ≤ (x + 1) * 4 ^ zeroBound x := zeroBound_spec x
    _ ≤ (y + 1) * 4 ^ zeroBound x := Nat.mul_le_mul_right _ (by omega)

theorem zeroBound_pos (x : Nat) (h : x + 1 < 520) : 1 ≤ zeroBound x := by
  by_contra hc
  push_neg at hc
  have h0 : zeroBound x = 0 := by omega
  have h1 := zeroBound_spec x
  rw [h0] at h1
  simp at h1
  omega

/-- The decay step of the zero-block bound: climbing from scale `x` back up to
scale `y` with `4(x+1) ≤ 3(y+1)` costs at least one level. -/
theorem zeroBound_step (x y : Nat) (hxy : 4 * (x + 1) ≤ 3 * (y + 1))
    (hx : x + 1 < 520) : zeroBound y + 1 ≤ zeroBound x := by
  have ha := zeroBound_spec x
  have h1 : 1 ≤ zeroBound x := zeroBound_pos x hx
  have h2 : zeroBound y ≤ zeroBound x - 1 := by
    apply zeroBound_le
    have ha2 : zeroBound x = (zeroBound x - 1) + 1 := by omega
    rw [ha2, pow_succ, pow_succ] at ha
    have hstep : 520 * 3 ^ (zeroBound x - 1) * 12 ≤
        (y + 1) * 4 ^ (zeroBound x - 1) * 12 := by
      calc 520 * 3 ^ (zeroBound x - 1) * 12
          = 4 * (520 * (3 ^ (zeroBound x - 1) * 3)) := by ring
        _ ≤ 4 * ((x + 1) * (4 ^ (zeroBound x - 1) * 4)) := Nat.mul_le_mul_left 4 ha
        _ = (4 * (x + 1)) * (4 ^ (zeroBound x - 1) * 4) := by ring
        _ ≤ (3 * (y + 1)) * (4 ^ (zeroBound x - 1) * 4) := Nat.mul_le_mul_right _ hxy
        _ = (y + 1) * 4 ^ (zeroBound x - 1) * 12 := by ring
    exact Nat.le_of_mul_le_mul_right hstep (by norm_num)
  omega

/-- Concrete endpoint: twenty levels suffice at the tightest scale. -/
theorem zeroBound_two : zeroBound 2 ≤ 20 := by
  apply zeroBound_le
  norm_num

/-- Existence witness for `growBound`. -/
theorem growBound_exists (x : Nat) : ∃ j, 2 ^ j * x < 3 ^ j :=
  pow32_dominates x

/-- The positive-phase depth allowance at weight `x`: the least `j` with
`2^j · x < 3^j`, a ceiling of `log_{3/2} x`. -/
def growBound (x : Nat) : Nat := Nat.find (growBound_exists x)

theorem growBound_spec (x : Nat) : 2 ^ growBound x * x < 3 ^ growBound x :=
  Nat.find_spec (growBound_exists x)

theorem growBound_le (x j : Nat) (h : 2 ^ j * x < 3 ^ j) : growBound x ≤ j :=
  Nat.find_le h

/-- `growBound` is monotone. -/
theorem growBound_mono (x y : Nat) (h : x ≤ y) : growBound x ≤ growBound y := by
  apply growBound_le
  have h1 := growBound_spec y
  have h2 : 2 ^ growBound y * x ≤ 2 ^ growBound y * y := Nat.mul_le_mul_left _ h
  omega

theorem growBound_pos (y : Nat) (h : 1 ≤ y) : 1 ≤ growBound y := by
  by_contra hc
  push_neg at hc
  have h0 : growBound y = 0 := by omega
  have h1 := growBound_spec y
  rw [h0] at h1
  simp at h1
  omega

/-- The growth step: a node of weight `≥ 3x/2` affords one more level than a
node of weight `x`. -/
theorem growBound_step (x y : Nat) (h3 : 3 * x ≤ 2 * y) (hy : 1 ≤ y) :
    growBound x + 1 ≤ growBound y := by
  have ha := growBound_spec y
  have h1 := growBound_pos y hy
  have h2 : growBound x ≤ growBound y - 1 := by
    apply growBound_le
    have ha2 : growBound y = (growBound y - 1) + 1 := by omega
    rw [ha2, pow_succ, pow_succ] at ha
    have hmul : 6 * (2 ^ (growBound y - 1) * x) < 6 * 3 ^ (growBound y - 1) := by
      calc 6 * (2 ^ (growBound y - 1) * x)
          = (2 ^ (growBound y - 1) * 2) * (3 * x) := by ring
        _ ≤ (2 ^ (growBound y - 1) * 2) * (2 * y) := Nat.mul_le_mul_left _ h3
        _ = 2 * (2 ^ (growBound y - 1) * 2 * y) := by ring
        _ < 2 * (3 ^ (growBound y - 1) * 3) := by omega
        _ = 6 * 3 ^ (growBound y - 1) := by ring
    omega
  omega

/-- Concrete endpoint: thirty levels suffice at the maximum total weight. -/
theorem growBound_conc : growBound 130560 ≤ 30 := by
  apply growBound_le
  norm_num

/-- Landing position of the binary search for key `0` over keys that are a
positive prefix followed by a zero tail: `Greater` never occurs so `right`
stays pinned, `left` never passes the boundary, and the result is an index in
the zero block whose distance from the tail is at least half the block. -/
theorem bs_zero_land (kl : List Nat) (p : Nat) (hp : p ≤ kl.length)
    (hpos : ∀ i, i < p → 0 < kl.getD i 0)
    (hzero : ∀ i, p ≤ i → i < kl.length → kl.getD i 0 = 0) :
    ∀ (fuel left : Nat), left ≤ p → kl.length - left ≤ fuel →
      (p = kl.length → binarySearchGo 0 kl fuel left kl.length = kl.length) ∧
      (p < kl.length →
        p ≤ binarySearchGo 0 kl fuel left kl.length ∧
        binarySearchGo 0 kl fuel left kl.length < kl.length ∧
        kl.length - p ≤ 2 * (kl.length - binarySearchGo 0 kl fuel left kl.length)) := by
  intro fuel
  induction fuel with
  | zero =>
    intro left hlp hfl
    constructor
    · intro hpn
      rw [binarySearchGo]
      omega
    · intro hpn
      omega
  | succ f ih =>
    intro left hlp hfl
    rw [binarySearchGo]
    by_cases hlt : left < kl.length
    · rw [if_pos hlt]
      by_cases hmid : left + (kl.length - left) / 2 < p
      · have hc1 : (0 : Nat) < kl.getD (left + (kl.length - left) / 2) 0 :=
          hpos _ hmid
        rw [if_pos hc1]
        exact ih (left + (kl.length - left) / 2 + 1) (by omega) (by omega)
      · have hmlt : left + (kl.length - left) / 2 < kl.length := by omega
        have hz : kl.getD (left + (kl.length - left) / 2) 0 = 0 :=
          hzero _ (by omega) hmlt
        rw [hz]
        rw [if_neg (by omega), if_neg (by omega)]
        constructor
        · intro hpn
          omega
        · intro hpn
          exact ⟨by omega, hmlt, by omega⟩
    · rw [if_neg hlt]
      constructor
      · intro hpn
        omega
      · intro hpn
        omega

/-- A tree that is not a branch is a leaf of depth zero. -/
theorem depth_eq_zero_of_not_branch (t : HuffTree) (h : t.isbranch = false) :
    t.depth = 0 := by
  cases t with
  | Branch l r => rw [HuffTree.isbranch] at h; exact absurd h (by simp)
  | Known c => rfl
  | EOF => rfl

/-- Insertion to the right of a prefix distributes over the append. -/
theorem insertIdx_append_right {α : Type} (x : α) :
    ∀ (l1 l2 : List α) (n : Nat), l1.length ≤ n →
      (l1 ++ l2).insertIdx n x = l1 ++ l2.insertIdx (n - l1.length) x := by
  intro l1
  induction l1 with
  | nil => intro l2 n _; simp
  | cons c t ih =>
    intro l2 n hn
    cases n with
    | zero => simp at hn
    | succ m =>
      simp only [List.cons_append, List.insertIdx_succ_cons, List.length_cons,
        Nat.succ_sub_succ]
      rw [ih l2 m (by simpa using hn)]

/-- A sorted queue's entries split into a positive prefix and a zero tail. -/
theorem sorted_split_zeros (data : List (Nat × HuffTree))
    (hs : data.Pairwise fun a b => b.1 ≤ a.1) :
    ∃ P Z, data = P ++ Z ∧ (∀ e ∈ P, 0 < e.1) ∧ (∀ e ∈ Z, e.1 = 0) := by
  induction data with
  | nil => exact ⟨[], [], rfl, by simp, by simp⟩
  | cons e rest ih =>
    rw [List.pairwise_cons] at hs
    obtain ⟨he, hrest⟩ := hs
    by_cases hz : e.1 = 0
    · refine ⟨[], e :: rest, rfl, by simp, ?_⟩
      intro x hx
      rcases List.mem_cons.1 hx with rfl | hx2
      · exact hz
      · have := he x hx2
        omega
    · obtain ⟨P, Z, hdz, hP, hZ⟩ := ih hrest
      refine ⟨e :: P, Z, by rw [hdz, List.cons_append], ?_, hZ⟩
      intro x hx
      rcases List.mem_cons.1 hx with rfl | hx2
      · omega
      · exact hP x hx2

/-- Element access after insertion at a valid index. -/
theorem insertIdx_getD {α : Type} (d x : α) :
    ∀ (n : Nat) (l : List α), n ≤ l.length → ∀ i : Nat,
      (l.insertIdx n x).getD i d =
        if i < n then l.getD i d else if i = n then x else l.getD (i - 1) d := by
  intro n
  induction n with
  | zero =>
    intro l _ i
    rw [List.insertIdx_zero]
    cases i with
    | zero => simp
    | succ j => simp
  | succ m ih =>
    intro l hl i
    cases l with
    | nil => simp at hl
    | cons a t =>
      rw [List.insertIdx_succ_cons]
      cases i with
      | zero => simp
      | succ j =>
        rw [List.getD_cons_succ]
        rw [ih t (by simp at hl; omega) j]
        simp only [Nat.add_lt_add_iff_right, Nat.add_right_cancel_iff, Nat.succ_sub_one]
        by_cases h1 : j < m
        · rw [if_pos h1, if_pos h1, List.getD_cons_succ]
        · rw [if_neg h1, if_neg h1]
          by_cases h2 : j = m
          · rw [if_pos h2, if_pos h2]
          · rw [if_neg h2, if_neg h2]
            have hj1 : j = (j - 1) + 1 := by omega
            conv_rhs => rw [hj1]
            rw [List.getD_cons_succ]

/-- The zero-block invariant: positive prefix, zero tail, and each zero
entry's tree depth bounded by the `zeroBound` of its block position. -/
def ZOK (P Z : List (Nat × HuffTree)) : Prop :=
  (∀ e ∈ P, 0 < e.1) ∧ (∀ e ∈ Z, e.1 = 0) ∧
  (∀ i : Nat, i < Z.length →
    (Z.getD i (0, .EOF)).2.depth ≤ zeroBound (Z.length + 1 + i))

/-- The positive-entry invariant: depth bounded through the weight, and a
positive internal entry weighs at most twice any entry. -/
def POK (data : List (Nat × HuffTree)) : Prop :=
  (∀ e ∈ data, 0 < e.1 → e.2.depth ≤ 21 + growBound (2 * e.1)) ∧
  (∀ a ∈ data, ∀ b ∈ data, 0 < a.1 → a.2.isbranch = true → a.1 ≤ 2 * b.1)

/-- The merge-loop invariant. -/
def GI (q : PriorityQueue Nat HuffTree) : Prop :=
  QSorted q ∧ q.data.length ≤ 257 ∧
  (∃ P Z, q.data = P ++ Z ∧ ZOK P Z) ∧ POK q.data

/-- A `getD` at a valid index is a member. -/
theorem getD_mem {α : Type} (l : List α) (d : α) (i : Nat) (h : i < l.length) :
    l.getD i d ∈ l := by
  rw [List.getD_eq_getElem l d h]
  exact List.getElem_mem h

/-- `getD` on an append, index in the left part. -/
theorem getD_append_left {α : Type} (l1 l2 : List α) (d : α) (i : Nat)
    (h : i < l1.length) : (l1 ++ l2).getD i d = l1.getD i d := by
  rw [List.getD_eq_getElem _ _ (by rw [List.length_append]; omega),
    List.getD_eq_getElem _ _ h]
  exact List.getElem_append_left h

/-- `getD` on an append, index in the right part. -/
theorem getD_append_right {α : Type} (l1 l2 : List α) (d : α) (i : Nat)
    (h : l1.length ≤ i) : (l1 ++ l2).getD i d = l2.getD (i - l1.length) d := by
  by_cases h2 : i < l1.length + l2.length
  · rw [List.getD_eq_getElem _ _ (by rw [List.length_append]; omega),
      List.getD_eq_getElem _ _ (by omega)]
    exact List.getElem_append_right h
  · rw [List.getD_eq_default _ _ (by rw [List.length_append]; omega),
      List.getD_eq_default _ _ (by omega)]

/-- One merge step preserves the loop invariant: removing the two minimum
entries and inserting their branch keeps sortedness, the zero-block depth
bounds (by the binary-search landing position) and the positive growth
bounds (by minimality of the removed entries). -/
theorem GI_step (q : PriorityQueue Nat HuffTree) (a b : Nat × HuffTree)
    (q2 : PriorityQueue Nat HuffTree) (hrt : q.remove_two = some ((a, b), q2))
    (hGI : GI q) : GI (q2.insert (a.1 + b.1) (HuffTree.Branch a.2 b.2)) := by
  obtain ⟨hs, hlen257, ⟨P, Z, hdz, hPpos, hZ0, hZd⟩, hPOK1, hPOK2⟩ := hGI
  obtain ⟨hab, hamin, hbmin, hq2s, hsplit, hlen2⟩ := (remove_two_spec q hs).2 a b q2 hrt
  have hidx : q2.searchIndex (a.1 + b.1) ≤ q2.data.length := searchIndex_le q2 _
  have hqiS : QSorted (q2.insert (a.1 + b.1) (.Branch a.2 b.2)) :=
    insert_sorted q2 _ _ hq2s
  have hqiL : (q2.insert (a.1 + b.1) (.Branch a.2 b.2)).data.length ≤ 257 := by
    rw [insert_length_any]
    omega
  have hqid : (q2.insert (a.1 + b.1) (.Branch a.2 b.2)).data =
      q2.data.insertIdx (q2.searchIndex (a.1 + b.1)) (a.1 + b.1, .Branch a.2 b.2) := rfl
  have hq2sub : ∀ e ∈ q2.data, e ∈ q.data := by
    intro e he
    rw [hsplit]
    simp [he]
  have hamem : a ∈ q.data := by rw [hsplit]; simp
  have hbmem : b ∈ q.data := by rw [hsplit]; simp
  have hmemi : ∀ e ∈ (q2.insert (a.1 + b.1) (.Branch a.2 b.2)).data,
      e = (a.1 + b.1, HuffTree.Branch a.2 b.2) ∨ e ∈ q2.data := by
    intro e he
    rw [hqid] at he
    exact (insertIdx_mem_iff _ e _ _ hidx).1 he
  have hmemi2 : ∀ e, e = (a.1 + b.1, HuffTree.Branch a.2 b.2) ∨ e ∈ q2.data →
      e ∈ (q2.insert (a.1 + b.1) (.Branch a.2 b.2)).data := by
    intro e he
    rw [hqid]
    exact (insertIdx_mem_iff _ e _ _ hidx).2 he
  by_cases hm2 : 2 ≤ Z.length
  · -- at least two zeros: this merge combines the zero block's two tail trees
    have hZne : Z ≠ [] := by
      intro hc
      rw [hc] at hm2
      simp at hm2
    have hZdl := List.dropLast_append_getLast hZne
    have hq1 : (q2.data ++ [b]) ++ [a] = (P ++ Z.dropLast) ++ [Z.getLast hZne] := by
      rw [← hsplit, hdz]
      conv_lhs => rw [← hZdl]
      rw [← List.append_assoc]
    obtain ⟨hq2b, hazl⟩ := List.append_inj' hq1 rfl
    have ha : a = Z.getLast hZne := by simpa using hazl
    have hdlne : Z.dropLast ≠ [] := by
      intro hc
      have h1 := List.length_dropLast Z
      rw [hc] at h1
      simp at h1
      omega
    have hZdl2 := List.dropLast_append_getLast hdlne
    have hq2 : q2.data ++ [b] =
        (P ++ Z.dropLast.dropLast) ++ [Z.dropLast.getLast hdlne] := by
      rw [hq2b]
      conv_lhs => rw [← hZdl2]
      rw [← List.append_assoc]
    obtain ⟨hq2d, hbzl⟩ := List.append_inj' hq2 rfl
    have hb : b = Z.dropLast.getLast hdlne := by simpa using hbzl
    obtain ⟨Z2, hZ2⟩ : ∃ l, l = Z.dropLast.dropLast := ⟨_, rfl⟩
    rw [← hZ2] at hq2d
    have hZeq : Z = (Z2 ++ [b]) ++ [a] := by
      rw [hZ2, ha, hb, hZdl2, hZdl]
    have hZ2sub : ∀ e ∈ Z2, e ∈ Z := by
      intro e he
      rw [hZeq]
      simp [he]
    have ha0 : a.1 = 0 := hZ0 a (by rw [ha]; exact List.getLast_mem hZne)
    have hb0 : b.1 = 0 := hZ0 b (by
      rw [hb]
      exact List.dropLast_subset _ (List.getLast_mem hdlne))
    have hZlen : Z.length = Z2.length + 2 := by
      rw [hZeq]
      simp
    have hm257 : Z.length ≤ 257 := by
      have h1 : q.data.length = P.length + Z.length := by rw [hdz]; simp
      omega
    have hZd2 : ∀ i, i < Z2.length + 2 →
        ((((Z2 ++ [b]) ++ [a]).getD i (0, .EOF)).2.depth ≤
          zeroBound (Z2.length + 2 + 1 + i)) := by
      intro i hi
      have h1 := hZd i (by omega)
      rw [hZlen] at h1
      rw [hZeq] at h1
      exact h1
    have hlZ1 : ((Z2 ++ [b]) ++ [a]).length =
        Z2.length + 2 := by simp
    have hlZ2 : (Z2 ++ [b]).length =
        Z2.length + 1 := by simp
    have hda : a.2.depth ≤ zeroBound (2 * Z2.length + 4) := by
      have h1 := hZd2 (Z2.length + 1) (by omega)
      rw [getD_append_right _ _ _ _ (by simp)] at h1
      rw [hlZ2, Nat.sub_self, List.getD_cons_zero] at h1
      have heq : Z2.length + 2 + 1 + (Z2.length + 1) =
          2 * Z2.length + 4 := by omega
      rw [heq] at h1
      exact h1
    have hdb : b.2.depth ≤ zeroBound (2 * Z2.length + 3) := by
      have h1 := hZd2 Z2.length (by omega)
      rw [getD_append_left _ _ _ _ (by rw [hlZ2]; omega)] at h1
      rw [getD_append_right _ _ _ _ (by omega)] at h1
      rw [Nat.sub_self, List.getD_cons_zero] at h1
      have heq : Z2.length + 2 + 1 + Z2.length =
          2 * Z2.length + 3 := by omega
      rw [heq] at h1
      exact h1
    have hkl : (q2.data.map Prod.fst).length = P.length + Z2.length := by
      rw [hq2d]
      simp
    have hmp : q2.data.map Prod.fst =
        P.map Prod.fst ++ Z2.map Prod.fst := by
      rw [hq2d, List.map_append]
    have hbspos : ∀ i, i < P.length → 0 < (q2.data.map Prod.fst).getD i 0 := by
      intro i hi
      rw [hmp, getD_append_left _ _ _ _ (by rw [List.length_map]; omega)]
      rw [List.getD_eq_getElem _ _ (by rw [List.length_map]; omega)]
      rw [List.getElem_map]
      exact hPpos _ (List.getElem_mem _)
    have hbszero : ∀ i, P.length ≤ i → i < (q2.data.map Prod.fst).length →
        (q2.data.map Prod.fst).getD i 0 = 0 := by
      intro i hi1 hi2
      rw [hmp, getD_append_right _ _ _ _ (by rw [List.length_map]; omega)]
      rw [List.length_map]
      rw [List.getD_eq_getElem _ _ (by rw [List.length_map]; omega)]
      rw [List.getElem_map]
      exact hZ0 _ (hZ2sub _ (List.getElem_mem _))
    have hbs := bs_zero_land (q2.data.map Prod.fst) P.length (by omega) hbspos hbszero
      (q2.data.map Prod.fst).length 0 (by omega) (by omega)
    have hsi0 : q2.searchIndex (a.1 + b.1) = q2.searchIndex 0 := by
      have hk0 : a.1 + b.1 = 0 := by omega
      rw [hk0]
    have hsidef : q2.searchIndex 0 = binarySearchGo 0 (q2.data.map Prod.fst)
        (q2.data.map Prod.fst).length 0 (q2.data.map Prod.fst).length := by
      rw [PriorityQueue.searchIndex, List.length_map]
    have hlb : P.length ≤ q2.searchIndex 0 ∧
        q2.searchIndex 0 ≤ P.length + Z2.length ∧
        2 * q2.searchIndex 0 ≤ 2 * P.length + Z2.length := by
      rw [hsidef]
      by_cases hz2 : Z2.length = 0
      · have hpn : P.length = (q2.data.map Prod.fst).length := by omega
        have h1 := hbs.1 hpn
        rw [h1]
        exact ⟨by omega, by omega, by omega⟩
      · have hpn : P.length < (q2.data.map Prod.fst).length := by omega
        obtain ⟨h1, h2, h3⟩ := hbs.2 hpn
        exact ⟨h1, by omega, by omega⟩
    have hqiData : (q2.insert (a.1 + b.1) (.Branch a.2 b.2)).data =
        P ++ Z2.insertIdx (q2.searchIndex 0 - P.length)
          (a.1 + b.1, .Branch a.2 b.2) := by
      rw [hqid, hsi0, hq2d, insertIdx_append_right _ _ _ _ hlb.1]
    have hsubZ : q2.searchIndex 0 - P.length ≤ Z2.length := by
      omega
    refine ⟨hqiS, hqiL, ⟨P, _, hqiData, hPpos, ?_, ?_⟩, ?_, ?_⟩
    · intro e he
      rcases (insertIdx_mem_iff _ e _ _ hsubZ).1 he with rfl | he2
      · show a.1 + b.1 = 0
        omega
      · exact hZ0 e (hZ2sub e he2)
    · intro i hi
      have hziLen : (Z2.insertIdx (q2.searchIndex 0 - P.length)
          (a.1 + b.1, HuffTree.Branch a.2 b.2)).length =
          Z2.length + 1 :=
        List.length_insertIdx _ _ hsubZ
      rw [hziLen] at hi ⊢
      rw [insertIdx_getD _ _ _ _ hsubZ i]
      by_cases h1 : i < q2.searchIndex 0 - P.length
      · rw [if_pos h1]
        have h2 := hZd2 i (by omega)
        rw [getD_append_left _ _ _ _ (by rw [hlZ2]; omega)] at h2
        rw [getD_append_left _ _ _ _ (by omega)] at h2
        exact le_trans h2 (zeroBound_mono _ _ (by omega))
      · rw [if_neg h1]
        by_cases h2 : i = q2.searchIndex 0 - P.length
        · rw [if_pos h2]
          show (HuffTree.Branch a.2 b.2).depth ≤
            zeroBound (Z2.length + 1 + 1 + i)
          rw [HuffTree.depth]
          have hmax : max a.2.depth b.2.depth ≤
              zeroBound (2 * Z2.length + 3) := by
            apply max_le
            · exact le_trans hda (zeroBound_mono _ _ (by omega))
            · exact hdb
          have hstep := zeroBound_step (Z2.length + 1 + 1 + i)
            (2 * Z2.length + 3) (by omega) (by omega)
          omega
        · rw [if_neg h2]
          have h3 := hZd2 (i - 1) (by omega)
          rw [getD_append_left _ _ _ _ (by rw [hlZ2]; omega)] at h3
          rw [getD_append_left _ _ _ _ (by omega)] at h3
          have heq2 : Z2.length + 2 + 1 + (i - 1) =
              Z2.length + 1 + 1 + i := by omega
          rw [heq2] at h3
          exact h3
    · intro e he hpos
      rcases hmemi e he with rfl | he2
      · exfalso
        have h1 : 0 < a.1 + b.1 := hpos
        omega
      · exact hPOK1 e (hq2sub e he2) hpos
    · intro x hx y hy hxpos hxbr
      exfalso
      rcases hmemi x hx with rfl | hx2
      · have h1 : 0 < a.1 + b.1 := hxpos
        omega
      · have h1 := hPOK2 x (hq2sub x hx2) a hamem hxpos hxbr
        omega
  · by_cases hm1 : Z.length = 1
    · cases hZc : Z with
      | nil => rw [hZc] at hm1; simp at hm1
      | cons z ztl =>
        have hztl : ztl = [] := by
          rw [hZc] at hm1
          simp at hm1
          exact hm1
        subst hztl
        have hdz2 : q.data = P ++ [z] := by rw [hdz, hZc]
        have hq1 : (q2.data ++ [b]) ++ [a] = P ++ [z] := by rw [← hsplit, hdz2]
        obtain ⟨hPq, haz⟩ := List.append_inj' hq1 rfl
        have ha : a = z := by simpa using haz
        have ha0 : a.1 = 0 := hZ0 a (by rw [hZc, ha]; simp)
        have hbP : b ∈ P := by rw [← hPq]; simp
        have hb1 : 0 < b.1 := hPpos b hbP
        have hq2P : ∀ e ∈ q2.data, e ∈ P := by
          intro e he
          rw [← hPq]
          simp [he]
        have hdaz : a.2.depth ≤ zeroBound 2 := by
          have h1 := hZd 0 (by rw [hZc]; simp)
          rw [hZc] at h1
          simp only [List.getD_cons_zero, List.length_cons, List.length_nil] at h1
          rw [← ha] at h1
          exact h1
        have hbleaf : b.2.depth = 0 := by
          cases hbb : b.2.isbranch with
          | true =>
            have h1 := hPOK2 b hbmem a hamem hb1 hbb
            omega
          | false => exact depth_eq_zero_of_not_branch _ hbb
        refine ⟨hqiS, hqiL, ⟨(q2.insert (a.1 + b.1) (.Branch a.2 b.2)).data, [],
          by simp, ?_, by simp, by simp⟩, ?_, ?_⟩
        · intro e he
          rcases hmemi e he with rfl | he2
          · show 0 < a.1 + b.1
            omega
          · exact hPpos e (hq2P e he2)
        · intro e he hpos
          rcases hmemi e he with rfl | he2
          · show (HuffTree.Branch a.2 b.2).depth ≤ 21 + growBound (2 * (a.1 + b.1))
            rw [HuffTree.depth]
            have hz2 := zeroBound_two
            have hmax : max a.2.depth b.2.depth ≤ 20 := by
              apply max_le
              · omega
              · omega
            have hgb0 : 0 ≤ growBound (2 * (a.1 + b.1)) := Nat.zero_le _
            omega
          · exact hPOK1 e (hq2sub e he2) hpos
        · intro x hx y hy hxpos hxbr
          rcases hmemi x hx with rfl | hx2
          · rcases hmemi y hy with rfl | hy2
            · show a.1 + b.1 ≤ 2 * (a.1 + b.1)
              omega
            · have h1 := hbmin y hy2
              show a.1 + b.1 ≤ 2 * y.1
              omega
          · exfalso
            have h1 := hPOK2 x (hq2sub x hx2) a hamem hxpos hxbr
            omega
    · have hZnil : Z = [] := by
        cases Z with
        | nil => rfl
        | cons z ztl =>
          exfalso
          simp only [List.length_cons] at hm2 hm1
          omega
      have hdP : q.data = P := by
        rw [hdz, hZnil]
        simp
      have hallpos : ∀ e ∈ q.data, 0 < e.1 := by
        intro e he
        apply hPpos
        rw [← hdP]
        exact he
      have ha1 : 0 < a.1 := hallpos a hamem
      have hb1 : 0 < b.1 := hallpos b hbmem
      refine ⟨hqiS, hqiL, ⟨(q2.insert (a.1 + b.1) (.Branch a.2 b.2)).data, [],
        by simp, ?_, by simp, by simp⟩, ?_, ?_⟩
      · intro e he
        rcases hmemi e he with rfl | he2
        · show 0 < a.1 + b.1
          omega
        · exact hallpos e (hq2sub e he2)
      · intro e he hpos
        rcases hmemi e he with rfl | he2
        · show (HuffTree.Branch a.2 b.2).depth ≤ 21 + growBound (2 * (a.1 + b.1))
          rw [HuffTree.depth]
          have hga : a.2.depth + 1 ≤ 21 + growBound (2 * (a.1 + b.1)) := by
            cases hbb : a.2.isbranch with
            | true =>
              have h1 := hPOK1 a hamem ha1
              have h2 := growBound_step (2 * a.1) (2 * (a.1 + b.1)) (by omega) (by omega)
              omega
            | false =>
              have h1 := depth_eq_zero_of_not_branch _ hbb
              have h2 : 0 ≤ growBound (2 * (a.1 + b.1)) := Nat.zero_le _
              omega
          have hgb2 : b.2.depth + 1 ≤ 21 + growBound (2 * (a.1 + b.1)) := by
            cases hbb : b.2.isbranch with
            | true =>
              have h0 := hPOK2 b hbmem a hamem hb1 hbb
              have h1 := hPOK1 b hbmem hb1
              have h2 := growBound_step (2 * b.1) (2 * (a.1 + b.1)) (by omega) (by omega)
              omega
            | false =>
              have h1 := depth_eq_zero_of_not_branch _ hbb
              have h2 : 0 ≤ growBound (2 * (a.1 + b.1)) := Nat.zero_le _
              omega
          have hmax : max a.2.depth b.2.depth ≤ 20 + growBound (2 * (a.1 + b.1)) :=
            Nat.max_le.2 ⟨by omega, by omega⟩
          omega
        · exact hPOK1 e (hq2sub e he2) hpos
      · intro x hx y hy hxpos hxbr
        rcases hmemi x hx with rfl | hx2
        · rcases hmemi y hy with rfl | hy2
          · show a.1 + b.1 ≤ 2 * (a.1 + b.1)
            omega
          · have h1 := hbmin y hy2
            show a.1 + b.1 ≤ 2 * y.1
            omega
        · rcases hmemi y hy with rfl | hy2
          · have h1 := hPOK2 x (hq2sub x hx2) a hamem hxpos hxbr
            show x.1 ≤ 2 * (a.1 + b.1)
            omega
          · exact hPOK2 x (hq2sub x hx2) y (hq2sub y hy2) hxpos hxbr

/-- The merge loop preserves the invariant. -/
theorem mergeGo_GI : ∀ (fuel : Nat) (q : PriorityQueue Nat HuffTree), GI q →
    GI (mergeGo fuel q) := by
  intro fuel
  induction fuel with
  | zero => intro q h; exact h
  | succ f ih =>
    intro q h
    rw [mergeGo]
    cases hrt : q.remove_two with
    | none => exact h
    | some p =>
      obtain ⟨⟨⟨c1, t1⟩, ⟨c2, t2⟩⟩, q2⟩ := p
      simp only []
      exact ih _ (GI_step q (c1, t1) (c2, t2) q2 hrt h)

/-- The seeded queue (table pairs plus the weight-0 sentinel) satisfies the
invariant: every tree is a leaf. -/
theorem seed_GI (f : Frequencies)
    (hsp : f.pairs.Pairwise fun a b => b.1 ≤ a.1)
    (hlen : f.pairs.length ≤ 256) :
    GI ((PriorityQueue.from_data
      (f.pairs.map fun p => (p.1, HuffTree.Known p.2))).insert 0 HuffTree.EOF) := by
  have hq0s : QSorted (PriorityQueue.from_data
      (f.pairs.map fun p => (p.1, HuffTree.Known p.2))) := by
    show (f.pairs.map fun p => (p.1, HuffTree.Known p.2)).Pairwise _
    rw [List.pairwise_map]
    exact hsp
  have hq1s := insert_sorted _ 0 HuffTree.EOF hq0s
  have hidx := searchIndex_le (PriorityQueue.from_data
    (f.pairs.map fun p => (p.1, HuffTree.Known p.2))) 0
  have hmem : ∀ e ∈ ((PriorityQueue.from_data
      (f.pairs.map fun p => (p.1, HuffTree.Known p.2))).insert 0 HuffTree.EOF).data,
      e = (0, HuffTree.EOF) ∨ e ∈ f.pairs.map fun p => (p.1, HuffTree.Known p.2) := by
    intro e he
    exact (insertIdx_mem_iff _ e _ _ hidx).1 he
  have hleaf : ∀ e ∈ ((PriorityQueue.from_data
      (f.pairs.map fun p => (p.1, HuffTree.Known p.2))).insert 0 HuffTree.EOF).data,
      e.2.depth = 0 ∧ e.2.isbranch = false := by
    intro e he
    rcases hmem e he with rfl | he2
    · exact ⟨rfl, rfl⟩
    · obtain ⟨p, _, hpe⟩ := List.mem_map.1 he2
      rw [← hpe]
      exact ⟨rfl, rfl⟩
  refine ⟨hq1s, ?_, ?_, ?_, ?_⟩
  · rw [insert_length_any]
    show (f.pairs.map fun p => (p.1, HuffTree.Known p.2)).length + 1 ≤ 257
    rw [List.length_map]
    omega
  · obtain ⟨P, Z, hdz, hP, hZ⟩ := sorted_split_zeros _ hq1s
    refine ⟨P, Z, hdz, hP, hZ, ?_⟩
    intro i hi
    have hmm : Z.getD i (0, .EOF) ∈ Z := getD_mem _ _ i hi
    have hmem2 : Z.getD i (0, .EOF) ∈ ((PriorityQueue.from_data
        (f.pairs.map fun p => (p.1, HuffTree.Known p.2))).insert 0 HuffTree.EOF).data := by
      rw [hdz]
      exact List.mem_append_right _ hmm
    rw [(hleaf _ hmem2).1]
    exact Nat.zero_le _
  · intro e he _
    rw [(hleaf e he).1]
    exact Nat.zero_le _
  · intro x hx y hy _ hbr
    rw [(hleaf x hx).2] at hbr
    exact absurd hbr (by simp)

/-- The depth bound: every tree `from_freqs` builds from a table of at most
256 pairs, sorted descending with byte-sized weights, has depth at most 51 —
so every code and the traversal shifts fit the 128-bit accumulator. -/
theorem from_freqs_depth (f : Frequencies)
    (hsp : f.pairs.Pairwise fun a b => b.1 ≤ a.1)
    (hlen : f.pairs.length ≤ 256)
    (hkey : ∀ p ∈ f.pairs, p.1 ≤ 255) :
    (HuffTree.from_freqs f).depth ≤ 51 := by
  cases hp : f.pairs with
  | nil =>
    have hq1data : ((PriorityQueue.from_data
        (f.pairs.map fun p => (p.1, HuffTree.Known p.2))).insert 0 HuffTree.EOF).data =
        [(0, HuffTree.EOF)] := by
      show (f.pairs.map fun p => (p.1, HuffTree.Known p.2)).insertIdx _ _ = _
      rw [hp]
      rfl
    have hff : HuffTree.from_freqs f = .EOF := by
      rw [HuffTree.from_freqs]
      rw [mergeGo_small _ _ (by rw [hq1data]; simp)]
      rw [PriorityQueue.remove, hq1data]
      rfl
    rw [hff]
    decide
  | cons p0 rest =>
    have hGIseed := seed_GI f hsp hlen
    have hGIfin := mergeGo_GI (((PriorityQueue.from_data
      (f.pairs.map fun p => (p.1, HuffTree.Known p.2))).insert 0 HuffTree.EOF).data.length)
      _ hGIseed
    obtain ⟨hks0, hks1, hks2, hks⟩ := mergeGo_preserve (((PriorityQueue.from_data
      (f.pairs.map fun p => (p.1, HuffTree.Known p.2))).insert 0 HuffTree.EOF).data.length)
      _ hGIseed.1
    have hidx := searchIndex_le (PriorityQueue.from_data
      (f.pairs.map fun p => (p.1, HuffTree.Known p.2))) 0
    have hq1len : ((PriorityQueue.from_data
        (f.pairs.map fun p => (p.1, HuffTree.Known p.2))).insert 0 HuffTree.EOF).data.length =
        f.pairs.length + 1 := by
      rw [insert_length_any]
      show (f.pairs.map fun p => (p.1, HuffTree.Known p.2)).length + 1 = _
      rw [List.length_map]
    have h2 : 2 ≤ ((PriorityQueue.from_data
        (f.pairs.map fun p => (p.1, HuffTree.Known p.2))).insert 0 HuffTree.EOF).data.length := by
      rw [hq1len, hp]
      simp
    obtain ⟨k, l, r, hfin⟩ := mergeGo_final_branch _ _ h2 (Nat.le_succ _)
    have hff : HuffTree.from_freqs f = .Branch l r := by
      rw [HuffTree.from_freqs]
      rw [PriorityQueue.remove, hfin]
      rfl
    have hsum : (((PriorityQueue.from_data
        (f.pairs.map fun p => (p.1, HuffTree.Known p.2))).insert 0
          HuffTree.EOF).data.map Prod.fst).sum ≤ 65280 := by
      have hq1d : ((PriorityQueue.from_data
          (f.pairs.map fun p => (p.1, HuffTree.Known p.2))).insert 0 HuffTree.EOF).data =
          (f.pairs.map fun p => (p.1, HuffTree.Known p.2)).insertIdx
            ((PriorityQueue.from_data
              (f.pairs.map fun p => (p.1, HuffTree.Known p.2))).searchIndex 0)
            (0, HuffTree.EOF) := rfl
      have hidx2 : (PriorityQueue.from_data
          (f.pairs.map fun p => (p.1, HuffTree.Known p.2))).searchIndex 0 ≤
          (f.pairs.map fun p => (p.1, HuffTree.Known p.2)).length := hidx
      rw [hq1d, insertIdx_map_sum _ _ _ _ hidx2]
      rw [List.map_map]
      have hball : ∀ x ∈ f.pairs.map (Prod.fst ∘ fun p => (p.1, HuffTree.Known p.2)),
          x ≤ 255 := by
        intro x hx
        obtain ⟨p, hpm, hpe⟩ := List.mem_map.1 hx
        rw [← hpe]
        exact hkey p hpm
      have hsle := List.sum_le_card_nsmul _ 255 hball
      rw [smul_eq_mul, List.length_map] at hsle
      have hz : ((0, HuffTree.EOF) : Nat × HuffTree).1 = 0 := rfl
      have hmul : f.pairs.length * 255 ≤ 256 * 255 := Nat.mul_le_mul_right _ hlen
      omega
    rw [hfin] at hks
    simp only [List.map_cons, List.map_nil, List.sum_cons, List.sum_nil] at hks
    have hk : k ≤ 65280 := by omega
    obtain ⟨hgs, hgl, ⟨P, Z, hdz, hPp, hZ0, hZd⟩, hP1, hP2⟩ := hGIfin
    rw [hfin] at hdz
    cases P with
    | nil =>
      rw [List.nil_append] at hdz
      have h1 := hZd 0 (by rw [← hdz]; simp)
      rw [← hdz] at h1
      simp only [List.getD_cons_zero, List.length_cons, List.length_nil] at h1
      have h3 : (HuffTree.Branch l r).depth ≤ zeroBound 2 := h1
      have h4 := zeroBound_two
      rw [hff]
      omega
    | cons e P2 =>
      rw [List.cons_append] at hdz
      simp only [List.cons.injEq] at hdz
      obtain ⟨hdz1, _⟩ := hdz
      have hke : 0 < k := by
        have h0 := hPp e (by simp)
        rw [← hdz1] at h0
        exact h0
      have h1 := hP1 (k, .Branch l r) (by rw [hfin]; simp) hke
      have h3 : (HuffTree.Branch l r).depth ≤ 21 + growBound (2 * k) := h1
      have h4 : growBound (2 * k) ≤ growBound 130560 := growBound_mono _ _ (by omega)
      have h5 := growBound_conc
      rw [hff]
      omega

/-- The counting loop never fails on an error-free source. -/
theorem countBytesAcc_ok {ε : Type} :
    ∀ (bytes : List (Fin 256)) (acc : List Nat),
      ∃ acc2, @countBytesAcc ε (bytes.map Except.ok) acc = .ok acc2 := by
  intro bytes
  induction bytes with
  | nil => intro acc; exact ⟨acc, rfl⟩
  | cons x rest ih =>
    intro acc
    simp only [List.map_cons, countBytesAcc]
    exact ih _

set_option maxRecDepth 40000 in
/-- The table `count_bytes` builds from a pure byte source: always `Ok`,
sorted descending by weight, at most 256 byte-sized pairs, one entry for every
occurring byte, nonempty when the source is. -/
theorem count_bytes_props (S : List (Fin 256)) :
    ∃ freqs, Frequencies.count_bytes Unit (S.map Except.ok) = .ok freqs ∧
      (freqs.pairs.Pairwise fun a b => b.1 ≤ a.1) ∧
      freqs.pairs.length ≤ 256 ∧
      (∀ p ∈ freqs.pairs, p.1 ≤ 255) ∧
      (∀ b : Fin 256, b ∈ S → ∃ p ∈ freqs.pairs, p.2 = b.val) ∧
      (S ≠ [] → freqs.pairs ≠ []) := by
  obtain ⟨acc, hacc⟩ := countBytesAcc_ok S (List.replicate 256 0)
  have hlen : acc.length = 256 := by
    simpa using countBytesAcc_length (S.map Except.ok) (List.replicate 256 0) acc hacc
  have hcount : ∀ b : Fin 256, acc.getD b.val 0 = S.count b := by
    intro b
    have h0 := countBytesAcc_count S (List.replicate 256 0) acc (by simp) hacc b
    have hrep : (List.replicate 256 (0 : Nat)).getD b.val 0 = 0 := by
      rw [List.getD_eq_getElem _ _ (by simpa using b.isLt)]
      exact List.getElem_replicate _ _
    rw [h0, hrep, Nat.zero_add]
  set pl := ((List.range 256).filterMap fun byte =>
      if acc.getD byte 0 ≠ 0 then
        some (acc.getD byte 0 * 255 / acc.max?.getD 0 % 2 ^ 8, byte)
      else none).insertionSort (fun p q => q.1 ≤ p.1) with hpl
  have hf : Frequencies.count_bytes Unit (S.map Except.ok) = .ok ⟨pl⟩ := by
    rw [Frequencies.count_bytes, hacc]
  refine ⟨⟨pl⟩, hf, ?_, ?_, ?_, ?_, ?_⟩
  · show List.Pairwise (fun a b => b.1 ≤ a.1) pl
    have hsorted : pl.Pairwise pairOrder := by
      rw [hpl]
      apply insertionSort_pairOrder
      rw [List.pairwise_filterMap]
      have hrange := List.pairwise_lt_range 256
      apply hrange.imp
      intro c c2 hcc x hx y hy
      have hxa : x.2 = c := by
        simp only [Option.mem_def] at hx
        by_cases hz : acc.getD c 0 ≠ 0
        · rw [if_pos hz] at hx
          have := Option.some.inj hx
          rw [← this]
        · rw [if_neg hz] at hx
          exact absurd hx (by simp)
      have hya : y.2 = c2 := by
        simp only [Option.mem_def] at hy
        by_cases hz : acc.getD c2 0 ≠ 0
        · rw [if_pos hz] at hy
          have := Option.some.inj hy
          rw [← this]
        · rw [if_neg hz] at hy
          exact absurd hy (by simp)
      rw [hxa, hya]
      exact hcc
    apply hsorted.imp
    intro x y hxy
    rcases hxy with h1 | h2
    · omega
    · omega
  · show pl.length ≤ 256
    rw [hpl, List.length_insertionSort]
    calc ((List.range 256).filterMap _).length ≤ (List.range 256).length :=
        List.length_filterMap_le _ _
      _ = 256 := List.length_range 256
  · intro p hp
    have hp2 : p ∈ pl := hp
    rw [hpl, (List.perm_insertionSort _ _).mem_iff] at hp2
    obtain ⟨c, _, hc⟩ := List.mem_filterMap.1 hp2
    by_cases hz : acc.getD c 0 ≠ 0
    · rw [if_pos hz] at hc
      have hpc := Option.some.inj hc
      rw [← hpc]
      have hm := Nat.mod_lt (acc.getD c 0 * 255 / acc.max?.getD 0)
        (show 0 < 2 ^ 8 by norm_num)
      show (acc.getD c 0 * 255 / acc.max?.getD 0 % 2 ^ 8, c).1 ≤ 255
      omega
    · rw [if_neg hz] at hc
      exact absurd hc (by simp)
  · intro b hb
    have hcnt : 0 < S.count b := List.count_pos_iff.2 hb
    refine ⟨(acc.getD b.val 0 * 255 / acc.max?.getD 0 % 2 ^ 8, b.val), ?_, rfl⟩
    show _ ∈ pl
    rw [hpl, (List.perm_insertionSort _ _).mem_iff]
    apply List.mem_filterMap.2
    refine ⟨b.val, List.mem_range.2 b.isLt, ?_⟩
    rw [if_pos (by rw [hcount b]; omega)]
  · intro hSne
    show pl ≠ []
    intro hnil
    cases hS : S with
    | nil => exact absurd hS hSne
    | cons s0 srest =>
      have hcnt : 0 < S.count s0 := List.count_pos_iff.2 (by rw [hS]; simp)
      have hmem0 : (acc.getD s0.val 0 * 255 / acc.max?.getD 0 % 2 ^ 8, s0.val) ∈ pl := by
        rw [hpl, (List.perm_insertionSort _ _).mem_iff]
        apply List.mem_filterMap.2
        refine ⟨s0.val, List.mem_range.2 s0.isLt, ?_⟩
        rw [if_pos (by rw [hcount s0]; omega)]
      rw [hnil] at hmem0
      exact absurd hmem0 (List.not_mem_nil _)

/-- The stream value stays below its bit length as codes are appended. -/
theorem appendCodes_lt : ∀ (cs : List (Nat × Nat)) (N L : Nat), N < 2 ^ L →
    (∀ c ∈ cs, c.1 < 2 ^ c.2) →
    (appendCodes (N, L) cs).1 < 2 ^ (appendCodes (N, L) cs).2 := by
  intro cs
  induction cs with
  | nil =>
    intro N L h _
    simpa [appendCodes] using h
  | cons c t ih =>
    intro N L h hcs
    rw [show appendCodes (N, L) (c :: t) = appendCodes (N + c.1 * 2 ^ L, L + c.2) t from
      by rw [appendCodes, List.foldl_cons, appendCodes]]
    exact ih _ _ (stream_lt N L c.1 c.2 h (hcs c (by simp)))
      (fun x hx => hcs x (by simp [hx]))

/-- Appending one more code to the abstract stream. -/
theorem appendCodes_snoc (cs : List (Nat × Nat)) (c : Nat × Nat) (s : Nat × Nat) :
    appendCodes s (cs ++ [c]) =
      ((appendCodes s cs).1 + c.1 * 2 ^ (appendCodes s cs).2,
        (appendCodes s cs).2 + c.2) := by
  rw [appendCodes, List.foldl_append, List.foldl_cons, List.foldl_nil]
  rfl

/-- `flatMap` over a `map`. -/
theorem flatMap_map_eq {α β γ : Type} (f : α → β) (g : β → List γ) :
    ∀ l : List α, (l.map f).flatMap g = l.flatMap fun x => g (f x) := by
  intro l
  induction l with
  | nil => simp
  | cons x t ih => simp [ih]

/-- The encoder's output: the serialized table followed by the packed bits of
the per-byte codes and the sentinel code. -/
theorem cliEncode_eq (S : List (Fin 256)) (freqs : Frequencies)
    (hcb : Frequencies.count_bytes Unit (S.map Except.ok) = .ok freqs)
    (hcodes : ∀ c ∈ (S.map fun b =>
        (HuffWriter.from_tree (HuffTree.from_freqs freqs)).map b.val) ++
        [(HuffWriter.from_tree (HuffTree.from_freqs freqs)).eof],
        c.1 < 2 ^ c.2 ∧ c.2 ≤ 128) :
    cliEncode S = .ok (freqs.write ++
      natBytes
        (appendCodes (0, 0) ((S.map fun b =>
          (HuffWriter.from_tree (HuffTree.from_freqs freqs)).map b.val) ++
          [(HuffWriter.from_tree (HuffTree.from_freqs freqs)).eof])).1
        (appendCodes (0, 0) ((S.map fun b =>
          (HuffWriter.from_tree (HuffTree.from_freqs freqs)).map b.val) ++
          [(HuffWriter.from_tree (HuffTree.from_freqs freqs)).eof])).2) := by
  set w0 := HuffWriter.from_tree (HuffTree.from_freqs freqs) with hw0
  set cs := S.map fun b => w0.map b.val with hcsdef
  rw [cliEncode, hcb]
  simp only []
  congr 1
  congr 1
  have hcs : ∀ c ∈ cs, c.1 < 2 ^ c.2 ∧ c.2 ≤ 128 :=
    fun c hc => hcodes c (by simp [hc])
  have heofc := hcodes w0.eof (by simp)
  have hinit : WInvK w0 [] 0 0 0 := by
    refine ⟨rfl, by show (0 : Nat) < 128; norm_num, by norm_num,
      by show (0 : Nat) = 0 / 2 ^ (128 * 0); simp, by simp⟩
  obtain ⟨k1, hinv1⟩ := runWriter_WInvK cs w0 [] 0 0 0 hinit hcs
  rw [List.nil_append] at hinv1
  have hbridge := encodeBody_runWriter S w0 w0.map rfl
  have heoffld := (runWriter_fields cs w0).1
  obtain ⟨k2, hinv2⟩ := write_bits_WInvK (runWriter w0 cs).1 (runWriter w0 cs).2
    (appendCodes (0, 0) cs).1 (appendCodes (0, 0) cs).2 k1
    w0.eof.1 w0.eof.2 heofc.1 heofc.2 hinv1
  have hflush := WInvK_flush _ _ _ _ _ hinv2
  rw [hbridge]
  rw [HuffWriter.end_transmission, heoffld]
  rw [show (runWriter w0 cs).2 ++
      (((runWriter w0 cs).1.write_bits w0.eof.1 w0.eof.2).2 ++
        write_u128_trimmed ((runWriter w0 cs).1.write_bits w0.eof.1 w0.eof.2).1.scratch
          ((runWriter w0 cs).1.write_bits w0.eof.1 w0.eof.2).1.shift) =
      ((runWriter w0 cs).2 ++
        ((runWriter w0 cs).1.write_bits w0.eof.1 w0.eof.2).2) ++
        write_u128_trimmed ((runWriter w0 cs).1.write_bits w0.eof.1 w0.eof.2).1.scratch
          ((runWriter w0 cs).1.write_bits w0.eof.1 w0.eof.2).1.shift from
    (List.append_assoc _ _ _).symm]
  rw [hflush]
  rw [appendCodes_snoc]

/-- The decoder on a table-prefixed stream: parse the table back, rebuild the
tree, and walk the body bits from its root. -/
theorem cliDecode_eq (freqs : Frequencies) (l r : HuffTree) (body : List Nat)
    (hne : freqs.pairs ≠ []) (hlen32 : freqs.pairs.length < 2 ^ 32)
    (hroot : HuffTree.from_freqs freqs = .Branch l r) :
    cliDecode (freqs.write ++ body) =
      .ok ((feedSpec l r (.Branch l r) (body.flatMap byteBits)).1) := by
  rw [cliDecode, read_write_append freqs hne hlen32 body]
  simp only []
  rw [hroot]
  rw [decodeLoop_stream l r body (.Branch l r) []]
  simp

/-- C1: for every non-empty byte sequence `S`, encoding `S` (building the
table with `count_bytes`, writing it with `Frequencies::write`, emitting each
byte's code with `HuffWriter::write_byte` and finishing with
`end_transmission`) succeeds, and decoding the produced byte stream
(`Frequencies::read`, `HuffTree::from_freqs`, then `HuffReader::feed` on each
body byte until `feed` reports stop) writes exactly the sequence `S` to the
decode sink. -/
theorem encode_decode_roundtrip (S : List (Fin 256)) (hSne : S ≠ []) :
    ∃ out, cliEncode S = .ok out ∧ cliDecode out = .ok (S.map Fin.val) := by
  obtain ⟨freqs, hcb, hsorted, hlen, hkey, hentry, hnonempty⟩ := count_bytes_props S
  have hpne : freqs.pairs ≠ [] := hnonempty hSne
  have hlen32 : freqs.pairs.length < 2 ^ 32 := by
    have h32 : (2 : Nat) ^ 32 = 4294967296 := by norm_num
    omega
  obtain ⟨hkleaves, heleaves⟩ := from_freqs_facts freqs hsorted
  have hdepth := from_freqs_depth freqs hsorted hlen hkey
  obtain ⟨b0, hb0⟩ : ∃ b, b ∈ S := by
    cases S with
    | nil => exact absurd rfl hSne
    | cons x t => exact ⟨x, by simp⟩
  obtain ⟨l, r, hroot⟩ : ∃ l r, HuffTree.from_freqs freqs = .Branch l r := by
    rcases from_freqs_root_shape freqs with h | h
    · exfalso
      have h1 := (hkleaves b0.val).2 (hentry b0 hb0)
      rw [h, HuffTree.kleaves] at h1
      exact absurd h1 (List.not_mem_nil _)
    · exact h
  obtain ⟨hmapspec, heofspec⟩ := from_tree_spec (HuffTree.from_freqs freqs)
  have heof2 := heofspec (by omega)
  set w0 := HuffWriter.from_tree (HuffTree.from_freqs freqs) with hw0
  have hcodes : ∀ c ∈ (S.map fun b => w0.map b.val) ++ [w0.eof],
      c.1 < 2 ^ c.2 ∧ c.2 ≤ 128 := by
    intro c hc
    rcases List.mem_append.1 hc with hc1 | hc2
    · obtain ⟨b, hbS, hbc⟩ := List.mem_map.1 hc1
      have hbk : b.val ∈ (HuffTree.from_freqs freqs).kleaves :=
        (hkleaves b.val).2 (hentry b hbS)
      have hspec := hmapspec b.val hbk
      rw [← hbc]
      refine ⟨hspec.2, ?_⟩
      have hwl := walksTo_length _ _ _ hspec.1
      rw [codeBits] at hwl
      simp only [List.length_map, List.length_range] at hwl
      omega
    · have hc2e : c = w0.eof := by simpa using hc2
      subst hc2e
      refine ⟨heof2.2, ?_⟩
      have hwl := walksTo_length _ _ _ heof2.1
      rw [codeBits] at hwl
      simp only [List.length_map, List.length_range] at hwl
      omega
  have henc := cliEncode_eq S freqs hcb hcodes
  refine ⟨_, henc, ?_⟩
  rw [cliDecode_eq freqs l r _ hpne hlen32 hroot]
  set cs := S.map fun b => w0.map b.val with hcsdef
  have hlt : (appendCodes (0, 0) (cs ++ [w0.eof])).1 <
      2 ^ (appendCodes (0, 0) (cs ++ [w0.eof])).2 :=
    appendCodes_lt _ 0 0 (by norm_num) (fun c hc => (hcodes c hc).1)
  have hbits := natBytes_bits_split (appendCodes (0, 0) (cs ++ [w0.eof])).1
    (appendCodes (0, 0) (cs ++ [w0.eof])).2 hlt
  have hstream := appendCodes_testBits (cs ++ [w0.eof]) 0 0 (by norm_num)
    (fun c hc => (hcodes c hc).1)
  simp only [List.range_zero, List.map_nil, List.nil_append] at hstream
  rw [hbits, hstream]
  rw [List.flatMap_append]
  simp only [List.flatMap_cons, List.flatMap_nil, List.append_nil]
  have hcseq : cs.flatMap codeBits =
      (S.map fun b => (b.val, w0.map b.val)).flatMap fun c => codeBits c.2 := by
    rw [hcsdef, flatMap_map_eq, flatMap_map_eq]
  rw [List.append_assoc, hcseq]
  have hwalks : ∀ c ∈ S.map fun b => (b.val, w0.map b.val),
      WalksTo (.Branch l r) (codeBits c.2) (.Known c.1) := by
    intro c hc
    obtain ⟨b, hbS, hbc⟩ := List.mem_map.1 hc
    rw [← hbc]
    have hbk := (hkleaves b.val).2 (hentry b hbS)
    have hspec := hmapspec b.val hbk
    rw [← hroot]
    exact hspec.1
  have heofwalk : WalksTo (.Branch l r) (codeBits w0.eof) .EOF := by
    rw [← hroot]
    exact heof2.1
  have heofne : codeBits w0.eof ≠ [] := by
    intro hnil
    have h1 := heof2.1
    rw [hnil, WalksTo, hroot] at h1
    exact absurd h1 (by simp)
  rw [feedSpec_codes l r (S.map fun b => (b.val, w0.map b.val)) (codeBits w0.eof)
    (List.replicate (8 * (((appendCodes (0, 0) (cs ++ [w0.eof])).2 + 7) / 8) -
      (appendCodes (0, 0) (cs ++ [w0.eof])).2) false) hwalks heofwalk heofne]
  simp only [List.map_map]
  rfl

/-- Witness for C1 on the one-byte input `[69]`. -/
theorem encode_decode_roundtrip_witness :
    ([(69 : Fin 256)] : List (Fin 256)) ≠ [] ∧
    ∃ out, cliEncode [(69 : Fin 256)] = .ok out ∧
      cliDecode out = .ok ([(69 : Fin 256)].map Fin.val) :=
  ⟨by decide, encode_decode_roundtrip [(69 : Fin 256)] (by decide)⟩
